import Mathlib

/-!
# Command-line editor: dictionary trie, spell checker, key decoder, row engine

A shallow embedding of `dictionary.c`, `spell.c` and the buffer and key
handling parts of `editor.c`, followed by the properties proved about them.

Conventions of the embedding

* a byte is a `Nat` below 256; a C string is the list of its bytes before the
  terminating NUL;
* a pointer into the node arena `nodeBucket` is the index of the node it points
  at, `NULL` is `none`;
* a function whose C original can touch storage outside the object it was given
  returns an `Option`; `none` stands for undefined behaviour.
-/

set_option maxRecDepth 100000
set_option maxHeartbeats 1000000

/-! ## ctype.h in the "C" locale -/

namespace CType

/-- Upper-case ASCII letter. -/
def isupper (c : Nat) : Bool := decide (65 ≤ c ∧ c ≤ 90)

/-- Lower-case ASCII letter. -/
def islower (c : Nat) : Bool := decide (97 ≤ c ∧ c ≤ 122)

/-- ASCII letter. -/
def isalpha (c : Nat) : Bool := isupper c || islower c

/-- ASCII decimal digit. -/
def isdigit (c : Nat) : Bool := decide (48 ≤ c ∧ c ≤ 57)

/-- ASCII letter or digit. -/
def isalnum (c : Nat) : Bool := isalpha c || isdigit c

/-- Lower-case form of an upper-case letter, every other byte unchanged. -/
def tolower (c : Nat) : Nat := if isupper c then c + 32 else c

end CType

/-! ## dictionary.c -/

namespace Dict

open CType

/-- Alphabet size: 26 letters and the apostrophe (`#define ALPHA 27`). -/
def ALPHA : Nat := 27

/-- The trie node `struct node`: the word flag and `ALPHA` child pointers. -/
structure node where
  is_word : Bool
  children : List (Option Nat)
deriving DecidableEq

/-- A node as `calloc` leaves it: flag clear, every child `NULL`. -/
def zeroNode : node := ⟨false, List.replicate ALPHA none⟩

/-- The globals of `dictionary.c` once `load` has run: the arena `nodeBucket`
(`fileSize` nodes) and the pointer `root`. -/
structure Trie where
  nodeBucket : List node
  root : Nat
deriving DecidableEq

/-- The child pointer `trav->children[k]`; the outer `none` is a read outside the
arena or outside the `children` array. -/
def childAt (nodeBucket : List node) (trav k : Nat) : Option (Option Nat) :=
  match nodeBucket[trav]? with
  | none => none
  | some n => n.children[k]?

/-- The body of the `while` loop of `check`, from the node `trav` on. -/
def checkFrom (nodeBucket : List node) : Nat → List Nat → Option Bool
  | trav, [] => (nodeBucket[trav]?).map (fun n => n.is_word)
  | trav, w :: ws =>
    let c := if isalpha w then tolower w else w
    if c = 39 then
      match childAt nodeBucket trav (ALPHA - 1) with
      | none => none
      | some none => some false
      | some (some next) => checkFrom nodeBucket next ws
    else if isalpha c then
      match childAt nodeBucket trav (c - 97) with
      | none => none
      | some none => some false
      | some (some next) => checkFrom nodeBucket next ws
    else checkFrom nodeBucket trav ws

/-- The function `check`: walks the word from `root`. -/
def check (t : Trie) (word : List Nat) : Option Bool :=
  checkFrom t.nodeBucket t.root word

/-- The locals of `load` that change while the buffer is scanned. -/
structure LoadState where
  nodeBucket : List node
  nextFreeNode : Nat
deriving DecidableEq

/-- The child slot `load` uses for the byte `c`: `ALPHA-1` for the apostrophe,
`c - 'a'` otherwise; `none` when that index lies outside `children`. -/
def slot (c : Nat) : Option Nat :=
  if c = 39 then some (ALPHA - 1)
  else if 97 ≤ c ∧ c - 97 < ALPHA then some (c - 97)
  else none

/-- Stores `p` in `trav->children[k]`. -/
def setChild (nodeBucket : List node) (trav k p : Nat) : List node :=
  match nodeBucket[trav]? with
  | none => nodeBucket
  | some n => nodeBucket.set trav { n with children := n.children.set k (some p) }

/-- One pass of the inner `for` loop of `load` on the byte `c`: take the child
slot of `c` under `trav`, fill it with `nextFreeNode++` when it is `NULL`, and
move `trav` to it. -/
def loadChar (s : LoadState) (trav c : Nat) : Option (LoadState × Nat) :=
  match slot c with
  | none => none
  | some k =>
    match childAt s.nodeBucket trav k with
    | none => none
    | some (some next) => some (s, next)
    | some none =>
      some (⟨setChild s.nodeBucket trav k s.nextFreeNode, s.nextFreeNode + 1⟩,
            s.nextFreeNode)

/-- The assignment `trav->is_word = true`. -/
def markWord (s : LoadState) (trav : Nat) : Option LoadState :=
  match s.nodeBucket[trav]? with
  | none => none
  | some n => some { s with nodeBucket := s.nodeBucket.set trav { n with is_word := true } }

/-- The two nested loops of `load` over the rest of the buffer. `trav` is `none`
at the test of the outer `while` and `some p` inside the inner `for`; the outer
loop body starts by `trav = root`. A NUL byte or the end of the buffer ends
both loops. -/
def loadFrom (root : Nat) : List Nat → Option Nat → LoadState → Option LoadState
  | [], none, s => some s
  | [], some trav, s => markWord s trav
  | c :: cs, tv, s =>
    if c = 0 then
      match tv with
      | none => some s
      | some trav => markWord s trav
    else
      let trav := tv.getD root
      if c = 10 then
        match markWord s trav with
        | none => none
        | some s1 => loadFrom root cs none s1
      else
        match loadChar s trav c with
        | none => none
        | some (s1, next) => loadFrom root cs (some next) s1

/-- The function `load` on the bytes of the dictionary file (the file could be
opened): the arena has `fileSize` zeroed nodes, `nextFreeNode` starts at
`nodeBucket` and `root` is `nextFreeNode + 1`. -/
def load (file : List Nat) : Option Trie :=
  let fileSize := file.length
  let nextFreeNode := 0
  let root := nextFreeNode + 1
  match loadFrom root file none ⟨List.replicate fileSize zeroNode, nextFreeNode⟩ with
  | none => none
  | some s => some ⟨s.nodeBucket, root⟩

/-- The bytes of a wordlist file: every word followed by a newline. -/
def wordlistFile (ws : List (List Nat)) : List Nat :=
  ws.flatMap (fun w => w ++ [10])

/-- A dictionary word: a non-empty string of lower-case letters and apostrophes. -/
def isDictWord (w : List Nat) : Prop :=
  w ≠ [] ∧ ∀ c ∈ w, islower c = true ∨ c = 39

instance (w : List Nat) : Decidable (isDictWord w) := by
  unfold isDictWord; exact inferInstance

/-- Case folding as `check` applies it to a byte. -/
def caseFold (c : Nat) : Nat := if isalpha c then tolower c else c

/-- Walk of an already folded word along the child links, from `trav`. -/
def walk (nodeBucket : List node) : Nat → List Nat → Option Nat
  | trav, [] => some trav
  | trav, c :: cs =>
    match slot c with
    | none => none
    | some k =>
      match childAt nodeBucket trav k with
      | some (some next) => walk nodeBucket next cs
      | _ => none

/-- The node at index `i` exists and carries the word flag. -/
def isWordAt (nodeBucket : List node) (i : Nat) : Prop :=
  ∃ n, nodeBucket[i]? = some n ∧ n.is_word = true

/-- The arena `b` extends the arena `a`: same size, every link and every word
flag of `a` is still there in `b`. -/
structure Ext (a b : List node) : Prop where
  len : a.length = b.length
  child : ∀ i k p, childAt a i k = some (some p) → childAt b i k = some (some p)
  word : ∀ i, isWordAt a i → isWordAt b i

/-- Shape of the arena while `load` runs: `N` nodes of `ALPHA` child slots each,
every link points below `nextFreeNode`. -/
structure Inv (N : Nat) (s : LoadState) : Prop where
  len : s.nodeBucket.length = N
  kids : ∀ (i : Nat) (n : node), s.nodeBucket[i]? = some n → n.children.length = ALPHA
  ptr : ∀ i k p, childAt s.nodeBucket i k = some (some p) → p < s.nextFreeNode

/-- The inner `for` loop of `load` on the bytes of one word. -/
def insertWord (s : LoadState) : Nat → List Nat → Option (LoadState × Nat)
  | trav, [] => some (s, trav)
  | trav, c :: cs =>
    match loadChar s trav c with
    | none => none
    | some (s1, next) => insertWord s1 next cs

/-- Bytes a dictionary word is made of. -/
def isDictByte (c : Nat) : Prop := islower c = true ∨ c = 39

end Dict

/-! ## spell.c -/

namespace Spell

open CType Dict

/-- Maximum length of a word (`#define LENGTH 45` in dictionary.h). -/
def LENGTH : Nat := 45

/-- Number of entries `loadDictionary` allocates for `miswords`. -/
def INITIAL_SIZE : Nat := 100

/-- The record `struct misspelling`: start and end index of a misspelled word. -/
structure misspelling where
  start : Int
  stop : Int
deriving DecidableEq

/-- The locals of `spellChecker` together with the shared array `miswords`.
`word` holds the bytes `word[0..index)`, so `index` is `word.length`. -/
structure SpellState where
  i : Nat
  word : List Nat
  words : Nat
  cursor : Nat
  misspellings : Nat
  miswords : List misspelling
deriving DecidableEq

/-- The loop `while (p(text[i])) i++` on the bytes from index `i` on: the index
of the first byte that fails `p`; `none` when the scan runs off the buffer. -/
def skipRun (p : Nat → Bool) : List Nat → Nat → Option Nat
  | [], _ => none
  | c :: cs, i => if p c then skipRun p cs (i + 1) else some i

/-- One pass of the `for` loop of `spellChecker` (its body, then `cursor++` and
`i++`), for `i < len`. -/
def spellStep (t : Trie) (text : List Nat) (st : SpellState) : Option SpellState :=
  match text[st.i]? with
  | none => none
  | some c =>
    if isalpha c || (c = 39 && decide (0 < st.word.length)) then
      -- word[index] = text[i]; index++
      if st.word.length ≤ LENGTH then
        let word := st.word ++ [c]
        if word.length > LENGTH then
          match skipRun isalpha (text.drop st.i) st.i with
          | none => none
          | some j => some { st with i := j + 1, word := [], cursor := st.cursor + 1 }
        else some { st with i := st.i + 1, word := word, cursor := st.cursor + 1 }
      else none
    else if isdigit c then
      match skipRun isalnum (text.drop st.i) st.i with
      | none => none
      | some j => some { st with i := j + 1, word := [], cursor := st.cursor + 1 }
    else if 0 < st.word.length then
      -- word[index] = 0; words++; check(word)
      match check t st.word with
      | none => none
      | some true =>
        some { st with i := st.i + 1, word := [], words := st.words + 1,
                       cursor := st.cursor + 1 }
      | some false =>
        -- the inner declaration of miswords is passed to realloc before it has a value
        if st.misspellings = INITIAL_SIZE + 1 then none
        else if st.misspellings < st.miswords.length then
          some { st with
            i := st.i + 1, word := [], words := st.words + 1, cursor := st.cursor + 1,
            miswords := st.miswords.set st.misspellings
              ⟨(st.cursor : Int) - (st.word.length : Int), (st.cursor : Int)⟩,
            misspellings := st.misspellings + 1 }
        else none
    else some { st with i := st.i + 1, cursor := st.cursor + 1 }

/-- The `for` loop of `spellChecker`; `fuel` bounds the number of passes. -/
def spellLoop (t : Trie) (text : List Nat) (len : Nat) : Nat → SpellState → Option SpellState
  | 0, st => if st.i < len then none else some st
  | fuel + 1, st =>
    if st.i < len then
      match spellStep t text st with
      | none => none
      | some st1 => spellLoop t text len fuel st1
    else some st

/-- The function `spellChecker(text, len, misspellings)` with the dictionary `t`
loaded and `miswords` as the shared array: the returned count and the array
afterwards. `text` is the whole buffer the pointer refers to; every pass
advances `i`, so `len` passes are enough. -/
def spellChecker (t : Trie) (miswords : List misspelling) (text : List Nat) (len : Nat)
    (misspellings : Nat) : Option (Nat × List misspelling) :=
  match spellLoop t text len len ⟨0, [], 0, 0, misspellings, miswords⟩ with
  | none => none
  | some st => some (st.misspellings, st.miswords)

/-- The array `miswords` right after `loadDictionary`: `INITIAL_SIZE` entries. -/
def freshMiswords : List misspelling := List.replicate INITIAL_SIZE ⟨0, 0⟩

end Spell

/-! ## editor.c: key input -/

namespace Editor

/-- The escape byte (`#define ESC 0x001b`). -/
def ESC : Int := 27
/-- The key code `#define BACKSPACE 127`. -/
def BACKSPACE : Int := 127
/-- The first value of `enum editorKey`. -/
def ARROW_LEFT : Int := 1000
/-- Second value of `enum editorKey`. -/
def ARROW_RIGHT : Int := 1001
/-- Third value of `enum editorKey`. -/
def ARROW_UP : Int := 1002
/-- Fourth value of `enum editorKey`. -/
def ARROW_DOWN : Int := 1003
/-- Fifth value of `enum editorKey`. -/
def DEL_KEY : Int := 1004
/-- Sixth value of `enum editorKey`. -/
def PAGE_UP : Int := 1005
/-- Seventh value of `enum editorKey`. -/
def PAGE_DOWN : Int := 1006

/-- The definition `CTRL_KEY(k)`, `k & 0x1f`, on a byte. -/
def CTRL_KEY (k : Nat) : Int := ((k % 32 : Nat) : Int)

/-- What one call `read(STDIN_FILENO, &c, 1)` delivers: a byte (return value 1),
no byte yet (return value 0 after the VTIME wait, or -1 with `EAGAIN`), or a
read error with another `errno`. -/
inductive ReadResult where
  | byte (b : Nat)
  | stall
  | fail
deriving DecidableEq

/-- Outcome of one call of `readKey` on the stream of read results: the key
returned and the reads left for later calls; `die` when `die("read")` ends the
process; `waiting` when the stream ends while the first loop is still
retrying. A stream that has ended delivers no byte, like a stall. -/
inductive KeyResult where
  | key (k : Int) (rest : List ReadResult)
  | die
  | waiting
deriving DecidableEq

/-- The value of a `char` holding the byte `b` once it is converted to `int`
(`char` is signed on the editor's platform). -/
def charToInt (b : Nat) : Int := if b < 128 then (b : Int) else (b : Int) - 256

/-- The `switch (seq[1])` for the sequence `ESC [ digit ~`. -/
def tildeKey (d : Nat) : Int :=
  if d = 51 then DEL_KEY else if d = 53 then PAGE_UP else if d = 54 then PAGE_DOWN else ESC

/-- The `switch (seq[1])` for the sequence `ESC [ letter`. -/
def letterKey (b : Nat) : Int :=
  if b = 65 then ARROW_UP else if b = 66 then ARROW_DOWN
  else if b = 67 then ARROW_RIGHT else if b = 68 then ARROW_LEFT else ESC

/-- The branch `if (c == ESC)` of `readKey`: two reads into `seq[0]` and
`seq[1]`, each returning `ESC` when it delivers no byte, then the decoding. -/
def readEscape : List ReadResult → KeyResult
  | [] => .key ESC []
  | .stall :: rest => .key ESC rest
  | .fail :: rest => .key ESC rest
  | [.byte _] => .key ESC []
  | .byte _ :: .stall :: rest => .key ESC rest
  | .byte _ :: .fail :: rest => .key ESC rest
  | .byte s0 :: .byte s1 :: rest =>
    if s0 = 91 then
      if 48 ≤ s1 ∧ s1 ≤ 57 then
        match rest with
        | [] => .key ESC []
        | .stall :: rest2 => .key ESC rest2
        | .fail :: rest2 => .key ESC rest2
        | .byte s2 :: rest2 => if s2 = 126 then .key (tildeKey s1) rest2 else .key ESC rest2
      else .key (letterKey s1) rest
    else .key ESC rest

/-- The function `readKey`: retry until a byte arrives, then decode it. -/
def readKey : List ReadResult → KeyResult
  | [] => .waiting
  | .stall :: rest => readKey rest
  | .fail :: _ => .die
  | .byte c :: rest => if c = 27 then readEscape rest else .key (charToInt c) rest

/-- The reads left once the leading stalls are dropped. -/
def afterStalls : List ReadResult → List ReadResult
  | .stall :: rest => afterStalls rest
  | input => input

/-- The reads `0x1B b r ...` with a byte `b` other than `[`: the read `r` that
follows `b` and the reads after it. -/
def escapeThenOther : List ReadResult → Option (ReadResult × List ReadResult)
  | .byte 27 :: .byte b :: r :: rest => if b ≠ 91 then some (r, rest) else none
  | _ => none

/-- The seven recognised sequences, without the leading 0x1B. -/
def recognisedTails : List (List Nat) :=
  [[91, 65], [91, 66], [91, 67], [91, 68], [91, 51, 126], [91, 53, 126], [91, 54, 126]]

/-- The reads after 0x1B start with the bytes of a recognised sequence. -/
def recognised (input : List ReadResult) : Prop :=
  ∃ tail ∈ recognisedTails, input.take tail.length = tail.map ReadResult.byte

instance (input : List ReadResult) : Decidable (recognised input) := by
  unfold recognised; exact inferInstance

/-- States of the decoder the specification describes. -/
inductive DecoderState where
  | Idle
  | SawEscape
  | SawBracket
  | SawBracketDigit (d : Nat)
deriving DecidableEq

/-- The decoder as the specification words it, one read per transition: from
`Idle` the byte 0x1B moves to `SawEscape` and any other byte is emitted; from
`SawEscape` the byte `[` moves to `SawBracket`, anything else or a stall emits
Escape; from `SawBracket` a digit moves to `SawBracketDigit`, `A`-`D` emit the
arrows, anything else or a stall emits Escape; from `SawBracketDigit` a `~`
maps 3, 5, 6 to Delete, PageUp, PageDown, anything else or a stall emits
Escape. A read error is fatal. -/
def specDecode : DecoderState → List ReadResult → KeyResult
  | .Idle, [] => .waiting
  | _, [] => .key ESC []
  | _, .fail :: _ => .die
  | .Idle, .stall :: rest => specDecode .Idle rest
  | _, .stall :: rest => .key ESC rest
  | .Idle, .byte b :: rest =>
    if b = 27 then specDecode .SawEscape rest else .key (charToInt b) rest
  | .SawEscape, .byte b :: rest =>
    if b = 91 then specDecode .SawBracket rest else .key ESC rest
  | .SawBracket, .byte b :: rest =>
    if 48 ≤ b ∧ b ≤ 57 then specDecode (.SawBracketDigit b) rest
    else if b = 65 then .key ARROW_UP rest
    else if b = 66 then .key ARROW_DOWN rest
    else if b = 67 then .key ARROW_RIGHT rest
    else if b = 68 then .key ARROW_LEFT rest
    else .key ESC rest
  | .SawBracketDigit d, .byte b :: rest =>
    if b = 126 then
      if d = 51 then .key DEL_KEY rest
      else if d = 53 then .key PAGE_UP rest
      else if d = 54 then .key PAGE_DOWN rest
      else .key ESC rest
    else .key ESC rest

end Editor

/-! ## editor.c: rows, cursor and editing -/

namespace Editor

/-- Tab width (`#define TABS 8`). -/
def TABS : Nat := 8
/-- The tag `NORMAL` of `enum wordType`. -/
def NORMAL : Nat := 0
/-- The tag `MISSPELLED` of `enum wordType`. -/
def MISSPELLED : Nat := 1

/-- One row, `struct rows`: `chars` holds the `size` bytes of the row, `render`
the `rsize` bytes of its rendered form, `hl` the highlight tags. The buffer
`chars` points at has room for one byte more, `chars[size]`; `term` is that
byte: `some b` once the code has stored `b` there, `none` while nothing has
been stored there (`writeRow` allocates `len + 1` bytes and copies `len`). -/
structure rows where
  chars : List Nat := []
  render : List Nat := []
  hl : List Nat := []
  term : Option Nat := none
deriving DecidableEq

/-- The field `size` of a row. -/
def rows.size (r : rows) : Int := (r.chars.length : Int)

/-- The field `rsize` of a row. -/
def rows.rsize (r : rows) : Nat := r.render.length

/-- The global `struct editorData E`, without the file name, the status message
and the terminal attributes. `row` holds the `numrows` rows. -/
structure editorData where
  cx : Int := 0
  cy : Int := 0
  rx : Int := 0
  rowoff : Int := 0
  coloff : Int := 0
  screenrows : Int := 0
  screencols : Int := 0
  row : List rows := []
  modified : Bool := false
  highlight : Bool := false
  start : Int := -1
  stop : Int := -1
deriving DecidableEq

/-- The field `numrows`. -/
def editorData.numrows (E : editorData) : Int := (E.row.length : Int)

/-- The row `E.row[i]`; `none` when `i` is not the index of a row. -/
def getRow (E : editorData) (i : Int) : Option rows :=
  if 0 ≤ i then E.row[i.toNat]? else none

/-- The assignment `E.row[i] = r` for an existing row. -/
def setRow (E : editorData) (i : Int) (r : rows) : editorData :=
  { E with row := E.row.set i.toNat r }

/-- The loop `while (idx % TABS != 0) render[idx++] = ' '` of `renderRow`. -/
def padTab : Nat → List Nat → List Nat
  | 0, render => render
  | fuel + 1, render =>
    if render.length % TABS ≠ 0 then padTab fuel (render ++ [32]) else render

/-- The second `for` loop of `renderRow`: a tab becomes one space and then
spaces up to the next tab stop, every other byte is copied. -/
def renderChars : List Nat → List Nat → List Nat
  | [], render => render
  | c :: cs, render =>
    if c = 9 then renderChars cs (padTab TABS (render ++ [32]))
    else renderChars cs (render ++ [c])

/-- The function `highlightWords` on a row whose render form is already set:
outside highlight mode every tag is first set to `NORMAL`; then the positions
from `E.start` to `E.end` become `MISSPELLED`. In highlight mode the remaining
tags are the old ones (a tag `realloc` adds is taken to be `NORMAL`). -/
def highlightWords (E : editorData) (r : rows) : rows :=
  let old : List Nat := if E.highlight then r.hl else []
  { r with hl := (List.range r.rsize).map (fun (i : Nat) =>
      if E.start ≤ (i : Int) ∧ (i : Int) ≤ E.stop then MISSPELLED else old.getD i NORMAL) }

/-- The function `renderRow`. -/
def renderRow (E : editorData) (r : rows) : rows :=
  highlightWords E { r with render := renderChars r.chars [] }

/-- The function `writeRow(index, line, len)`, `line` being the `len` bytes to
copy. The byte `chars[len]` of the new row is not written, so its `term` is
`none`. -/
def writeRow (E : editorData) (index : Int) (line : List Nat) : editorData :=
  if index < 0 ∨ index > E.numrows then E
  else
    let r := renderRow E { chars := line, render := [], hl := [] }
    { E with row := E.row.take index.toNat ++ r :: E.row.drop index.toNat, modified := true }

/-- The function `insertCharToRow(&E.row[cy], c)`. The `memmove` takes the byte
`chars[size]` along, so `term` stays what it was. -/
def insertCharToRow (E : editorData) (c : Int) : Option editorData :=
  match getRow E E.cy with
  | none => none
  | some r =>
    let cx := if E.cx < 0 ∨ E.cx > r.size then r.size else E.cx
    let chars := r.chars.take cx.toNat ++ (c % 256).toNat :: r.chars.drop cx.toNat
    some { setRow E E.cy (renderRow E { r with chars := chars }) with cx := cx + 1 }

/-- The function `insertChar`. -/
def insertChar (E : editorData) (c : Int) : Option editorData :=
  let E1 := { E with modified := true }
  let E2 := if E1.cy = E1.numrows then writeRow E1 E1.numrows [] else E1
  insertCharToRow E2 c

/-- The function `insertNewline`. In the second branch the row is cut to `cx`
bytes and a NUL is stored at `chars[size]`. -/
def insertNewline (E : editorData) : Option editorData :=
  if E.cx = 0 then
    some { writeRow E E.cy [] with cy := E.cy + 1, cx := 0 }
  else
    match getRow E E.cy with
    | none => none
    | some r =>
      if 0 ≤ E.cx ∧ E.cx ≤ r.size then
        let E1 := writeRow E (E.cy + 1) (r.chars.drop E.cx.toNat)
        match getRow E1 E1.cy with
        | none => none
        | some r1 =>
          let E2 := setRow E1 E1.cy
            (renderRow E1 { r1 with chars := r1.chars.take E1.cx.toNat, term := some 0 })
          some { E2 with cy := E2.cy + 1, cx := 0 }
      else none

/-- The function `deleteCharinRow(&E.row[cy])`. The `memmove` takes the byte
`chars[size]` along, so `term` stays what it was. -/
def deleteCharinRow (E : editorData) : Option editorData :=
  match getRow E E.cy with
  | none => none
  | some r =>
    if E.cx - 1 < 0 ∨ E.cx - 1 ≥ r.size then some E
    else
      let chars := r.chars.take (E.cx - 1).toNat ++ r.chars.drop E.cx.toNat
      some { setRow E E.cy (renderRow E { r with chars := chars }) with
             cx := E.cx - 1, modified := true }

/-- The function `moveUp`. -/
def moveUp (E : editorData) : editorData :=
  if E.cy < 0 ∨ E.cy ≥ E.numrows then E
  else { E with row := E.row.take E.cy.toNat ++ E.row.drop (E.cy.toNat + 1) }

/-- The function `deleteMoveUp(&E.row[cy-1], E.row[cy].chars, E.row[cy].size)`.
A NUL is stored at `chars[size]` of the row that takes the bytes. -/
def deleteMoveUp (E : editorData) : Option editorData :=
  match getRow E (E.cy - 1), getRow E E.cy with
  | some above, some r =>
    let E1 := { E with cx := above.size }
    let E2 := setRow E1 (E1.cy - 1)
      (renderRow E1 { above with chars := above.chars ++ r.chars, term := some 0 })
    let E3 := moveUp E2
    some { E3 with cy := E3.cy - 1 }
  | _, _ => none

/-- The function `deleteChar`. -/
def deleteChar (E : editorData) : Option editorData :=
  if E.cy = E.numrows ∨ (E.cx = 0 ∧ E.cy = 0) then some E
  else if E.cx > 0 then deleteCharinRow E
  else deleteMoveUp E

/-- The loop `while (row->size > 0 && E.cy < E.numrows) deleteCharinRow(row)` of
`deleteLine`; `fuel` bounds the number of passes. -/
def deleteLineLoop : Nat → editorData → Option editorData
  | 0, E =>
    match getRow E E.cy with
    | none => none
    | some r => if r.size > 0 ∧ E.cy < E.numrows then none else some E
  | fuel + 1, E =>
    match getRow E E.cy with
    | none => none
    | some r =>
      if r.size > 0 ∧ E.cy < E.numrows then
        match deleteCharinRow E with
        | none => none
        | some E1 => deleteLineLoop fuel E1
      else some E

/-- The function `deleteLine`. The row `E.row[cy]` is read before any test, so
the cursor has to be on a row; the loop removes one byte per pass, so
`size` passes are enough. -/
def deleteLine (E : editorData) : Option editorData :=
  match getRow E E.cy with
  | none => none
  | some r =>
    match deleteLineLoop r.chars.length { E with cx := r.size } with
    | none => none
    | some E1 => some (if E1.cy < E1.numrows then moveUp E1 else E1)

/-- The `switch` of `moveCursor`. -/
def moveCursorSwitch (E : editorData) (key : Int) : Option editorData :=
  let up : editorData := if E.cy ≠ 0 then { E with cy := E.cy - 1 } else E
  if key = ARROW_LEFT then
    if E.cx ≠ 0 then some { E with cx := E.cx - 1 }
    else if E.cy > 0 then
      match getRow E (E.cy - 1) with
      | none => none
      | some r => some { E with cy := E.cy - 1, cx := r.size }
    else some E
  else if key = ARROW_RIGHT then
    if E.cy ≥ E.numrows then some up
    else
      match getRow E E.cy with
      | none => none
      | some r =>
        if E.cx < r.size then some { E with cx := E.cx + 1 }
        else if E.cx = r.size then some { E with cy := E.cy + 1, cx := 0 }
        else some E
  else if key = ARROW_UP then some up
  else if key = ARROW_DOWN then
    if E.cy < E.numrows then some { E with cy := E.cy + 1 } else some E
  else some E

/-- The function `moveCursor`: the `switch`, then the column is cut back to the
length of the row the cursor is on. -/
def moveCursor (E : editorData) (key : Int) : Option editorData :=
  match moveCursorSwitch E key with
  | none => none
  | some E1 =>
    if E1.cy ≥ E1.numrows then some (if E1.cx > 0 then { E1 with cx := 0 } else E1)
    else
      match getRow E1 E1.cy with
      | none => none
      | some r => some (if E1.cx > r.size then { E1 with cx := r.size } else E1)

/-- The `switch` of `processKeypress` on the key `c` that `readKey` returned, for
the keys that move the cursor or edit the buffer. The commands that leave the
buffer model (quit, help, save, spell check, copy file, delete file) give
`none`. -/
def processKeypress (E : editorData) (c : Int) : Option editorData :=
  if c = CTRL_KEY 113 ∨ c = CTRL_KEY 120 ∨ c = CTRL_KEY 115 then none
  else if c = CTRL_KEY 107 then deleteLine E
  else if c = CTRL_KEY 102 ∨ c = CTRL_KEY 99 ∨ c = CTRL_KEY 100 then none
  else if c = ESC then some E
  else if c = 13 ∨ c = 10 then insertNewline E
  else if c = BACKSPACE ∨ c = DEL_KEY ∨ c = CTRL_KEY 104 then deleteChar E
  else if c = PAGE_UP then some { E with cy := E.rowoff }
  else if c = PAGE_DOWN then
    let cy := E.rowoff + E.screenrows - 1
    some { E with cy := if cy > E.numrows then E.numrows else cy }
  else if c = ARROW_UP ∨ c = ARROW_DOWN ∨ c = ARROW_LEFT ∨ c = ARROW_RIGHT then moveCursor E c
  else insertChar E c

/-- The cursor invariant: the row index lies in `[0, numrows]` and the column in
`[0, size of that row]`, the line past the last row having size 0. -/
def cursorInv (E : editorData) : Prop :=
  0 ≤ E.cy ∧ E.cy ≤ E.numrows ∧ 0 ≤ E.cx ∧
    E.cx ≤ (match getRow E E.cy with
            | some r => r.size
            | none => 0)

instance (E : editorData) : Decidable (cursorInv E) := by
  unfold cursorInv; exact inferInstance

/-- The editing calls of the row engine. -/
inductive EditOp where
  | insertChar (c : Int)
  | insertNewline
  | deleteChar
deriving DecidableEq

/-- One editing call on the state. -/
def applyOp (E : editorData) : EditOp → Option editorData
  | .insertChar c => insertChar E c
  | .insertNewline => insertNewline E
  | .deleteChar => deleteChar E

/-- A sequence of editing calls, one after the other. -/
def runOps : List EditOp → editorData → Option editorData
  | [], E => some E
  | op :: ops, E =>
    match applyOp E op with
    | none => none
    | some E1 => runOps ops E1

/-- The keys of a list handed to `processKeypress` one after the other. -/
def processKeys : List Int → editorData → Option editorData
  | [], E => some E
  | c :: cs, E =>
    match processKeypress E c with
    | none => none
    | some E1 => processKeys cs E1

end Editor

/-! ## editor.c: scrolling and the spell-check command -/

namespace Editor

open Dict Spell

/-- The `for` loop of `scroll` that walks `chars[i]` for the next `n` columns
from column `i` on: a tab moves `rx` to the column before the next tab stop,
and every byte then adds one. `none` when a column beyond the row is read. -/
def rxLoop (chars : List Nat) : Nat → Nat → Int → Option Int
  | 0, _, rx => some rx
  | n + 1, i, rx =>
    match chars[i]? with
    | none => none
    | some c =>
      let rx1 := if c = 9 then rx + (((TABS : Int) - 1) - rx % (TABS : Int)) else rx
      rxLoop chars n (i + 1) (rx1 + 1)

/-- The function `scroll`: the render column `rx` of the cursor, then the two
offsets are moved so that the cursor is inside the window. -/
def scroll (E : editorData) : Option editorData :=
  let rx : Option Int :=
    if E.cy < E.numrows ∧ 0 < E.cx then
      match getRow E E.cy with
      | none => none
      | some r => rxLoop r.chars E.cx.toNat 0 0
    else some 0
  match rx with
  | none => none
  | some rx =>
    let rowoff :=
      if E.cy < E.rowoff then E.cy
      else if E.cy ≥ E.rowoff + E.screenrows then E.cy - E.screenrows + 1
      else E.rowoff
    let coloff :=
      if rx < E.coloff then rx
      else if rx ≥ E.coloff + E.screencols then rx - E.screencols + 1
      else E.coloff
    some { E with rx := rx, rowoff := rowoff, coloff := coloff }

/-- The tab expansion the specification describes, continuing the output `out`:
a tab is replaced by the spaces that fill the output up to the next multiple
of the tab width, every other byte passes through unchanged. -/
def tabExpansion : List Nat → List Nat → List Nat
  | [], out => out
  | c :: cs, out =>
    if c = 9 then tabExpansion cs (out ++ List.replicate (TABS - out.length % TABS) 32)
    else tabExpansion cs (out ++ [c])

/-- How a call of a command ends: it returns to the editor loop with the state
`E`, the process ends with an exit status, or the behaviour is undefined. -/
inductive Outcome where
  | returns (E : editorData)
  | exits (status : Nat)
  | undefined
deriving DecidableEq

/-- The inner `for` loop of `spellCheck` for row `i`: for the next `n` entries
of `miswords` from entry `j` on, highlight mode is switched on, `E.start` and
`E.end` take the span and the row is rendered. -/
def markRow (miswords : List misspelling) (i : Nat) : Nat → Nat → editorData → Option editorData
  | 0, _, E => some E
  | n + 1, j, E =>
    match miswords[j]?, E.row[i]? with
    | some m, some r =>
      let E1 := { E with highlight := true, start := m.start, stop := m.stop }
      markRow miswords i n (j + 1) { E1 with row := E1.row.set i (renderRow E1 r) }
    | _, _ => none

/-- The bytes of the buffer `chars` of a row that hold a value: the `size` bytes
of the row, and the byte `chars[size]` when one has been stored there. -/
def rows.buffer (r : rows) : List Nat :=
  match r.term with
  | some b => r.chars ++ [b]
  | none => r.chars

/-- The outer `for` loop of `spellCheck` over the next `n` rows from row `i` on.
`spellChecker` gets the buffer of the row and the row size as `len`, and fills
the shared array `miswords` from entry 0. -/
def checkRows (t : Trie) : Nat → Nat → List misspelling → editorData → Option editorData
  | 0, _, _, E => some E
  | n + 1, i, miswords, E =>
    match E.row[i]? with
    | none => none
    | some r =>
      match spellChecker t miswords r.buffer r.chars.length 0 with
      | none => none
      | some (miss, miswords1) =>
        match markRow miswords1 i miss 0 E with
        | none => none
        | some E1 => checkRows t n (i + 1) miswords1 E1

/-- The function `loadDictionary` of spell.c. `dictionary` is the content of the
dictionary file, `none` when `fopen` fails; `load` then returns false and
`loadDictionary` returns 1. Otherwise it returns 0 with the trie loaded and
`miswords` allocated (the allocation is taken to succeed). The outer `none`
is undefined behaviour inside `load`. -/
def loadDictionary (dictionary : Option (List Nat)) :
    Option (Nat × Option (Trie × List misspelling)) :=
  match dictionary with
  | none => some (1, none)
  | some file =>
    match load file with
    | none => none
    | some t => some (0, some (t, freshMiswords))

/-- The function `die`: the screen is cleared, the reason is printed and the
process ends by `exit(1)`. -/
def die : Outcome := .exits 1

/-- The function `spellCheck`: `die` when `loadDictionary` returns 1, otherwise
the loop over the rows, after which highlight mode is switched off and
`E.start`, `E.end` are reset. The status message set at the end is not part of
the state. -/
def spellCheck (dictionary : Option (List Nat)) (E : editorData) : Outcome :=
  match loadDictionary dictionary with
  | none => .undefined
  | some (ret, loaded) =>
    if ret = 1 then die
    else
      match loaded with
      | none => .undefined
      | some (t, miswords) =>
        match checkRows t E.row.length 0 miswords E with
        | none => .undefined
        | some E1 => .returns { E1 with highlight := false, start := -1, stop := -1 }

/-- The bytes of row `i`, none for an index that is not a row (the line past
the last row holds no byte). -/
def rowChars (E : editorData) (i : Int) : List Nat :=
  match getRow E i with
  | some r => r.chars
  | none => []

/-- The highlight masks of the rows once a command has returned. -/
def Outcome.masks : Outcome → Option (List (List Nat))
  | .returns E => some (E.row.map (fun r => r.hl))
  | _ => none

end Editor

/-! ## editor.c: status bar and change-log file name; row predicates -/

namespace Editor

/-- The decimal digits of `n`, most significant first; `fuel` bounds their
number. -/
def decimalDigits : Nat → Nat → List Nat
  | 0, _ => []
  | fuel + 1, n =>
    if n < 10 then [48 + n] else decimalDigits fuel (n / 10) ++ [48 + n % 10]

/-- The text the conversion `%d` produces for an `int`. -/
def formatInt (z : Int) : List Nat :=
  if z < 0 then 45 :: decimalDigits (z.natAbs + 1) z.natAbs
  else decimalDigits (z.toNat + 1) z.toNat

/-- The call `snprintf(buf, size, ...)` for the formatted text `text`: the bytes
it stores in `buf` (at most `size - 1` bytes of the text, then a NUL) and the
value it returns, the length of the whole text. -/
def snprintf (size : Nat) (text : List Nat) : List Nat × Nat :=
  (text.take (size - 1) ++ [0], text.length)

/-- The `while` loop of `displayStatusBar`: spaces are appended until the room
left equals `rlen`, then the right-hand text is appended; `fuel` bounds the
number of passes. -/
def statusLoop (rstatus : List Nat) (rlen screencols : Int) : Nat → Int → List Nat → List Nat
  | 0, _, out => out
  | fuel + 1, len, out =>
    if len < screencols then
      if screencols - len = rlen then out ++ rstatus
      else statusLoop rstatus rlen screencols fuel (len + 1) (out ++ [32])
    else out

/-- The function `displayStatusBar`: the bytes appended to the buffer between
the reverse-video code and the reset code. `filename` is `E.filename`, `none`
for `NULL`. `bufferWrite(ab, status, len)` copies `len` bytes from the array
`status`; `none` when that reads beyond the bytes `snprintf` stored in it. -/
def displayStatusBar (filename : Option (List Nat)) (E : editorData) : Option (List Nat) :=
  let name := filename.getD [91, 78, 111, 32, 78, 97, 109, 101, 93]
  let status := snprintf 80
    ([91, 32] ++ name ++ [32, 45, 32, 82, 69, 65, 68, 32] ++ formatInt E.numrows ++
      [32, 76, 73, 78, 69, 83, 32, 93])
  let rstatus := snprintf 80 ([76, 73, 78, 69, 32] ++ formatInt (E.cy + 1) ++ [32, 9])
  if status.2 ≤ status.1.length ∧ rstatus.2 ≤ rstatus.1.length then
    some (statusLoop (rstatus.1.take rstatus.2) (rstatus.2 : Int) E.screencols
      E.screencols.toNat (status.2 : Int) (status.1.take status.2))
  else none

/-- The call `strchr(s, c)` as an index into `s`, `none` for `NULL`. -/
def strchrIndex (c : Nat) : List Nat → Option Nat
  | [] => none
  | x :: xs => if x = c then some 0 else (strchrIndex c xs).map (fun i => i + 1)

/-- The function `changeLogFilename`. The copy made by `strdup` has
`strlen(filename) + 1` bytes. `index` is the position of the first `.`; it has
no value when the name holds none. A NUL is stored at `strlen(filename) -
index`, and `strcat` then stores the four bytes of `.log` and a NUL from there
on; `none` when that runs beyond the copy. -/
def changeLogFilename (filename : List Nat) : Option (List Nat) :=
  match strchrIndex 46 filename with
  | none => none
  | some index =>
    let cut := filename.length - index
    let kept := filename.take cut
    if kept.length + 5 ≤ filename.length + 1 then some (kept ++ [46, 108, 111, 103])
    else none

/-- The highlight mask of a row has the length of its render form. -/
def hlOk (r : rows) : Prop := r.hl.length = r.rsize

/-- Every row of the document has a highlight mask of the length of its render
form. -/
def hlInv (E : editorData) : Prop := ∀ r ∈ E.row, hlOk r

instance (r : rows) : Decidable (hlOk r) := by
  unfold hlOk; exact inferInstance

instance (E : editorData) : Decidable (hlInv E) := by
  unfold hlInv; exact inferInstance

end Editor

namespace Spell

open CType

/-- Where a left-to-right scan of a row stands with respect to the runs of
alphanumeric bytes: `letters k` after `k` letters of a run that has shown no
digit yet (`letters 0` outside any run), `digitSeen` inside a run after its
first digit. -/
inductive RunState where
  | letters (k : Nat)
  | digitSeen
deriving DecidableEq

/-- Every maximal run of alphanumeric bytes of the row holds a digit, and at
most `maxLetters` letters come before the first digit of a run; the scan
starts in the state given. With `maxLetters` the length of the row the
second condition says nothing. -/
def runsOk (maxLetters : Nat) : RunState → List Nat → Bool
  | .letters k, [] => decide (k = 0)
  | .digitSeen, [] => true
  | .letters k, c :: cs =>
    if isdigit c then runsOk maxLetters .digitSeen cs
    else if isalpha c then decide (k < maxLetters) && runsOk maxLetters (.letters (k + 1)) cs
    else decide (k = 0) && runsOk maxLetters (.letters 0) cs
  | .digitSeen, c :: cs =>
    if isalnum c then runsOk maxLetters .digitSeen cs else runsOk maxLetters (.letters 0) cs

/-- A byte a token can continue with: a letter or an apostrophe. -/
def isTokenByte (c : Nat) : Prop := isalpha c = true ∨ c = 39

/-- The last byte of the list is a digit. -/
def endsWithDigit (l : List Nat) : Bool :=
  match l.getLast? with
  | some c => isdigit c
  | none => false

instance (c : Nat) : Decidable (isTokenByte c) := by
  unfold isTokenByte; exact inferInstance

end Spell

/-! ## editor.c: file input and output -/

namespace Editor

/-- The function `rowsToString`: the bytes written to the string (every row
followed by a newline) and the value stored in `*length`. -/
def rowsToString (E : editorData) : List Nat × Int :=
  let totlen : Int := E.row.foldl (fun (tot : Int) (r : rows) => tot + (r.size + 1)) 0
  let string : List Nat := E.row.foldl (fun (s : List Nat) (r : rows) => s ++ r.chars ++ [10]) []
  (string, totlen)

/-- The call `getline(&line, &linecap, fp)` on a stream whose unread bytes are
given: the line read, up to and including the first newline or up to the end
of the stream, and the bytes left unread; `none` (the result -1) at the end of
the stream. -/
def getline : List Nat → Option (List Nat × List Nat)
  | [] => none
  | c :: cs =>
    if c = 10 then some ([10], cs)
    else
      match getline cs with
      | none => some ([c], [])
      | some (line, rest) => some (c :: line, rest)

/-- The bytes `line[0..linelen)` after the test of `loadFile` on the last byte
of the line: one trailing newline or carriage return is left out. -/
def stripEol (line : List Nat) : List Nat :=
  if line.length > 0 ∧ (line.getLast? = some 10 ∨ line.getLast? = some 13) then
    line.take (line.length - 1)
  else line

/-- The `while` loop of `loadFile` on the unread bytes `fp` of the file: every
line read is appended as a row. `fuel` bounds the number of passes. -/
def loadLines : Nat → List Nat → editorData → Option editorData
  | 0, fp, E =>
    match getline fp with
    | none => some E
    | some _ => none
  | fuel + 1, fp, E =>
    match getline fp with
    | none => some E
    | some (line, rest) => loadLines fuel rest (writeRow E E.numrows (stripEol line))

/-- The function `loadFile`; `file` is the content of the file, `none` when
`fopen` fails. Every call of `getline` that returns a line takes at least one
byte off the stream, so as many passes as the file has bytes are enough. -/
def loadFile (file : Option (List Nat)) (E : editorData) : Option editorData :=
  match file with
  | none => some E
  | some content =>
    match loadLines content.length content E with
    | none => none
    | some E1 => some { E1 with modified := false }

end Editor

/-! ## Properties of the dictionary -/

namespace Dict

open CType

theorem Ext.refl (a : List node) : Ext a a :=
  ⟨rfl, fun _ _ _ h => h, fun _ h => h⟩

theorem Ext.trans {a b c : List node} (h1 : Ext a b) (h2 : Ext b c) : Ext a c :=
  ⟨h1.len.trans h2.len, fun i k p h => h2.child i k p (h1.child i k p h),
   fun i h => h2.word i (h1.word i h)⟩

theorem childAt_setChild {nb : List node} {trav k p : Nat} {n : node}
    (hn : nb[trav]? = some n) (hk : k < n.children.length) (i j : Nat) :
    childAt (setChild nb trav k p) i j =
      if i = trav ∧ j = k then some (some p) else childAt nb i j := by
  have hlt : trav < nb.length := by
    rcases List.getElem?_eq_some_iff.mp hn with ⟨h, _⟩; exact h
  unfold setChild childAt
  rw [hn]
  simp only [List.getElem?_set]
  by_cases hi : trav = i
  · subst hi
    simp only [if_true, hlt, hn]
    by_cases hj : k = j
    · subst hj; simp [hk]
    · have hj2 : ¬ j = k := fun h => hj h.symm
      simp [hj, hj2]
  · have hi2 : ¬ i = trav := fun h => hi h.symm
    simp [hi, hi2]

theorem isWordAt_setChild {nb : List node} {trav k p : Nat} (i : Nat)
    (h : isWordAt nb i) : isWordAt (setChild nb trav k p) i := by
  rcases h with ⟨n, hn, hw⟩
  unfold setChild
  cases htr : nb[trav]? with
  | none => exact ⟨n, hn, hw⟩
  | some m =>
    have hlt : trav < nb.length := by
      rcases List.getElem?_eq_some_iff.mp htr with ⟨h, _⟩; exact h
    by_cases hi : trav = i
    · subst hi
      rw [htr] at hn
      cases hn
      exact ⟨_, List.getElem?_set_self hlt, hw⟩
    · exact ⟨n, by simp only [List.getElem?_set_ne hi]; exact hn, hw⟩

theorem Ext_setChild {nb : List node} {trav k p : Nat}
    (h : childAt nb trav k = some none) : Ext nb (setChild nb trav k p) := by
  unfold childAt at h
  cases hn : nb[trav]? with
  | none => rw [hn] at h; cases h
  | some n =>
    rw [hn] at h
    have hk : k < n.children.length := by
      rcases List.getElem?_eq_some_iff.mp h with ⟨hk, _⟩; exact hk
    refine ⟨?_, ?_, fun i hi => isWordAt_setChild i hi⟩
    · unfold setChild; rw [hn]; simp
    · intro i j q hq
      rw [childAt_setChild hn hk]
      by_cases hc : i = trav ∧ j = k
      · rcases hc with ⟨rfl, rfl⟩
        unfold childAt at hq
        rw [hn, h] at hq
        cases hq
      · simp only [hc, if_false]; exact hq

theorem childAt_markSet {nb : List node} {trav : Nat} {n : node}
    (hn : nb[trav]? = some n) (i k : Nat) :
    childAt (nb.set trav { n with is_word := true }) i k = childAt nb i k := by
  have hlt : trav < nb.length := by
    rcases List.getElem?_eq_some_iff.mp hn with ⟨h, _⟩; exact h
  unfold childAt
  by_cases hi : trav = i
  · subst hi; rw [List.getElem?_set_self hlt, hn]
  · rw [List.getElem?_set_ne hi]

theorem markWord_spec {s s1 : LoadState} {trav : Nat} (h : markWord s trav = some s1) :
    Ext s.nodeBucket s1.nodeBucket ∧ isWordAt s1.nodeBucket trav ∧
      s1.nextFreeNode = s.nextFreeNode ∧
      ∀ i k, childAt s1.nodeBucket i k = childAt s.nodeBucket i k := by
  unfold markWord at h
  cases hn : s.nodeBucket[trav]? with
  | none => rw [hn] at h; cases h
  | some n =>
    rw [hn] at h
    cases h
    have hlt : trav < s.nodeBucket.length := by
      rcases List.getElem?_eq_some_iff.mp hn with ⟨h, _⟩; exact h
    refine ⟨⟨by simp, ?_, ?_⟩, ⟨_, List.getElem?_set_self hlt, rfl⟩, rfl, ?_⟩
    · intro i k p hp
      show childAt (s.nodeBucket.set trav { n with is_word := true }) i k = _
      rw [childAt_markSet hn]; exact hp
    · rintro i ⟨m, hm, hw⟩
      show isWordAt (s.nodeBucket.set trav { n with is_word := true }) i
      by_cases hi : trav = i
      · subst hi; exact ⟨_, List.getElem?_set_self hlt, rfl⟩
      · exact ⟨m, by rw [List.getElem?_set_ne hi]; exact hm, hw⟩
    · intro i k
      exact childAt_markSet hn i k

theorem markWord_inv {N : Nat} {s s1 : LoadState} {trav : Nat} (hI : Inv N s)
    (h : markWord s trav = some s1) : Inv N s1 := by
  have hs := markWord_spec h
  refine ⟨hs.1.len ▸ hI.len, ?_, ?_⟩
  · unfold markWord at h
    cases hn : s.nodeBucket[trav]? with
    | none => rw [hn] at h; cases h
    | some n =>
      rw [hn] at h
      cases h
      intro i m hm
      have hlt : trav < s.nodeBucket.length := by
        rcases List.getElem?_eq_some_iff.mp hn with ⟨h, _⟩; exact h
      by_cases hi : trav = i
      · subst hi
        rw [show ({ s with nodeBucket := s.nodeBucket.set trav { n with is_word := true } } :
          LoadState).nodeBucket = s.nodeBucket.set trav { n with is_word := true } from rfl,
          List.getElem?_set_self hlt] at hm
        cases hm
        exact hI.kids trav n hn
      · rw [show ({ s with nodeBucket := s.nodeBucket.set trav { n with is_word := true } } :
          LoadState).nodeBucket = s.nodeBucket.set trav { n with is_word := true } from rfl,
          List.getElem?_set_ne hi] at hm
        exact hI.kids _ _ hm
  · intro i k p hp
    rw [hs.2.2.2] at hp
    rw [hs.2.2.1]
    exact hI.ptr i k p hp

theorem markWord_some {N : Nat} {s : LoadState} {trav : Nat} (hI : Inv N s) (ht : trav < N) :
    ∃ s1, markWord s trav = some s1 := by
  unfold markWord
  have hlt : trav < s.nodeBucket.length := hI.len ▸ ht
  rw [List.getElem?_eq_getElem hlt]
  exact ⟨_, rfl⟩

theorem walk_mono {a b : List node} (h : Ext a b) :
    ∀ (w : List Nat) (trav n : Nat), walk a trav w = some n → walk b trav w = some n := by
  intro w
  induction w with
  | nil => intro trav n hw; exact hw
  | cons c cs ih =>
    intro trav n hw
    unfold walk at hw ⊢
    cases hs : slot c with
    | none => rw [hs] at hw; cases hw
    | some k =>
      rw [hs] at hw
      simp only at hw ⊢
      cases hc : childAt a trav k with
      | none => rw [hc] at hw; cases hw
      | some x =>
        cases x with
        | none => rw [hc] at hw; cases hw
        | some next =>
          rw [hc] at hw
          rw [h.child _ _ _ hc]
          exact ih next n hw

theorem slot_of_dictByte {c : Nat} (h : isDictByte c) : ∃ k, slot c = some k ∧ k < ALPHA := by
  unfold slot ALPHA
  rcases h with h | h
  · simp only [islower, decide_eq_true_eq] at h
    by_cases h39 : c = 39
    · omega
    · rw [if_neg h39, if_pos (by omega)]
      exact ⟨_, rfl, by omega⟩
  · subst h
    exact ⟨26, by decide, by decide⟩

theorem childAt_some {N : Nat} {s : LoadState} (hI : Inv N s) {i k : Nat} (hi : i < N)
    (hk : k < ALPHA) : ∃ x, childAt s.nodeBucket i k = some x := by
  unfold childAt
  have hlt : i < s.nodeBucket.length := hI.len ▸ hi
  rw [List.getElem?_eq_getElem hlt]
  have hk2 : k < (s.nodeBucket[i]).children.length := by
    rw [hI.kids i _ (List.getElem?_eq_getElem hlt)]; exact hk
  exact ⟨_, List.getElem?_eq_getElem hk2⟩

theorem setChild_inv {N : Nat} {s : LoadState} {trav k : Nat} (hI : Inv N s)
    (hc : childAt s.nodeBucket trav k = some none) :
    Inv N ⟨setChild s.nodeBucket trav k s.nextFreeNode, s.nextFreeNode + 1⟩ := by
  have hE := Ext_setChild (p := s.nextFreeNode) hc
  unfold childAt at hc
  cases hn : s.nodeBucket[trav]? with
  | none => rw [hn] at hc; cases hc
  | some n =>
    rw [hn] at hc
    have hk : k < n.children.length := by
      rcases List.getElem?_eq_some_iff.mp hc with ⟨hk, _⟩; exact hk
    have hlt : trav < s.nodeBucket.length := by
      rcases List.getElem?_eq_some_iff.mp hn with ⟨h, _⟩; exact h
    refine ⟨hE.len ▸ hI.len, ?_, ?_⟩
    · intro i m hm
      simp only [setChild, hn] at hm
      by_cases hi : trav = i
      · subst hi
        rw [List.getElem?_set_self hlt] at hm
        cases hm
        simp only [List.length_set]
        exact hI.kids _ _ hn
      · rw [List.getElem?_set_ne hi] at hm
        exact hI.kids _ _ hm
    · intro i j q hq
      simp only [childAt_setChild hn hk] at hq
      by_cases hij : i = trav ∧ j = k
      · rw [if_pos hij] at hq
        cases hq
        exact Nat.lt_succ_self _
      · rw [if_neg hij] at hq
        exact Nat.lt_succ_of_lt (hI.ptr i j q hq)

theorem loadChar_spec {N : Nat} {s : LoadState} {trav c : Nat} (hI : Inv N s) (ht : trav < N)
    (hc : isDictByte c) (hb : s.nextFreeNode < N) :
    ∃ s1 next k, loadChar s trav c = some (s1, next) ∧ slot c = some k ∧
      childAt s1.nodeBucket trav k = some (some next) ∧
      Ext s.nodeBucket s1.nodeBucket ∧ Inv N s1 ∧ next < N ∧
      s1.nextFreeNode ≤ s.nextFreeNode + 1 := by
  rcases slot_of_dictByte hc with ⟨k, hk, hk27⟩
  rcases childAt_some hI ht hk27 with ⟨x, hx⟩
  unfold loadChar
  rw [hk]
  cases x with
  | some next =>
    simp only [hx]
    exact ⟨s, next, k, rfl, rfl, hx, Ext.refl _, hI,
      Nat.lt_trans (hI.ptr _ _ _ hx) hb, Nat.le_succ _⟩
  | none =>
    simp only [hx]
    refine ⟨_, _, k, rfl, rfl, ?_, Ext_setChild hx, setChild_inv hI hx, hb, Nat.le_refl _⟩
    have hx2 := hx
    unfold childAt at hx2
    cases hn : s.nodeBucket[trav]? with
    | none => rw [hn] at hx2; cases hx2
    | some n =>
      rw [hn] at hx2
      have hkl : k < n.children.length := by
        rcases List.getElem?_eq_some_iff.mp hx2 with ⟨hk, _⟩; exact hk
      rw [childAt_setChild hn hkl]
      simp

theorem insertWord_spec {N : Nat} :
    ∀ (w : List Nat) (s : LoadState) (trav : Nat), Inv N s → trav < N →
      (∀ c ∈ w, isDictByte c) → s.nextFreeNode + w.length ≤ N →
      ∃ s1 last, insertWord s trav w = some (s1, last) ∧ walk s1.nodeBucket trav w = some last ∧
        Ext s.nodeBucket s1.nodeBucket ∧ Inv N s1 ∧ last < N ∧
        s1.nextFreeNode ≤ s.nextFreeNode + w.length := by
  intro w
  induction w with
  | nil =>
    intro s trav hI ht _ _
    exact ⟨s, trav, rfl, rfl, Ext.refl _, hI, ht, Nat.le_refl _⟩
  | cons c cs ih =>
    intro s trav hI ht hw hb
    simp only [List.length_cons] at hb
    rcases loadChar_spec hI ht (hw c (List.mem_cons_self _ _)) (by omega) with
      ⟨s1, next, k, hl, hk, hch, hE, hI1, hn, hnf⟩
    rcases ih s1 next hI1 hn (fun d hd => hw d (List.mem_cons_of_mem _ hd)) (by omega) with
      ⟨s2, last, hins, hwalk, hE2, hI2, hlast, hnf2⟩
    refine ⟨s2, last, ?_, ?_, hE.trans hE2, hI2, hlast, ?_⟩
    · simp only [insertWord, hl]; exact hins
    · simp only [walk, hk, hE2.child _ _ _ hch]; exact hwalk
    · simp only [List.length_cons]; omega

theorem dictByte_ne {c : Nat} (h : isDictByte c) : c ≠ 0 ∧ c ≠ 10 := by
  rcases h with h | h
  · simp only [islower, decide_eq_true_eq] at h; omega
  · omega

theorem loadFrom_word (root : Nat) :
    ∀ (w rest : List Nat) (tv : Option Nat) (s : LoadState), (∀ c ∈ w, isDictByte c) →
      loadFrom root (w ++ 10 :: rest) tv s =
        match insertWord s (tv.getD root) w with
        | none => none
        | some (s1, last) =>
          match markWord s1 last with
          | none => none
          | some s2 => loadFrom root rest none s2 := by
  intro w
  induction w with
  | nil =>
    intro rest tv s _
    simp only [List.nil_append, loadFrom, insertWord]
    cases markWord s (tv.getD root) <;> simp
  | cons c cs ih =>
    intro rest tv s hw
    have hc := dictByte_ne (hw c (List.mem_cons_self _ _))
    simp only [List.cons_append, loadFrom, hc.1, hc.2, if_false, insertWord]
    cases hl : loadChar s (tv.getD root) c with
    | none => rfl
    | some r =>
      rcases r with ⟨s1, next⟩
      exact ih rest (some next) s1 (fun d hd => hw d (List.mem_cons_of_mem _ hd))

theorem wordlistFile_cons (w : List Nat) (ws : List (List Nat)) :
    wordlistFile (w :: ws) = w ++ 10 :: wordlistFile ws := by
  simp [wordlistFile]

theorem loadFrom_wordlist {N : Nat} (hN : 1 < N) :
    ∀ (ws : List (List Nat)) (s : LoadState), Inv N s →
      (∀ w ∈ ws, ∀ c ∈ w, isDictByte c) →
      s.nextFreeNode + (wordlistFile ws).length ≤ N →
      ∃ s1, loadFrom 1 (wordlistFile ws) none s = some s1 ∧
        Ext s.nodeBucket s1.nodeBucket ∧
        ∀ w ∈ ws, ∃ last, walk s1.nodeBucket 1 w = some last ∧ isWordAt s1.nodeBucket last := by
  intro ws
  induction ws with
  | nil =>
    intro s _ _ _
    exact ⟨s, rfl, Ext.refl _, fun w hw => absurd hw (List.not_mem_nil w)⟩
  | cons w ws ih =>
    intro s hI hws hb
    rw [wordlistFile_cons] at hb ⊢
    simp only [List.length_append, List.length_cons] at hb
    have hw := hws w (List.mem_cons_self _ _)
    rcases insertWord_spec w s 1 hI hN hw (by omega) with
      ⟨s1, last, hins, hwalk, hE1, hI1, hlast, hnf⟩
    rcases markWord_some hI1 hlast with ⟨s2, hm⟩
    have hms := markWord_spec hm
    have hI2 := markWord_inv hI1 hm
    rcases ih s2 hI2 (fun v hv => hws v (List.mem_cons_of_mem _ hv))
      (by rw [hms.2.2.1]; omega) with ⟨s3, hload, hE3, hall⟩
    refine ⟨s3, ?_, (hE1.trans hms.1).trans hE3, ?_⟩
    · rw [loadFrom_word 1 w _ none s hw]
      simp only [Option.getD_none, hins, hm]
      exact hload
    · intro v hv
      rcases List.mem_cons.mp hv with rfl | hv
      · exact ⟨last, walk_mono (hms.1.trans hE3) _ _ _ hwalk, hE3.word _ hms.2.1⟩
      · exact hall v hv

theorem inv_zero (N : Nat) : Inv N ⟨List.replicate N zeroNode, 0⟩ := by
  refine ⟨by simp, ?_, ?_⟩
  · intro i n hn
    rw [List.getElem?_replicate] at hn
    by_cases h : i < N
    · rw [if_pos h] at hn; cases hn; simp [zeroNode]
    · rw [if_neg h] at hn; cases hn
  · intro i k p hp
    unfold childAt at hp
    rw [List.getElem?_replicate] at hp
    by_cases h : i < N
    · rw [if_pos h] at hp
      simp only [zeroNode] at hp
      rw [List.getElem?_replicate] at hp
      by_cases h2 : k < ALPHA
      · rw [if_pos h2] at hp; cases hp
      · rw [if_neg h2] at hp; cases hp
    · rw [if_neg h] at hp; cases hp

theorem caseFold_dictByte {c : Nat} (h : isDictByte (caseFold c)) :
    (caseFold c = 39 ∧ slot (caseFold c) = some (ALPHA - 1)) ∨
    (caseFold c ≠ 39 ∧ isalpha (caseFold c) = true ∧
      slot (caseFold c) = some (caseFold c - 97)) := by
  rcases h with h | h
  · right
    have h2 := h
    simp only [islower, decide_eq_true_eq] at h2
    refine ⟨by omega, by simp [isalpha, h], ?_⟩
    unfold slot ALPHA
    rw [if_neg (by omega), if_pos (by omega)]
  · left
    exact ⟨h, by rw [h]; rfl⟩

theorem checkFrom_of_walk (nb : List node) :
    ∀ (v : List Nat) (trav last : Nat), (∀ c ∈ v, isDictByte (caseFold c)) →
      walk nb trav (v.map caseFold) = some last → isWordAt nb last →
      checkFrom nb trav v = some true := by
  intro v
  induction v with
  | nil =>
    intro trav last _ hw hlast
    simp only [List.map_nil, walk, Option.some.injEq] at hw
    subst hw
    rcases hlast with ⟨n, hn, hnw⟩
    simp [checkFrom, hn, hnw]
  | cons c cs ih =>
    intro trav last hv hw hlast
    have hrest : ∀ d ∈ cs, isDictByte (caseFold d) := fun d hd => hv d (List.mem_cons_of_mem _ hd)
    simp only [List.map_cons, walk] at hw
    have hfold : (if isalpha c = true then tolower c else c) = caseFold c := rfl
    simp only [checkFrom, hfold]
    rcases caseFold_dictByte (hv c (List.mem_cons_self _ _)) with ⟨h39, hs⟩ | ⟨h39, ha, hs⟩
    · simp only [hs] at hw
      simp only [h39, if_true]
      cases hc : childAt nb trav (ALPHA - 1) with
      | none => rw [hc] at hw; cases hw
      | some x =>
        cases x with
        | none => rw [hc] at hw; cases hw
        | some next =>
          rw [hc] at hw
          exact ih next last hrest hw hlast
    · simp only [hs] at hw
      simp only [h39, if_false, ha, if_true]
      cases hc : childAt nb trav (caseFold c - 97) with
      | none => rw [hc] at hw; cases hw
      | some x =>
        cases x with
        | none => rw [hc] at hw; cases hw
        | some next =>
          rw [hc] at hw
          exact ih next last hrest hw hlast

theorem wordlistFile_length_of_mem {ws : List (List Nat)} {w : List Nat} (h : w ∈ ws) :
    w.length + 1 ≤ (wordlistFile ws).length := by
  induction ws with
  | nil => cases h
  | cons v vs ih =>
    rw [wordlistFile_cons]
    simp only [List.length_append, List.length_cons]
    rcases List.mem_cons.mp h with rfl | h
    · omega
    · have := ih h; omega

/-- C2: for every wordlist of newline-terminated words (non-empty strings of
lower-case letters and apostrophes), `load` succeeds and afterwards `check`
returns true for every word `w` of the list written in any mix of upper and
lower case, that is for every `v` whose case folding is `w`. -/
theorem check_listed_word_any_case (ws : List (List Nat)) (w v : List Nat)
    (hws : ∀ u ∈ ws, isDictWord u) (hw : w ∈ ws) (hv : v.map caseFold = w) :
    ∃ t, load (wordlistFile ws) = some t ∧ check t v = some true := by
  have hwl := wordlistFile_length_of_mem hw
  have hne : w ≠ [] := (hws w hw).1
  have hpos : 0 < w.length := List.length_pos.mpr hne
  have hN : 1 < (wordlistFile ws).length := by omega
  rcases loadFrom_wordlist hN ws ⟨List.replicate (wordlistFile ws).length zeroNode, 0⟩
    (inv_zero _) (fun u hu => (hws u hu).2) (by simp) with ⟨s1, hload, _, hall⟩
  rcases hall w hw with ⟨last, hwalk, hlast⟩
  refine ⟨⟨s1.nodeBucket, 1⟩, ?_, ?_⟩
  · simp only [load, Nat.zero_add, hload]
  · unfold check
    refine checkFrom_of_walk _ v 1 last ?_ (by rw [hv]; exact hwalk) hlast
    intro c hc
    exact (hws w hw).2 _ (by rw [← hv]; exact List.mem_map_of_mem _ hc)

theorem check_listed_word_any_case_witness :
    (∀ u ∈ [[99, 97, 116], [100, 111, 110, 39, 116]], isDictWord u) ∧
    [100, 111, 110, 39, 116] ∈ [[99, 97, 116], [100, 111, 110, 39, 116]] ∧
    [68, 111, 78, 39, 116].map caseFold = [100, 111, 110, 39, 116] ∧
    ∃ t, load (wordlistFile [[99, 97, 116], [100, 111, 110, 39, 116]]) = some t ∧
      check t [68, 111, 78, 39, 116] = some true :=
  ⟨by decide, by decide, by decide,
   check_listed_word_any_case [[99, 97, 116], [100, 111, 110, 39, 116]]
     [100, 111, 110, 39, 116] [68, 111, 78, 39, 116] (by decide) (by decide) (by decide)⟩

/-- C1: the wordlist with the single word "abab" is loaded; "ab" is a proper
initial segment of that word and is not listed, yet `check` returns true for
it. The second node `load` hands out is `nodeBucket + 1`, which is `root`
itself, so the path of "ab" leads back to the root, and the root is then
marked as the end of the word "abab". -/
theorem check_accepts_unlisted_initial_segment :
    (load (wordlistFile [[97, 98, 97, 98]])).map (fun t => check t [97, 98]) = some (some true) ∧
    [97, 98] ∉ [[97, 98, 97, 98]] := by
  decide

/-- C3: after loading the wordlist cat, apple, don't (one word per line),
`check` gives true for "cat", true for "Cat", false for "do", true for "don't"
and false for "dont". -/
theorem check_cat_apple_dont :
    (load (wordlistFile [[99, 97, 116], [97, 112, 112, 108, 101], [100, 111, 110, 39, 116]])).map
      (fun t => [check t [99, 97, 116], check t [67, 97, 116], check t [100, 111],
                 check t [100, 111, 110, 39, 116], check t [100, 111, 110, 116]]) =
    some [some true, some true, some false, some true, some false] := by
  decide

end Dict

/-! ## Properties of the spell checker -/

namespace Spell

open Dict

/-- C4: with the dictionary of the two words "is" and "a", `spellChecker` on the
row "Thiss is a tst" (length 14, starting count 0) returns 1, not 2: the span
of "Thiss" (0 to 5) is recorded in entry 0 and entry 1 of `miswords` is left
as it was. The token "tst" runs up to the end of the row, no byte follows it
inside the first 14, so it is never closed and never looked up. -/
theorem spellChecker_misses_last_token :
    (load (wordlistFile [[105, 115], [97]])).bind (fun t =>
      (spellChecker t freshMiswords
        [84, 104, 105, 115, 115, 32, 105, 115, 32, 97, 32, 116, 115, 116, 0] 14 0).map
        (fun r => (r.1, r.2.take 2))) = some (1, [⟨0, 5⟩, ⟨0, 0⟩]) := by
  decide

end Spell

/-! ## Properties of the key decoder -/

namespace Editor

theorem readKey_stalls (n : Nat) (input : List ReadResult) :
    readKey (List.replicate n ReadResult.stall ++ input) = readKey input := by
  induction n with
  | zero => rfl
  | succ n ih => simpa [List.replicate_succ, readKey] using ih

/-- C7: `readKey` decodes the seven recognised escape sequences: 0x1B `[` followed
by A, B, C, D gives ARROW_UP, ARROW_DOWN, ARROW_RIGHT, ARROW_LEFT, and 0x1B `[`
d `~` gives DEL_KEY for d = 3, PAGE_UP for d = 5 and PAGE_DOWN for d = 6; the
call returns this one key and leaves the reads after the sequence, whatever
number of stalls came first. -/
theorem readKey_recognised_sequences (n : Nat) (rest : List ReadResult) :
    readKey (List.replicate n .stall ++ .byte 27 :: .byte 91 :: .byte 65 :: rest)
      = .key ARROW_UP rest ∧
    readKey (List.replicate n .stall ++ .byte 27 :: .byte 91 :: .byte 66 :: rest)
      = .key ARROW_DOWN rest ∧
    readKey (List.replicate n .stall ++ .byte 27 :: .byte 91 :: .byte 67 :: rest)
      = .key ARROW_RIGHT rest ∧
    readKey (List.replicate n .stall ++ .byte 27 :: .byte 91 :: .byte 68 :: rest)
      = .key ARROW_LEFT rest ∧
    readKey (List.replicate n .stall ++ .byte 27 :: .byte 91 :: .byte 51 :: .byte 126 :: rest)
      = .key DEL_KEY rest ∧
    readKey (List.replicate n .stall ++ .byte 27 :: .byte 91 :: .byte 53 :: .byte 126 :: rest)
      = .key PAGE_UP rest ∧
    readKey (List.replicate n .stall ++ .byte 27 :: .byte 91 :: .byte 54 :: .byte 126 :: rest)
      = .key PAGE_DOWN rest := by
  simp only [readKey_stalls]
  refine ⟨rfl, rfl, rfl, rfl, rfl, rfl, rfl⟩

theorem letterKey_eq_ESC {b : Nat} {rest : List ReadResult}
    (h : ¬ recognised (.byte 91 :: .byte b :: rest)) : letterKey b = ESC := by
  unfold letterKey
  by_cases h1 : b = 65
  · exact absurd ⟨[91, 65], by simp [recognisedTails], by simp [h1]⟩ h
  by_cases h2 : b = 66
  · exact absurd ⟨[91, 66], by simp [recognisedTails], by simp [h2]⟩ h
  by_cases h3 : b = 67
  · exact absurd ⟨[91, 67], by simp [recognisedTails], by simp [h3]⟩ h
  by_cases h4 : b = 68
  · exact absurd ⟨[91, 68], by simp [recognisedTails], by simp [h4]⟩ h
  simp [h1, h2, h3, h4]

theorem tildeKey_eq_ESC {d : Nat} {rest : List ReadResult}
    (h : ¬ recognised (.byte 91 :: .byte d :: .byte 126 :: rest)) : tildeKey d = ESC := by
  unfold tildeKey
  by_cases h1 : d = 51
  · exact absurd ⟨[91, 51, 126], by simp [recognisedTails], by simp [h1]⟩ h
  by_cases h2 : d = 53
  · exact absurd ⟨[91, 53, 126], by simp [recognisedTails], by simp [h2]⟩ h
  by_cases h3 : d = 54
  · exact absurd ⟨[91, 54, 126], by simp [recognisedTails], by simp [h3]⟩ h
  simp [h1, h2, h3]

theorem readEscape_unrecognised (input : List ReadResult) (h : ¬ recognised input) :
    ∃ rest, readEscape input = .key ESC rest := by
  match input, h with
  | [], _ => exact ⟨_, rfl⟩
  | .stall :: rest, _ => exact ⟨_, rfl⟩
  | .fail :: rest, _ => exact ⟨_, rfl⟩
  | [.byte _], _ => exact ⟨_, rfl⟩
  | .byte _ :: .stall :: rest, _ => exact ⟨_, rfl⟩
  | .byte _ :: .fail :: rest, _ => exact ⟨_, rfl⟩
  | .byte s0 :: .byte s1 :: rest, h =>
    unfold readEscape
    by_cases h0 : s0 = 91
    · subst h0
      simp only [if_true]
      by_cases hd : 48 ≤ s1 ∧ s1 ≤ 57
      · simp only [hd, and_self, if_true]
        match rest, h with
        | [], _ => exact ⟨_, rfl⟩
        | .stall :: rest2, _ => exact ⟨_, rfl⟩
        | .fail :: rest2, _ => exact ⟨_, rfl⟩
        | .byte s2 :: rest2, h =>
          by_cases h2 : s2 = 126
          · subst h2
            simp only [if_true, tildeKey_eq_ESC h]
            exact ⟨_, rfl⟩
          · simp only [h2, if_false]
            exact ⟨_, rfl⟩
      · simp only [hd, if_false, letterKey_eq_ESC h]
        exact ⟨_, rfl⟩
    · simp only [h0, if_false]
      exact ⟨_, rfl⟩

/-- C8: every input that begins (after any number of stalls) with 0x1B and does
not continue with one of the seven recognised sequences makes `readKey` return
the plain Escape key; it does not end the process. This covers a stall right
after 0x1B, after 0x1B `[` and after 0x1B `[` digit, a second byte other than
`[`, a third byte that is neither a digit nor one of A-D, a digit other than
3, 5, 6 followed by `~`, and a digit followed by a byte other than `~`. -/
theorem readKey_unrecognised_escape (n : Nat) (input : List ReadResult)
    (h : ¬ recognised input) :
    ∃ rest, readKey (List.replicate n .stall ++ .byte 27 :: input) = .key ESC rest := by
  rw [readKey_stalls]
  exact readEscape_unrecognised input h

theorem readKey_unrecognised_escape_witness :
    ¬ recognised [.byte 91, .byte 49, .byte 126, .byte 97] ∧
    ∃ rest, readKey (List.replicate 2 .stall ++
      .byte 27 :: [.byte 91, .byte 49, .byte 126, .byte 97]) = .key ESC rest :=
  ⟨by decide, readKey_unrecognised_escape 2 _ (by decide)⟩

/-- C9, as stated, fails: on the stream 0x1B x y `readKey` returns Escape with
nothing left, while the decoder of the specification returns Escape with y
left; so the stream does not decode to the two events Escape, y. -/
theorem readKey_swallows_byte_after_escape :
    readKey [.byte 27, .byte 120, .byte 121] = .key ESC [] ∧
    specDecode .Idle [.byte 27, .byte 120, .byte 121] = .key ESC [.byte 121] ∧
    ¬ ∃ rest rest2, readKey [.byte 27, .byte 120, .byte 121] = .key ESC rest ∧
        readKey rest = .key 121 rest2 := by
  refine ⟨rfl, rfl, ?_⟩
  rintro ⟨rest, rest2, h1, h2⟩
  have : rest = [] := by
    have h3 : readKey [.byte 27, .byte 120, .byte 121] = .key ESC [] := rfl
    rw [h3] at h1
    cases h1; rfl
  subst this
  cases h2

theorem readEscape_vs_decoder (input : List ReadResult) (h : ∀ x ∈ input, x ≠ .fail) :
    match escapeThenOther (.byte 27 :: input) with
    | some (r, rest) =>
      readEscape input = .key ESC rest ∧ specDecode .SawEscape input = .key ESC (r :: rest)
    | none => readEscape input = specDecode .SawEscape input := by
  match input, h with
  | [], _ => simp [escapeThenOther, readEscape, specDecode]
  | .stall :: rest, _ => simp [escapeThenOther, readEscape, specDecode]
  | .fail :: rest, h => exact absurd rfl (h .fail (List.mem_cons_self _ _))
  | [.byte b], _ =>
    by_cases hb : b = 91 <;> simp [escapeThenOther, readEscape, specDecode, hb]
  | .byte b :: .stall :: rest, _ =>
    by_cases hb : b = 91 <;> simp [escapeThenOther, readEscape, specDecode, hb]
  | .byte b :: .fail :: rest, h =>
    exact absurd rfl (h .fail (List.mem_cons_of_mem _ (List.mem_cons_self _ _)))
  | .byte b :: .byte s1 :: rest, h =>
    by_cases hb : b = 91
    · subst hb
      by_cases hd : 48 ≤ s1 ∧ s1 ≤ 57
      · match rest, h with
        | [], _ => simp [escapeThenOther, readEscape, specDecode, hd]
        | .stall :: rest2, _ => simp [escapeThenOther, readEscape, specDecode, hd]
        | .fail :: rest2, h =>
          exact absurd rfl (h .fail (List.mem_cons_of_mem _ (List.mem_cons_of_mem _
            (List.mem_cons_self _ _))))
        | .byte s2 :: rest2, _ =>
          by_cases h2 : s2 = 126
          · simp only [escapeThenOther, readEscape, specDecode, hd, h2, tildeKey]
            simp
            split_ifs <;> rfl
          · simp [escapeThenOther, readEscape, specDecode, hd, h2]
      · simp only [escapeThenOther, readEscape, specDecode, hd, letterKey]
        simp
        split_ifs <;> rfl
    · simp [escapeThenOther, readEscape, specDecode, hb]

theorem escapeThenOther_ne {c : Nat} (hc : c ≠ 27) (rest : List ReadResult) :
    escapeThenOther (.byte c :: rest) = none := by
  unfold escapeThenOther
  split
  · rename_i heq
    cases heq
    exact absurd rfl hc
  · rfl

/-- C9, amended: on every stream of bytes and stalls `readKey` and the decoder
of the specification return the same key and leave the same reads, except when
0x1B is followed by a byte `b` other than `[` and one more read `r`: there both
return Escape, the decoder leaves `r` and what follows it, and `readKey` has
consumed `r` as well and leaves only what follows `r`. -/
theorem readKey_vs_decoder (input : List ReadResult) (h : ∀ x ∈ input, x ≠ .fail) :
    match escapeThenOther (afterStalls input) with
    | some (r, rest) =>
      readKey input = .key ESC rest ∧ specDecode .Idle input = .key ESC (r :: rest)
    | none => readKey input = specDecode .Idle input := by
  induction input with
  | nil => simp [afterStalls, escapeThenOther, readKey, specDecode]
  | cons x rest ih =>
    have hrest : ∀ y ∈ rest, y ≠ .fail := fun y hy => h y (List.mem_cons_of_mem _ hy)
    cases x with
    | stall =>
      simp only [afterStalls, readKey, specDecode]
      exact ih hrest
    | fail => exact absurd rfl (h .fail (List.mem_cons_self _ _))
    | byte c =>
      by_cases hc : c = 27
      · subst hc
        have := readEscape_vs_decoder rest hrest
        simpa [afterStalls, readKey, specDecode] using this
      · simp [afterStalls, escapeThenOther_ne hc, readKey, specDecode, hc]

theorem readKey_vs_decoder_witness :
    (∀ x ∈ [ReadResult.stall, .byte 27, .byte 120, .byte 121, .byte 122], x ≠ .fail) ∧
    readKey [.stall, .byte 27, .byte 120, .byte 121, .byte 122] = .key ESC [.byte 122] ∧
    specDecode .Idle [.stall, .byte 27, .byte 120, .byte 121, .byte 122]
      = .key ESC [.byte 121, .byte 122] :=
  ⟨by decide, readKey_vs_decoder [.stall, .byte 27, .byte 120, .byte 121, .byte 122] (by decide)⟩

end Editor

/-! ## Properties of the row engine -/

namespace Editor

@[simp] theorem renderRow_chars (E : editorData) (r : rows) : (renderRow E r).chars = r.chars := rfl

theorem getRow_ofNat (E : editorData) (k : Nat) : getRow E (k : Int) = E.row[k]? := by
  simp [getRow]

theorem getRow_some_bounds {E : editorData} {i : Int} {r : rows} (h : getRow E i = some r) :
    0 ≤ i ∧ i < E.numrows := by
  unfold getRow at h
  by_cases h0 : 0 ≤ i
  · rw [if_pos h0] at h
    rcases List.getElem?_eq_some_iff.mp h with ⟨hlt, _⟩
    refine ⟨h0, ?_⟩
    unfold editorData.numrows
    omega
  · rw [if_neg h0] at h; cases h

theorem getRow_isSome {E : editorData} {i : Int} (h0 : 0 ≤ i) (h1 : i < E.numrows) :
    ∃ r, getRow E i = some r := by
  unfold getRow
  rw [if_pos h0]
  unfold editorData.numrows at h1
  have hlt : i.toNat < E.row.length := by omega
  exact ⟨_, List.getElem?_eq_getElem hlt⟩

theorem rows_size_nonneg (r : rows) : 0 ≤ r.size := by
  unfold rows.size; omega

/-- The cursor invariant holds as soon as the row index is in range and the
column is 0. -/
theorem cursorInv_of_cx_zero {E : editorData} (h0 : 0 ≤ E.cy) (h1 : E.cy ≤ E.numrows)
    (hx : E.cx = 0) : cursorInv E := by
  refine ⟨h0, h1, by omega, ?_⟩
  rw [hx]
  cases getRow E E.cy with
  | none => exact le_refl _
  | some r => exact rows_size_nonneg r

theorem cursorInv_of_row {E : editorData} {r : rows} (hr : getRow E E.cy = some r)
    (hx0 : 0 ≤ E.cx) (hx : E.cx ≤ r.size) : cursorInv E := by
  have hb := getRow_some_bounds hr
  refine ⟨hb.1, by omega, hx0, ?_⟩
  rw [hr]; exact hx

theorem numrows_writeRow {E : editorData} {i : Int} (line : List Nat) (h0 : 0 ≤ i)
    (h1 : i ≤ E.numrows) : (writeRow E i line).numrows = E.numrows + 1 := by
  unfold writeRow
  rw [if_neg (by omega)]
  unfold editorData.numrows at h1 ⊢
  simp only [List.length_append, List.length_cons, List.length_take, List.length_drop]
  omega

theorem getRow_writeRow_self {E : editorData} {i : Int} (line : List Nat) (h0 : 0 ≤ i)
    (h1 : i ≤ E.numrows) :
    getRow (writeRow E i line) i = some (renderRow E { chars := line, render := [], hl := [] }) := by
  unfold writeRow
  rw [if_neg (by omega)]
  unfold getRow
  rw [if_pos h0]
  unfold editorData.numrows at h1
  have hlen : (E.row.take i.toNat).length = i.toNat := by
    rw [List.length_take]; omega
  simp only
  rw [List.getElem?_append_right (by omega), hlen]
  simp

theorem getRow_writeRow_below {E : editorData} {i j : Int} (line : List Nat) (h0 : 0 ≤ j)
    (hji : j < i) (h1 : i ≤ E.numrows) :
    getRow (writeRow E i line) j = getRow E j := by
  unfold writeRow
  rw [if_neg (by omega)]
  unfold getRow
  rw [if_pos h0]
  unfold editorData.numrows at h1
  have hlen : (E.row.take i.toNat).length = i.toNat := by
    rw [List.length_take]; omega
  simp only
  rw [List.getElem?_append_left (by omega), List.getElem?_take_of_lt (by omega)]
  simp [h0]

theorem getRow_setRow_self {E : editorData} {i : Int} {r0 : rows} (r : rows)
    (h : getRow E i = some r0) : getRow (setRow E i r) i = some r := by
  have hb := getRow_some_bounds h
  unfold getRow setRow
  rw [if_pos hb.1]
  unfold editorData.numrows at hb
  exact List.getElem?_set_self (by omega)

theorem numrows_setRow (E : editorData) (i : Int) (r : rows) :
    (setRow E i r).numrows = E.numrows := by
  simp [setRow, editorData.numrows]

theorem cursorInv_congr {E E1 : editorData} (hx : E1.cx = E.cx) (hy : E1.cy = E.cy)
    (hr : E1.row = E.row) (h : cursorInv E) : cursorInv E1 := by
  unfold cursorInv editorData.numrows getRow at *
  rw [hx, hy, hr]
  exact h

@[simp] theorem writeRow_cy (E : editorData) (i : Int) (line : List Nat) :
    (writeRow E i line).cy = E.cy := by
  unfold writeRow; split <;> rfl

@[simp] theorem writeRow_cx (E : editorData) (i : Int) (line : List Nat) :
    (writeRow E i line).cx = E.cx := by
  unfold writeRow; split <;> rfl

theorem cursorInv_setRow {E : editorData} {r0 : rows} (r : rows) (cx : Int) (m : Bool)
    (hr : getRow E E.cy = some r0) (h0 : 0 ≤ cx) (h1 : cx ≤ r.size) :
    cursorInv { setRow E E.cy r with cx := cx, modified := m } := by
  have hget := getRow_setRow_self r hr
  have hb := getRow_some_bounds hr
  refine ⟨hb.1, ?_, h0, ?_⟩
  · show E.cy ≤ (setRow E E.cy r).numrows
    rw [numrows_setRow]; omega
  · show cx ≤ match getRow (setRow E E.cy r) E.cy with
      | some r => r.size
      | none => 0
    rw [hget]; exact h1

/-- `insertCharToRow` keeps the cursor invariant whenever the cursor is on a row. -/
theorem insertCharToRow_inv {E : editorData} {r : rows} (c : Int) (hr : getRow E E.cy = some r) :
    ∃ E1, insertCharToRow E c = some E1 ∧ cursorInv E1 := by
  unfold insertCharToRow
  rw [hr]
  refine ⟨_, rfl, ?_⟩
  have hs := rows_size_nonneg r
  refine cursorInv_congr rfl rfl rfl (cursorInv_setRow _ _ E.modified hr ?_ ?_)
  · split <;> omega
  · simp only [rows.size, renderRow_chars, List.length_append, List.length_cons,
      List.length_take, List.length_drop] at hs ⊢
    split <;> omega

theorem insertChar_inv {E : editorData} (c : Int) (h : cursorInv E) :
    ∃ E1, insertChar E c = some E1 ∧ cursorInv E1 := by
  rcases h with ⟨h0, h1, hx0, hx⟩
  unfold insertChar
  simp only
  have hn : ({ E with modified := true } : editorData).numrows = E.numrows := rfl
  have hcy : ({ E with modified := true } : editorData).cy = E.cy := rfl
  by_cases hlast : E.cy = E.numrows
  · rw [if_pos (by rw [hcy, hn]; exact hlast)]
    have hw := getRow_writeRow_self (E := { E with modified := true }) (i := E.numrows) []
      (by omega) (by rw [hn])
    have hget : getRow (writeRow { E with modified := true } E.numrows [])
        (writeRow { E with modified := true } E.numrows []).cy =
        some (renderRow { E with modified := true } { chars := [], render := [], hl := [] }) := by
      have hcy2 : (writeRow { E with modified := true } E.numrows []).cy = E.numrows := by
        rw [writeRow_cy]; exact hlast
      rw [hcy2]; exact hw
    exact insertCharToRow_inv c hget
  · rw [if_neg (by rw [hcy, hn]; exact hlast)]
    rcases getRow_isSome (E := E) h0 (by omega) with ⟨r, hr⟩
    exact insertCharToRow_inv (E := { E with modified := true }) c hr

theorem insertNewline_inv {E : editorData} (h : cursorInv E) :
    ∃ E1, insertNewline E = some E1 ∧ cursorInv E1 := by
  rcases h with ⟨h0, h1, hx0, hx⟩
  unfold insertNewline
  by_cases hc : E.cx = 0
  · rw [if_pos hc]
    refine ⟨_, rfl, cursorInv_of_cx_zero ?_ ?_ rfl⟩
    · show 0 ≤ E.cy + 1
      omega
    · show E.cy + 1 ≤ (writeRow E E.cy []).numrows
      rw [numrows_writeRow [] h0 h1]
      omega
  · rw [if_neg hc]
    cases hr : getRow E E.cy with
    | none => rw [hr] at hx; simp only at hx; omega
    | some r =>
      rw [hr] at hx
      simp only at hx ⊢
      have hb := getRow_some_bounds hr
      rw [if_pos ⟨hx0, hx⟩]
      have hget : getRow (writeRow E (E.cy + 1) (r.chars.drop E.cx.toNat))
          (writeRow E (E.cy + 1) (r.chars.drop E.cx.toNat)).cy = some r := by
        rw [writeRow_cy, getRow_writeRow_below _ h0 (by omega) (by omega)]; exact hr
      rw [hget]
      refine ⟨_, rfl, cursorInv_of_cx_zero ?_ ?_ rfl⟩
      · show 0 ≤ (writeRow E (E.cy + 1) (r.chars.drop E.cx.toNat)).cy + 1
        rw [writeRow_cy]; omega
      · show (writeRow E (E.cy + 1) (r.chars.drop E.cx.toNat)).cy + 1 ≤
          (setRow (writeRow E (E.cy + 1) (r.chars.drop E.cx.toNat)) _ _).numrows
        rw [numrows_setRow, writeRow_cy, numrows_writeRow _ (by omega) (by omega)]
        omega

theorem deleteCharinRow_inv {E : editorData} (h : cursorInv E) (hpos : E.cx > 0) :
    ∃ E1, deleteCharinRow E = some E1 ∧ cursorInv E1 := by
  rcases h with ⟨h0, h1, hx0, hx⟩
  unfold deleteCharinRow
  cases hr : getRow E E.cy with
  | none => rw [hr] at hx; simp only at hx; omega
  | some r =>
    rw [hr] at hx
    simp only at hx ⊢
    rw [if_neg (by omega)]
    refine ⟨_, rfl, cursorInv_setRow _ _ true hr (by omega) ?_⟩
    simp only [rows.size, renderRow_chars, List.length_append, List.length_take,
      List.length_drop] at hx ⊢
    omega

theorem numrows_moveUp {E : editorData} (h0 : 0 ≤ E.cy) (h1 : E.cy < E.numrows) :
    (moveUp E).numrows = E.numrows - 1 := by
  unfold moveUp
  rw [if_neg (by omega)]
  unfold editorData.numrows at h1 ⊢
  simp only [List.length_append, List.length_take, List.length_drop]
  omega

theorem getRow_moveUp_below {E : editorData} {j : Int} (h0 : 0 ≤ j) (hj : j < E.cy)
    (h1 : E.cy < E.numrows) : getRow (moveUp E) j = getRow E j := by
  unfold moveUp
  rw [if_neg (by omega)]
  unfold getRow
  unfold editorData.numrows at h1
  simp only [if_pos h0]
  rw [List.getElem?_append_left (by rw [List.length_take]; omega),
    List.getElem?_take_of_lt (by omega)]

@[simp] theorem moveUp_cy (E : editorData) : (moveUp E).cy = E.cy := by
  unfold moveUp; split <;> rfl

@[simp] theorem moveUp_cx (E : editorData) : (moveUp E).cx = E.cx := by
  unfold moveUp; split <;> rfl

theorem deleteMoveUp_inv {E : editorData} (h0 : 0 < E.cy) (h1 : E.cy < E.numrows) :
    ∃ E1, deleteMoveUp E = some E1 ∧ cursorInv E1 := by
  rcases getRow_isSome (E := E) (i := E.cy - 1) (by omega) (by omega) with ⟨above, ha⟩
  rcases getRow_isSome (E := E) (i := E.cy) (by omega) h1 with ⟨r, hr⟩
  unfold deleteMoveUp
  simp only [ha, hr]
  refine ⟨_, rfl, ?_⟩
  -- the state before the final `cy--`
  have ha1 : getRow ({ E with cx := above.size } : editorData) (E.cy - 1) = some above := ha
  have hset := getRow_setRow_self (E := ({ E with cx := above.size } : editorData))
    (renderRow { E with cx := above.size } { above with chars := above.chars ++ r.chars, term := some 0 }) ha1
  have hnum : (setRow ({ E with cx := above.size } : editorData) (E.cy - 1)
      (renderRow { E with cx := above.size } { above with chars := above.chars ++ r.chars, term := some 0 })).numrows
      = E.numrows := by rw [numrows_setRow]; rfl
  have hcy : (setRow ({ E with cx := above.size } : editorData) (E.cy - 1)
      (renderRow { E with cx := above.size } { above with chars := above.chars ++ r.chars, term := some 0 })).cy
      = E.cy := rfl
  have hget := getRow_moveUp_below (E := setRow ({ E with cx := above.size } : editorData) (E.cy - 1)
      (renderRow { E with cx := above.size } { above with chars := above.chars ++ r.chars, term := some 0 }))
      (j := E.cy - 1) (by omega) (by rw [hcy]; omega) (by rw [hcy, hnum]; exact h1)
  have hn := numrows_moveUp (E := setRow ({ E with cx := above.size } : editorData) (E.cy - 1)
      (renderRow { E with cx := above.size } { above with chars := above.chars ++ r.chars, term := some 0 }))
      (by rw [hcy]; omega) (by rw [hcy, hnum]; exact h1)
  rw [hset] at hget
  rw [hnum] at hn
  refine ⟨?_, ?_, ?_, ?_⟩
  · show 0 ≤ (moveUp _).cy - 1
    rw [moveUp_cy, hcy]; omega
  · show (moveUp _).cy - 1 ≤ (moveUp _).numrows
    rw [moveUp_cy, hcy, hn]; omega
  · show 0 ≤ (moveUp _).cx
    rw [moveUp_cx]; exact rows_size_nonneg above
  · show (moveUp _).cx ≤ match getRow (moveUp _) ((moveUp _).cy - 1) with
      | some r => r.size
      | none => 0
    rw [moveUp_cx, moveUp_cy, hcy, hget]
    show above.size ≤ _
    simp only [rows.size, renderRow_chars, List.length_append]
    push_cast
    exact le_add_of_nonneg_right (Int.ofNat_nonneg _)

theorem deleteChar_inv {E : editorData} (h : cursorInv E) :
    ∃ E1, deleteChar E = some E1 ∧ cursorInv E1 := by
  unfold deleteChar
  by_cases hret : E.cy = E.numrows ∨ (E.cx = 0 ∧ E.cy = 0)
  · rw [if_pos hret]; exact ⟨E, rfl, h⟩
  · rw [if_neg hret]
    by_cases hpos : E.cx > 0
    · rw [if_pos hpos]; exact deleteCharinRow_inv h hpos
    · rw [if_neg hpos]
      rcases h with ⟨h0, h1, hx0, _⟩
      exact deleteMoveUp_inv (by omega) (by omega)

theorem applyOp_inv {E : editorData} (op : EditOp) (h : cursorInv E) :
    ∃ E1, applyOp E op = some E1 ∧ cursorInv E1 := by
  cases op with
  | insertChar c => exact insertChar_inv c h
  | insertNewline => exact insertNewline_inv h
  | deleteChar => exact deleteChar_inv h

theorem runOps_inv (ops : List EditOp) :
    ∀ E : editorData, cursorInv E → ∃ E1, runOps ops E = some E1 ∧ cursorInv E1 := by
  induction ops with
  | nil => intro E h; exact ⟨E, rfl, h⟩
  | cons op ops ih =>
    intro E h
    rcases applyOp_inv op h with ⟨E1, h1, hI1⟩
    rcases ih E1 hI1 with ⟨E2, h2, hI2⟩
    exact ⟨E2, by simp only [runOps, h1]; exact h2, hI2⟩

/-- C5: starting from the empty document with the cursor at (0, 0), every finite
sequence of `insertChar`, `insertNewline` and `deleteChar` calls runs without
undefined behaviour, and after each call of the sequence (after the first `k`
calls, for every `k`) the cursor satisfies `0 ≤ cy ≤ numrows` and
`0 ≤ cx ≤ size of row cy`, with `cx = 0` when `cy = numrows`. -/
theorem cursor_in_bounds_after_edits (E : editorData) (ops : List EditOp) (k : Nat)
    (hrow : E.row = []) (hx : E.cx = 0) (hy : E.cy = 0) :
    ∃ E1, runOps (ops.take k) E = some E1 ∧ cursorInv E1 := by
  refine runOps_inv _ E (cursorInv_of_cx_zero (by omega) ?_ hx)
  rw [hy]; unfold editorData.numrows; rw [hrow]; exact le_refl _

/-- C10: with the cursor at row 0, column 0, `deleteChar` changes nothing: the
rows, the row count, the cursor and the modified flag are as before (for a
non-empty document, and for the empty one as well). -/
theorem deleteChar_at_origin (E : editorData) (hx : E.cx = 0) (hy : E.cy = 0) :
    deleteChar E = some E := by
  unfold deleteChar
  rw [if_pos (Or.inr ⟨hx, hy⟩)]

theorem cursor_in_bounds_after_edits_witness :
    ({} : editorData).row = [] ∧ ({} : editorData).cx = 0 ∧ ({} : editorData).cy = 0 ∧
    ∃ E1, runOps ([EditOp.insertChar 97, .insertNewline, .deleteChar, .deleteChar].take 3) {}
      = some E1 ∧ cursorInv E1 :=
  ⟨rfl, rfl, rfl, cursor_in_bounds_after_edits {}
    [EditOp.insertChar 97, .insertNewline, .deleteChar, .deleteChar] 3 rfl rfl rfl⟩

theorem deleteChar_at_origin_witness :
    ({ row := [{ chars := [97, 98] }, { chars := [99] }] } : editorData).cx = 0 ∧
    ({ row := [{ chars := [97, 98] }, { chars := [99] }] } : editorData).cy = 0 ∧
    deleteChar { row := [{ chars := [97, 98] }, { chars := [99] }] } =
      some { row := [{ chars := [97, 98] }, { chars := [99] }] } :=
  ⟨rfl, rfl, deleteChar_at_origin _ rfl rfl⟩

/-- C6: the keys Enter, a, b, c typed into the empty document give the rows ""
and "abc" with the cursor at row 1, column 3, where the cursor invariant
holds. PageUp then sets `cy` to `rowoff = 0` and leaves `cx = 3`, which is
beyond the size 0 of row 0: the invariant is broken. -/
theorem pageUp_breaks_cursor_invariant :
    (processKeys [13, 97, 98, 99] { screenrows := 22, screencols := 80 }).map
      (fun E => (decide (cursorInv E), E.cx, E.cy)) = some (true, 3, 1) ∧
    (processKeys [13, 97, 98, 99, PAGE_UP] { screenrows := 22, screencols := 80 }).map
      (fun E => (decide (cursorInv E), E.cx, E.cy)) = some (false, 3, 0) ∧
    (processKeys [13, 97, 98, 99, PAGE_UP] { screenrows := 22, screencols := 80 }).map
      (fun E => E.row.map (fun r => r.chars)) = some [[], [97, 98, 99]] := by
  decide

end Editor

/-! ## Properties of editing, rendering and scrolling -/

namespace Editor

open Dict Spell

theorem take_succ_set {α : Type} (l : List α) (j : Nat) (x : α) (h : j < l.length) :
    (l.set j x).take (j + 1) = l.take j ++ [x] := by
  induction l generalizing j with
  | nil => simp at h
  | cons a l ih =>
    cases j with
    | zero => simp
    | succ j =>
      simp only [List.length_cons] at h
      simp [ih j (by omega)]

theorem getRow_eq_getElem? {E : editorData} {i : Int} {r : rows} (h : getRow E i = some r) :
    E.row[i.toNat]? = some r ∧ i.toNat < E.row.length := by
  have hb := getRow_some_bounds h
  unfold getRow at h
  rw [if_pos hb.1] at h
  exact ⟨h, (List.getElem?_eq_some_iff.mp h).1⟩

theorem row_moveUp {E : editorData} (h0 : 0 ≤ E.cy) (h1 : E.cy < E.numrows) :
    (moveUp E).row = E.row.take E.cy.toNat ++ E.row.drop (E.cy.toNat + 1) := by
  unfold moveUp
  rw [if_neg (by omega)]

theorem row_writeRow {E : editorData} {i : Int} (line : List Nat) (h0 : 0 ≤ i)
    (h1 : i ≤ E.numrows) :
    (writeRow E i line).row = E.row.take i.toNat ++
      renderRow E { chars := line, render := [], hl := [] } :: E.row.drop i.toNat := by
  unfold writeRow
  rw [if_neg (by omega)]

theorem padTab_eq : ∀ (fuel : Nat) (l : List Nat), (TABS - l.length % TABS) % TABS ≤ fuel →
    padTab fuel l = l ++ List.replicate ((TABS - l.length % TABS) % TABS) 32 := by
  intro fuel
  induction fuel with
  | zero =>
    intro l h
    have h0 : (TABS - l.length % TABS) % TABS = 0 := by omega
    simp [padTab, h0]
  | succ fuel ih =>
    intro l h
    unfold TABS at h
    by_cases hl : l.length % TABS ≠ 0
    · have hl8 : l.length % 8 ≠ 0 := hl
      rw [padTab, if_pos hl, ih (l ++ [32]) (by
        unfold TABS; simp only [List.length_append, List.length_singleton]; omega)]
      have hk : (TABS - l.length % TABS) % TABS =
          (TABS - (l ++ [32]).length % TABS) % TABS + 1 := by
        unfold TABS; simp only [List.length_append, List.length_singleton]; omega
      rw [hk, List.replicate_succ, List.append_assoc]
      rfl
    · have hl8 : l.length % 8 = 0 := by
        have : l.length % TABS = 0 := by
          by_contra hne; exact hl hne
        exact this
      rw [padTab, if_neg hl]
      have h0 : (TABS - l.length % TABS) % TABS = 0 := by unfold TABS; omega
      simp [h0]

theorem renderChars_eq_tabExpansion : ∀ (cs out : List Nat),
    renderChars cs out = tabExpansion cs out := by
  intro cs
  induction cs with
  | nil => intro out; rfl
  | cons c cs ih =>
    intro out
    by_cases hc : c = 9
    · simp only [renderChars, tabExpansion, hc, if_true]
      rw [padTab_eq TABS (out ++ [32]) (Nat.le_of_lt (Nat.mod_lt _ (by decide)))]
      have hk : TABS - out.length % TABS = (TABS - (out ++ [32]).length % TABS) % TABS + 1 := by
        unfold TABS; simp only [List.length_append, List.length_singleton]; omega
      rw [hk, List.replicate_succ, List.append_assoc]
      exact ih _
    · simp only [renderChars, tabExpansion, hc, if_false]
      exact ih _

/-- C15: for every raw row content the render form that `renderRow` produces is
the reference tab expansion with tab width 8 (every non-tab byte is copied, a
tab at output length `n` is replaced by `8 - n % 8` spaces), and `rsize` is
the length of that output; the number of spaces is between 1 and 8 and brings
the output length to the next multiple of 8. -/
theorem renderRow_render_is_tabExpansion (E : editorData) (r : rows) :
    (renderRow E r).render = tabExpansion r.chars [] ∧
    (renderRow E r).rsize = (tabExpansion r.chars []).length ∧
    ∀ n : Nat, 1 ≤ TABS - n % TABS ∧ TABS - n % TABS ≤ 8 ∧ (n + (TABS - n % TABS)) % 8 = 0 := by
  have h : (renderRow E r).render = tabExpansion r.chars [] :=
    renderChars_eq_tabExpansion r.chars []
  refine ⟨h, ?_, ?_⟩
  · unfold rows.rsize; rw [h]
  · intro n; unfold TABS; omega

theorem rxLoop_add (chars : List Nat) : ∀ (a d i : Nat) (rx : Int),
    rxLoop chars (a + d) i rx =
      match rxLoop chars a i rx with
      | none => none
      | some rx1 => rxLoop chars d (i + a) rx1 := by
  intro a
  induction a with
  | zero => intro d i rx; simp [rxLoop]
  | succ a ih =>
    intro d i rx
    rw [show a + 1 + d = (a + d) + 1 by omega]
    simp only [rxLoop]
    cases chars[i]? with
    | none => rfl
    | some c =>
      simp only
      rw [ih, show i + 1 + a = i + (a + 1) by omega]

theorem rxLoop_ge (chars : List Nat) : ∀ (n i : Nat) (rx v : Int),
    rxLoop chars n i rx = some v → rx ≤ v := by
  intro n
  induction n with
  | zero => intro i rx v h; simp only [rxLoop, Option.some.injEq] at h; omega
  | succ n ih =>
    intro i rx v h
    simp only [rxLoop] at h
    cases hc : chars[i]? with
    | none => rw [hc] at h; cases h
    | some c =>
      rw [hc] at h
      have := ih _ _ _ h
      have hm : rx % ((TABS : Nat) : Int) < 8 := Int.emod_lt_of_pos _ (by decide)
      have h8 : ((TABS : Nat) : Int) = 8 := rfl
      split at this <;> omega

theorem rxLoop_some (chars : List Nat) : ∀ (n i : Nat) (rx : Int), i + n ≤ chars.length →
    ∃ v, rxLoop chars n i rx = some v := by
  intro n
  induction n with
  | zero => intro i rx _; exact ⟨rx, rfl⟩
  | succ n ih =>
    intro i rx h
    simp only [rxLoop]
    rw [List.getElem?_eq_getElem (by omega)]
    exact ih _ _ (by omega)

theorem scroll_eq {E : editorData} {r : rows} (hr : getRow E E.cy = some r) (h0 : 0 ≤ E.cx)
    (h1 : E.cx ≤ r.size) :
    ∃ v, rxLoop r.chars E.cx.toNat 0 0 = some v ∧
      scroll E = some { E with
        rx := v
        rowoff := if E.cy < E.rowoff then E.cy
          else if E.cy ≥ E.rowoff + E.screenrows then E.cy - E.screenrows + 1 else E.rowoff
        coloff := if v < E.coloff then v
          else if v ≥ E.coloff + E.screencols then v - E.screencols + 1 else E.coloff } := by
  rcases rxLoop_some r.chars E.cx.toNat 0 0 (by unfold rows.size at h1; omega) with ⟨v, hv⟩
  refine ⟨v, hv, ?_⟩
  unfold scroll
  by_cases hc : E.cy < E.numrows ∧ 0 < E.cx
  · simp only [if_pos hc, hr, hv]
  · have hb := getRow_some_bounds hr
    have hx : E.cx = 0 := by omega
    rw [hx] at hv
    simp only [Int.toNat_zero, rxLoop, Option.some.injEq] at hv
    subst hv
    simp only [if_neg hc]

/-- C16: for a row `r` under the cursor and raw columns `0 ≤ a ≤ b ≤ size`,
`scroll` succeeds for both cursor columns and the render column it computes
for `a` is at most the one it computes for `b`. -/
theorem scroll_rx_monotone (E : editorData) (r : rows) (a b : Int)
    (hr : getRow E E.cy = some r) (h0 : 0 ≤ a) (hab : a ≤ b) (hb : b ≤ r.size) :
    ∃ Ea Eb, scroll { E with cx := a } = some Ea ∧ scroll { E with cx := b } = some Eb ∧
      Ea.rx ≤ Eb.rx := by
  rcases scroll_eq (E := { E with cx := a }) (r := r) hr h0 (by show a ≤ r.size; omega) with
    ⟨va, hva, hsa⟩
  rcases scroll_eq (E := { E with cx := b }) (r := r) hr (by show 0 ≤ b; omega) hb with
    ⟨vb, hvb, hsb⟩
  refine ⟨_, _, hsa, hsb, ?_⟩
  show va ≤ vb
  have hsplit : b.toNat = a.toNat + (b.toNat - a.toNat) := by omega
  change rxLoop r.chars a.toNat 0 0 = some va at hva
  change rxLoop r.chars b.toNat 0 0 = some vb at hvb
  rw [hsplit, rxLoop_add, hva] at hvb
  exact rxLoop_ge _ _ _ _ _ hvb

/-- The loop of `scroll` over the `n` bytes from column `i` on, started at the
length of an output `out`, ends at the length of the tab expansion of these
bytes that continues `out`. -/
theorem rxLoop_eq_tabExpansion (chars : List Nat) : ∀ (n i : Nat) (out : List Nat),
    i + n ≤ chars.length →
    rxLoop chars n i (out.length : Int) =
      some ((tabExpansion ((chars.drop i).take n) out).length : Int) := by
  intro n
  induction n with
  | zero => intro i out _; simp [rxLoop, tabExpansion]
  | succ n ih =>
    intro i out h
    have hi : i < chars.length := by omega
    have hdrop : chars.drop i = chars[i] :: chars.drop (i + 1) := List.drop_eq_getElem_cons hi
    simp only [rxLoop, List.getElem?_eq_getElem hi, hdrop, List.take_succ_cons, tabExpansion]
    have h8 : ((TABS : Nat) : Int) = 8 := rfl
    by_cases hc : chars[i] = 9
    · simp only [hc, if_true]
      have hlen : ((out.length : Int) + (((TABS : Int) - 1) - (out.length : Int) % (TABS : Int)) + 1)
          = ((out ++ List.replicate (TABS - out.length % TABS) 32).length : Int) := by
        simp only [List.length_append, List.length_replicate]
        have hm : out.length % TABS < TABS := Nat.mod_lt _ (by decide)
        unfold TABS at hm ⊢
        push_cast
        omega
      rw [hlen]
      exact ih (i + 1) _ (by omega)
    · simp only [hc, if_false]
      have hlen : ((out.length : Int) + 1) = ((out ++ [chars[i]]).length : Int) := by
        simp
      rw [hlen]
      exact ih (i + 1) _ (by omega)

/-- C17: for every state with at least one visible row and one visible column
and a cursor that satisfies the cursor invariant, `scroll` succeeds; it leaves
the cursor, the rows and the size of the window as they were, `rx` is the
render column of the cursor (the length of the render form of the first `cx`
bytes of the row the cursor is on, 0 on the line past the last row), and
afterwards `rowoff ≤ cy < rowoff + screenrows` and
`coloff ≤ rx < coloff + screencols`, whatever `rowoff` and `coloff` were
before (for a non-empty document, and for the empty one as well). -/
theorem scroll_cursor_in_viewport (E : editorData) (hinv : cursorInv E)
    (hrows : 1 ≤ E.screenrows) (hcols : 1 ≤ E.screencols) :
    ∃ E1, scroll E = some E1 ∧
      E1.cx = E.cx ∧ E1.cy = E.cy ∧ E1.row = E.row ∧
      E1.screenrows = E.screenrows ∧ E1.screencols = E.screencols ∧
      E1.rx = ((renderChars ((rowChars E E.cy).take E.cx.toNat) []).length : Int) ∧
      E1.rowoff ≤ E1.cy ∧ E1.cy < E1.rowoff + E1.screenrows ∧
      E1.coloff ≤ E1.rx ∧ E1.rx < E1.coloff + E1.screencols := by
  rcases hinv with ⟨hy0, hy1, hx0, hx⟩
  have key : ∀ v : Int,
      (if E.cy < E.rowoff then E.cy
        else if E.cy ≥ E.rowoff + E.screenrows then E.cy - E.screenrows + 1 else E.rowoff) ≤ E.cy ∧
      E.cy < (if E.cy < E.rowoff then E.cy
        else if E.cy ≥ E.rowoff + E.screenrows then E.cy - E.screenrows + 1 else E.rowoff)
          + E.screenrows ∧
      (if v < E.coloff then v
        else if v ≥ E.coloff + E.screencols then v - E.screencols + 1 else E.coloff) ≤ v ∧
      v < (if v < E.coloff then v
        else if v ≥ E.coloff + E.screencols then v - E.screencols + 1 else E.coloff)
          + E.screencols := by
    intro v
    refine ⟨?_, ?_, ?_, ?_⟩ <;> split_ifs <;> omega
  cases hr : getRow E E.cy with
  | some r =>
    rw [hr] at hx
    rcases scroll_eq hr hx0 hx with ⟨v, hv, hs⟩
    have hx1 : E.cx ≤ (r.chars.length : Int) := hx
    have hk := rxLoop_eq_tabExpansion r.chars E.cx.toNat 0 [] (by omega)
    simp only [List.length_nil, Nat.cast_zero, List.drop_zero] at hk
    rw [hk] at hv
    simp only [Option.some.injEq] at hv
    have hrx : v = ((renderChars ((rowChars E E.cy).take E.cx.toNat) []).length : Int) := by
      rw [← hv, renderChars_eq_tabExpansion]
      simp only [rowChars, hr]
    exact ⟨_, hs, rfl, rfl, rfl, rfl, rfl, hrx, key v⟩
  | none =>
    rw [hr] at hx
    simp only at hx
    have hx : E.cx = 0 := by omega
    have hs : scroll E = some { E with
        rx := 0
        rowoff := if E.cy < E.rowoff then E.cy
          else if E.cy ≥ E.rowoff + E.screenrows then E.cy - E.screenrows + 1 else E.rowoff
        coloff := if (0 : Int) < E.coloff then 0
          else if (0 : Int) ≥ E.coloff + E.screencols then 0 - E.screencols + 1
          else E.coloff } := by
      unfold scroll
      simp only [if_neg (show ¬ (E.cy < E.numrows ∧ 0 < E.cx) by omega)]
    have hrx : (0 : Int) = ((renderChars ((rowChars E E.cy).take E.cx.toNat) []).length : Int) := by
      simp only [rowChars, hr, List.take_nil, renderChars, List.length_nil, Nat.cast_zero]
    exact ⟨_, hs, rfl, rfl, rfl, rfl, rfl, hrx, key 0⟩

theorem renderRow_render (E : editorData) (r : rows) :
    (renderRow E r).render = tabExpansion (renderRow E r).chars [] :=
  renderChars_eq_tabExpansion r.chars []

theorem take_succ_set_take {α : Type} (l : List α) (k : Nat) (x : α) (h : k < l.length) :
    (l.take (k + 1)).set k x = l.take k ++ [x] := by
  induction l generalizing k with
  | nil => simp at h
  | cons a l ih =>
    cases k with
    | zero => simp
    | succ k =>
      simp only [List.length_cons] at h
      simp [ih k (by omega)]

theorem take_set_self {α : Type} (l : List α) (k : Nat) (x : α) :
    (l.set k x).take k = l.take k := by
  induction l generalizing k with
  | nil => simp
  | cons a l ih =>
    cases k with
    | zero => simp
    | succ k => simp [ih k]

theorem drop_eq_cons_of_getElem? {α : Type} {l : List α} {k : Nat} {x : α} (h : l[k]? = some x) :
    l.drop k = x :: l.drop (k + 1) := by
  rcases List.getElem?_eq_some_iff.mp h with ⟨hlt, hx⟩
  rw [List.drop_eq_getElem_cons hlt, hx]

/-- C11: with the cursor at column 0 of a row `r` that has a row `above` before
it (row index `i` with `0 < i < numrows`), `deleteChar` makes row `i-1` hold
the bytes of `above` followed by those of `r`, removes row `i`, leaves every
other row as it was and in order, reduces `numrows` by one and puts the cursor
at row `i-1`, column = the old size of `above`. -/
theorem deleteChar_merges_with_previous_row (E : editorData) (above r : rows)
    (hcx : E.cx = 0) (ha : getRow E (E.cy - 1) = some above) (hr : getRow E E.cy = some r) :
    ∃ E1 merged, deleteChar E = some E1 ∧
      merged.chars = above.chars ++ r.chars ∧
      E1.row = E.row.take (E.cy - 1).toNat ++ merged :: E.row.drop (E.cy.toNat + 1) ∧
      E1.numrows = E.numrows - 1 ∧ E1.cy = E.cy - 1 ∧ E1.cx = above.size := by
  have hba := getRow_some_bounds ha
  have hbr := getRow_some_bounds hr
  have hla := (getRow_eq_getElem? ha).2
  have hrow : (moveUp (setRow { E with cx := above.size } (E.cy - 1)
      (renderRow { E with cx := above.size } { above with chars := above.chars ++ r.chars, term := some 0 }))).row
      = E.row.take (E.cy - 1).toNat ++
        renderRow { E with cx := above.size } { above with chars := above.chars ++ r.chars, term := some 0 } ::
          E.row.drop (E.cy.toNat + 1) := by
    rw [row_moveUp (by show 0 ≤ E.cy; omega) (by rw [numrows_setRow]; exact hbr.2)]
    show (E.row.set (E.cy - 1).toNat _).take E.cy.toNat ++
      (E.row.set (E.cy - 1).toNat _).drop (E.cy.toNat + 1) = _
    have hk : E.cy.toNat = (E.cy - 1).toNat + 1 := by omega
    rw [hk, take_succ_set _ _ _ hla, List.drop_set_of_lt _ _ (by omega)]
    simp
  have hdel : ∃ E1, deleteChar E = some E1 ∧
      E1.row = (moveUp (setRow { E with cx := above.size } (E.cy - 1)
        (renderRow { E with cx := above.size }
          { above with chars := above.chars ++ r.chars, term := some 0 }))).row ∧
      E1.cy = E.cy - 1 ∧ E1.cx = above.size := by
    unfold deleteChar
    rw [if_neg (by omega), if_neg (by omega)]
    unfold deleteMoveUp
    simp only [ha, hr]
    refine ⟨_, rfl, rfl, ?_, ?_⟩
    · show (moveUp _).cy - 1 = _
      rw [moveUp_cy]; rfl
    · show (moveUp _).cx = _
      rw [moveUp_cx]; rfl
  rcases hdel with ⟨E1, hE1, hrow1, hcy1, hcx1⟩
  rw [hrow] at hrow1
  refine ⟨E1, _, hE1, ?_, hrow1, ?_, hcy1, hcx1⟩
  · rfl
  · unfold editorData.numrows at hbr ⊢
    rw [hrow1]
    simp only [List.length_append, List.length_cons, List.length_take, List.length_drop]
    omega

theorem insertCharToRow_fields {E : editorData} {r : rows} (c : Int)
    (hr : getRow E E.cy = some r) (h0 : 0 ≤ E.cx) (h1 : E.cx ≤ r.size) :
    ∃ E1 R, insertCharToRow E c = some E1 ∧
      R.chars = r.chars.take E.cx.toNat ++ (c % 256).toNat :: r.chars.drop E.cx.toNat ∧
      R.render = tabExpansion R.chars [] ∧
      E1.row = E.row.set E.cy.toNat R ∧
      E1.cx = E.cx + 1 ∧ E1.cy = E.cy ∧ E1.modified = E.modified := by
  unfold insertCharToRow
  rw [hr]
  simp only [if_neg (show ¬ (E.cx < 0 ∨ E.cx > r.size) by omega)]
  exact ⟨_, _, rfl, rfl, renderRow_render _ _, rfl, rfl, rfl, rfl⟩

/-- C12: for every state that satisfies the cursor invariant and every byte `c`,
`insertChar` makes row `cy` hold `old[0..cx) ++ [c] ++ old[cx..]`, where `old`
is the content of row `cy` (empty when `cy = numrows`, in which case the row is
new at the end of the document), with the render form the tab expansion of
the new content; every other row, and `cy`, are unchanged, `cx` grows by one
and the modified flag is set. -/
theorem insertChar_splices_byte (E : editorData) (c : Nat) (hc : c < 256) (hinv : cursorInv E) :
    ∃ E1 newRow, insertChar E (c : Int) = some E1 ∧
      newRow.chars = (rowChars E E.cy).take E.cx.toNat ++ c :: (rowChars E E.cy).drop E.cx.toNat ∧
      newRow.render = tabExpansion newRow.chars [] ∧
      E1.row = E.row.take E.cy.toNat ++ newRow :: E.row.drop (E.cy.toNat + 1) ∧
      E1.cx = E.cx + 1 ∧ E1.cy = E.cy ∧ E1.modified = true := by
  rcases hinv with ⟨hy0, hy1, hx0, hx⟩
  have hbyte : ((c : Int) % 256).toNat = c := by omega
  unfold insertChar
  simp only
  have hn : ({ E with modified := true } : editorData).numrows = E.numrows := rfl
  have hcy : ({ E with modified := true } : editorData).cy = E.cy := rfl
  by_cases hlast : E.cy = E.numrows
  · rw [if_pos (by rw [hcy, hn]; exact hlast)]
    have hnone : getRow E E.cy = none := by
      cases hg : getRow E E.cy with
      | none => rfl
      | some r => have := getRow_some_bounds hg; omega
    rw [hnone] at hx
    simp only at hx
    have hx : E.cx = 0 := by omega
    have hw := getRow_writeRow_self (E := { E with modified := true }) (i := E.numrows) []
      (by omega) (by rw [hn])
    have hcy2 : (writeRow { E with modified := true } E.numrows []).cy = E.numrows := by
      rw [writeRow_cy]; exact hlast
    have hcx2 : (writeRow { E with modified := true } E.numrows []).cx = 0 := by
      rw [writeRow_cx]; exact hx
    have hmod : (writeRow { E with modified := true } E.numrows []).modified = true := by
      unfold writeRow; split <;> rfl
    have hrow2 := row_writeRow (E := { E with modified := true }) (i := E.numrows) []
      (by omega) (by rw [hn])
    rcases insertCharToRow_fields (E := writeRow { E with modified := true } E.numrows []) c
      (by rw [hcy2]; exact hw) (by rw [hcx2]) (by rw [hcx2]; exact rows_size_nonneg _) with
      ⟨E1, R, hE1, hRc, hRr, hrow, hcx1, hcy1, hm1⟩
    refine ⟨E1, R, hE1, ?_, hRr, ?_, ?_, ?_, ?_⟩
    · rw [hRc]
      simp only [rowChars, hnone, renderRow_chars, hcx2, hbyte]
      simp
    · rw [hrow, hrow2, hcy2, hlast]
      unfold editorData.numrows
      simp only [Int.toNat_ofNat, List.take_length, List.drop_length]
      show (E.row ++ [_]).set E.row.length _ = _
      rw [List.set_append_right _ _ (le_refl _)]
      simp
    · rw [hcx1, hcx2, hx]
    · rw [hcy1, hcy2, hlast]
    · rw [hm1, hmod]
  · rw [if_neg (by rw [hcy, hn]; exact hlast)]
    rcases getRow_isSome (E := E) hy0 (by omega) with ⟨r, hr⟩
    rw [hr] at hx
    rcases insertCharToRow_fields (E := { E with modified := true }) c hr hx0 hx with
      ⟨E1, R, hE1, hRc, hRr, hrow, hcx1, hcy1, hm1⟩
    refine ⟨E1, R, hE1, ?_, hRr, ?_, hcx1, hcy1, hm1⟩
    · rw [hRc]
      simp only [rowChars, hr, hbyte]
    · rw [hrow]
      show E.row.set E.cy.toNat _ = _
      rw [List.set_eq_take_append_cons_drop, if_pos (getRow_eq_getElem? hr).2]

/-- C13: with the cursor on an existing row `r` and `0 ≤ cx ≤ size`,
`insertNewline` replaces row `cy` by the two rows `old[0..cx)` and `old[cx..]`
in that order and leaves the other rows as they were and in order; the first
row is rendered, the second is rendered when `cx ≠ 0` and is the unchanged
row `r` when `cx = 0`; `numrows` grows by one and the cursor is at row `cy+1`,
column 0. -/
theorem insertNewline_splits_row (E : editorData) (r : rows) (hr : getRow E E.cy = some r)
    (hx0 : 0 ≤ E.cx) (hx1 : E.cx ≤ r.size) :
    ∃ E1 r1 r2, insertNewline E = some E1 ∧
      r1.chars = r.chars.take E.cx.toNat ∧ r2.chars = r.chars.drop E.cx.toNat ∧
      r1.render = tabExpansion r1.chars [] ∧
      (E.cx ≠ 0 → r2.render = tabExpansion r2.chars []) ∧ (E.cx = 0 → r2 = r) ∧
      E1.row = E.row.take E.cy.toNat ++ r1 :: r2 :: E.row.drop (E.cy.toNat + 1) ∧
      E1.numrows = E.numrows + 1 ∧ E1.cy = E.cy + 1 ∧ E1.cx = 0 := by
  have hb := getRow_some_bounds hr
  have hg := getRow_eq_getElem? hr
  have hlen : ∀ (a b : rows), ((E.row.take E.cy.toNat ++ a :: b :: E.row.drop (E.cy.toNat + 1)).length
      : Int) = E.numrows + 1 := by
    intro a b
    unfold editorData.numrows at hb ⊢
    simp only [List.length_append, List.length_cons, List.length_take, List.length_drop]
    omega
  by_cases hc : E.cx = 0
  · have hrow : (writeRow E E.cy []).row = E.row.take E.cy.toNat ++
        renderRow E { chars := [], render := [], hl := [] } :: r :: E.row.drop (E.cy.toNat + 1) := by
      rw [row_writeRow [] hb.1 (by omega), drop_eq_cons_of_getElem? hg.1]
    refine ⟨{ writeRow E E.cy [] with cy := E.cy + 1, cx := 0 },
      renderRow E { chars := [], render := [], hl := [] }, r, ?_, ?_, ?_, renderRow_render _ _,
      fun h => absurd hc h, fun _ => rfl, hrow, ?_, rfl, rfl⟩
    · unfold insertNewline; rw [if_pos hc]
    · rw [hc]; rfl
    · rw [hc]; rfl
    · show (((writeRow E E.cy []).row.length : Nat) : Int) = _
      rw [hrow]; exact hlen _ _
  · have hw0 : (0 : Int) ≤ E.cy + 1 := by omega
    have hw1 : E.cy + 1 ≤ E.numrows := by omega
    have hk : (E.cy + 1).toNat = E.cy.toNat + 1 := by omega
    obtain ⟨W, hW⟩ : ∃ W, W = writeRow E (E.cy + 1) (r.chars.drop E.cx.toNat) := ⟨_, rfl⟩
    have hWcy : W.cy = E.cy := by rw [hW, writeRow_cy]
    have hWcx : W.cx = E.cx := by rw [hW, writeRow_cx]
    have hWrow : W.row = E.row.take (E.cy.toNat + 1) ++
        renderRow E { chars := r.chars.drop E.cx.toNat, render := [], hl := [] } ::
          E.row.drop (E.cy.toNat + 1) := by
      rw [hW, row_writeRow _ hw0 hw1, hk]
    have hWget : getRow W W.cy = some r := by
      rw [hWcy, hW, getRow_writeRow_below _ hb.1 (by omega) hw1]; exact hr
    have hins : insertNewline E = some { setRow W W.cy
        (renderRow W { r with chars := r.chars.take (W.cx.toNat), term := some 0 }) with
        cy := W.cy + 1, cx := 0 } := by
      unfold insertNewline
      rw [if_neg hc]
      simp only [hr, if_pos (And.intro hx0 hx1), ← hW, hWget]
      rfl
    have hrow2 : (setRow W W.cy (renderRow W { r with chars := r.chars.take (W.cx.toNat), term := some 0 })).row =
        E.row.take E.cy.toNat ++
          renderRow W { r with chars := r.chars.take (W.cx.toNat), term := some 0 } ::
          renderRow E { chars := r.chars.drop E.cx.toNat, render := [], hl := [] } ::
          E.row.drop (E.cy.toNat + 1) := by
      show W.row.set W.cy.toNat _ = _
      rw [hWcy, hWrow, List.set_append_left _ _ (by rw [List.length_take]; omega),
        take_succ_set_take _ _ _ hg.2]
      simp
    refine ⟨_, renderRow W { r with chars := r.chars.take (W.cx.toNat), term := some 0 },
      renderRow E { chars := r.chars.drop E.cx.toNat, render := [], hl := [] },
      hins, ?_, rfl, renderRow_render _ _, fun _ => renderRow_render _ _,
      fun h => absurd h hc, hrow2, ?_, ?_, rfl⟩
    · rw [hWcx]; rfl
    · show (((setRow W W.cy _).row.length : Nat) : Int) = _
      rw [hrow2]; exact hlen _ _
    · show W.cy + 1 = _
      rw [hWcy]

theorem deleteCharinRow_at_end {E : editorData} {r : rows} (hr : getRow E E.cy = some r)
    (hx : E.cx = r.size) (hpos : 0 < r.size) :
    ∃ E1 R, deleteCharinRow E = some E1 ∧ R.chars.length + 1 = r.chars.length ∧
      E1.row = E.row.set E.cy.toNat R ∧ E1.cy = E.cy ∧ E1.cx = E.cx - 1 := by
  unfold deleteCharinRow
  rw [hr]
  simp only [if_neg (show ¬ (E.cx - 1 < 0 ∨ E.cx - 1 ≥ r.size) by omega)]
  refine ⟨_, _, rfl, ?_, rfl, rfl, rfl⟩
  simp only [renderRow_chars, List.length_append, List.length_take, List.length_drop]
  unfold rows.size at hx hpos
  omega

theorem deleteLineLoop_spec : ∀ (n : Nat) (E : editorData) (r : rows),
    getRow E E.cy = some r → r.chars.length = n → E.cx = (n : Int) →
    ∃ E1, deleteLineLoop n E = some E1 ∧ E1.cy = E.cy ∧ E1.cx = 0 ∧
      E1.row.length = E.row.length ∧
      E1.row.take E.cy.toNat = E.row.take E.cy.toNat ∧
      E1.row.drop (E.cy.toNat + 1) = E.row.drop (E.cy.toNat + 1) := by
  intro n
  induction n with
  | zero =>
    intro E r hr hlen hx
    refine ⟨E, ?_, rfl, by simpa using hx, rfl, rfl, rfl⟩
    unfold deleteLineLoop
    rw [hr]
    simp only [rows.size, hlen]
    simp
  | succ n ih =>
    intro E r hr hlen hx
    have hb := getRow_some_bounds hr
    have hg := getRow_eq_getElem? hr
    have hsz : r.size = (n : Int) + 1 := by unfold rows.size; rw [hlen]; push_cast; rfl
    rcases deleteCharinRow_at_end hr (by rw [hx, hsz]; push_cast; rfl) (by omega) with
      ⟨E1, R, hdel, hRlen, hrow1, hcy1, hcx1⟩
    have hget1 : getRow E1 E1.cy = some R := by
      rw [hcy1]
      unfold getRow
      rw [if_pos hb.1, hrow1]
      exact List.getElem?_set_self hg.2
    rcases ih E1 R hget1 (by omega) (by rw [hcx1, hx]; push_cast; omega) with
      ⟨E2, hloop, hcy2, hcx2, hlen2, htake2, hdrop2⟩
    refine ⟨E2, ?_, by rw [hcy2, hcy1], hcx2, ?_, ?_, ?_⟩
    · unfold deleteLineLoop
      rw [hr]
      simp only [if_pos (show r.size > 0 ∧ E.cy < E.numrows from ⟨by omega, hb.2⟩), hdel]
      exact hloop
    · rw [hlen2, hrow1, List.length_set]
    · rw [hcy1] at htake2
      rw [htake2, hrow1, take_set_self]
    · rw [hcy1] at hdrop2
      rw [hdrop2, hrow1, List.drop_set_of_lt _ _ (Nat.lt_succ_self _)]

/-- C14: with the cursor on an existing row (`0 ≤ cy < numrows`), `deleteLine`
returns, and it removes exactly row `cy`: the rows before and after it are
unchanged and in order, `numrows` decreases by one, `cy` is unchanged and `cx`
is 0. -/
theorem deleteLine_removes_row (E : editorData) (h0 : 0 ≤ E.cy) (h1 : E.cy < E.numrows) :
    ∃ E1, deleteLine E = some E1 ∧
      E1.row = E.row.take E.cy.toNat ++ E.row.drop (E.cy.toNat + 1) ∧
      E1.numrows = E.numrows - 1 ∧ E1.cy = E.cy ∧ E1.cx = 0 := by
  rcases getRow_isSome (E := E) h0 h1 with ⟨r, hr⟩
  rcases deleteLineLoop_spec r.chars.length { E with cx := r.size } r hr rfl rfl with
    ⟨E1, hloop, hcy1, hcx1, hlen1, htake1, hdrop1⟩
  have hcy1 : E1.cy = E.cy := hcy1
  have htake1 : E1.row.take E.cy.toNat = E.row.take E.cy.toNat := htake1
  have hdrop1 : E1.row.drop (E.cy.toNat + 1) = E.row.drop (E.cy.toNat + 1) := hdrop1
  have hlen1 : E1.row.length = E.row.length := hlen1
  have hn1 : E1.numrows = E.numrows := by unfold editorData.numrows; rw [hlen1]
  have hrow : (moveUp E1).row = E.row.take E.cy.toNat ++ E.row.drop (E.cy.toNat + 1) := by
    rw [row_moveUp (by rw [hcy1]; exact h0) (by rw [hcy1, hn1]; exact h1), hcy1, htake1, hdrop1]
  refine ⟨moveUp E1, ?_, hrow, ?_, by rw [moveUp_cy, hcy1], by rw [moveUp_cx, hcx1]⟩
  · unfold deleteLine
    simp only [hr, hloop, if_pos (show E1.cy < E1.numrows by rw [hcy1, hn1]; exact h1)]
  · unfold editorData.numrows at h1 ⊢
    rw [hrow]
    simp only [List.length_append, List.length_take, List.length_drop]
    omega

theorem deleteChar_merges_with_previous_row_witness :
    ({ row := [{ chars := [97, 98] }, { chars := [99] }], cy := 1 } : editorData).cx = 0 ∧
    ∃ E1 merged,
      deleteChar { row := [{ chars := [97, 98] }, { chars := [99] }], cy := 1 } = some E1 ∧
      merged.chars = [97, 98] ++ [99] ∧
      E1.row = ([{ chars := [97, 98] }, { chars := [99] }] : List rows).take ((1 : Int) - 1).toNat
        ++ merged :: ([{ chars := [97, 98] }, { chars := [99] }] : List rows).drop
          ((1 : Int).toNat + 1) ∧
      E1.numrows = 2 - 1 ∧ E1.cy = 1 - 1 ∧ E1.cx = 2 :=
  ⟨rfl, deleteChar_merges_with_previous_row
    { row := [{ chars := [97, 98] }, { chars := [99] }], cy := 1 }
    { chars := [97, 98] } { chars := [99] } rfl rfl rfl⟩

theorem insertChar_splices_byte_witness :
    (120 < 256) ∧ cursorInv { row := [{ chars := [97, 98] }], cx := 1 } ∧
    ∃ E1 newRow, insertChar { row := [{ chars := [97, 98] }], cx := 1 } ((120 : Nat) : Int)
        = some E1 ∧
      newRow.chars = (rowChars { row := [{ chars := [97, 98] }], cx := 1 } 0).take (1 : Int).toNat
        ++ 120 :: (rowChars { row := [{ chars := [97, 98] }], cx := 1 } 0).drop (1 : Int).toNat ∧
      newRow.render = tabExpansion newRow.chars [] ∧
      E1.row = ([{ chars := [97, 98] }] : List rows).take (0 : Int).toNat ++ newRow ::
        ([{ chars := [97, 98] }] : List rows).drop ((0 : Int).toNat + 1) ∧
      E1.cx = 1 + 1 ∧ E1.cy = 0 ∧ E1.modified = true :=
  ⟨by decide, by decide,
   insertChar_splices_byte { row := [{ chars := [97, 98] }], cx := 1 } 120 (by decide)
     (by decide)⟩

theorem insertNewline_splits_row_witness :
    getRow { row := [{ chars := [97, 98] }], cx := 1 } 0 = some { chars := [97, 98] } ∧
    ∃ (E1 : editorData) (r1 r2 : rows),
      insertNewline { row := [{ chars := [97, 98] }], cx := 1 } = some E1 ∧
      r1.chars = [97] ∧ r2.chars = [98] ∧ E1.cy = 1 ∧ E1.cx = 0 ∧ E1.numrows = 2 := by
  refine ⟨rfl, ?_⟩
  rcases insertNewline_splits_row { row := [{ chars := [97, 98] }], cx := 1 }
    { chars := [97, 98] } rfl (by decide) (by decide) with
    ⟨E1, r1, r2, h, h1, h2, _, _, _, _, hn, hcy, hcx⟩
  exact ⟨E1, r1, r2, h, h1, h2, hcy, hcx, hn⟩

theorem deleteLine_removes_row_witness :
    ∃ E1, deleteLine { row := [{ chars := [97, 98] }, { chars := [99] }], cx := 1 } = some E1 ∧
      E1.row = [{ chars := [99] }] ∧ E1.cy = 0 ∧ E1.cx = 0 := by
  rcases deleteLine_removes_row { row := [{ chars := [97, 98] }, { chars := [99] }], cx := 1 }
    (by decide) (by decide) with ⟨E1, h, hrow, _, hcy, hcx⟩
  exact ⟨E1, h, hrow, hcy, hcx⟩

theorem scroll_rx_monotone_witness :
    ∃ Ea Eb, scroll { ({ row := [{ chars := [9, 97, 9] }] } : editorData) with cx := 1 } = some Ea ∧
      scroll { ({ row := [{ chars := [9, 97, 9] }] } : editorData) with cx := 3 } = some Eb ∧
      Ea.rx ≤ Eb.rx :=
  scroll_rx_monotone { row := [{ chars := [9, 97, 9] }] } { chars := [9, 97, 9] } 1 3 rfl
    (by decide) (by decide) (by decide)

theorem scroll_cursor_in_viewport_witness :
    cursorInv { row := [{ chars := [9, 97, 9] }], cx := 3, rowoff := 7, coloff := 50,
                screenrows := 5, screencols := 10 } ∧
    (1 : Int) ≤ 5 ∧ (1 : Int) ≤ 10 ∧
    ∃ E1, scroll { row := [{ chars := [9, 97, 9] }], cx := 3, rowoff := 7, coloff := 50,
                   screenrows := 5, screencols := 10 } = some E1 ∧
      E1.cx = 3 ∧ E1.cy = 0 ∧ E1.row = [{ chars := [9, 97, 9] }] ∧
      E1.screenrows = 5 ∧ E1.screencols = 10 ∧
      E1.rx = 16 ∧
      E1.rowoff ≤ E1.cy ∧ E1.cy < E1.rowoff + E1.screenrows ∧
      E1.coloff ≤ E1.rx ∧ E1.rx < E1.coloff + E1.screencols :=
  ⟨by decide, by decide, by decide,
   scroll_cursor_in_viewport _ (by decide) (by decide) (by decide)⟩

end Editor

/-! ## Properties of the spell-check command -/

namespace Editor

open Dict Spell

/-- C18: the document has the single row "zz " rendered outside highlight mode
(all three tags `NORMAL`) and the dictionary holds the single word "a". After
`spellCheck` all three tags are `MISSPELLED`: the recorded span is (0, 2),
its end is the index of the byte after the token, and `highlightWords` marks
the columns from `E.start` to `E.end` inclusive, so the space after "zz" is
marked as well. -/
theorem spellCheck_marks_delimiter :
    (writeRow {} 0 [122, 122, 32]).row.map (fun r => (r.render, r.hl))
      = [([122, 122, 32], [NORMAL, NORMAL, NORMAL])] ∧
    (spellCheck (some [97, 10]) (writeRow {} 0 [122, 122, 32])).masks
      = some [[MISSPELLED, MISSPELLED, MISSPELLED]] := by
  decide

/-- C20, as stated, fails: when the dictionary file cannot be opened `spellCheck`
ends the process with status 1 and does not return to the editor loop. -/
theorem spellCheck_without_dictionary_exits :
    spellCheck none (writeRow {} 0 [122, 122, 32]) = .exits 1 ∧
    ¬ ∃ E1, spellCheck none (writeRow {} 0 [122, 122, 32]) = .returns E1 := by
  refine ⟨rfl, ?_⟩
  rintro ⟨E1, h⟩
  have h1 : spellCheck none (writeRow {} 0 [122, 122, 32]) = .exits 1 := rfl
  rw [h1] at h
  cases h

/-- C20, amended: when the dictionary file cannot be opened, `loadDictionary`
returns 1 and `spellCheck` calls `die`: for every state the process ends with
exit status 1, nothing is returned to the editor loop. -/
theorem spellCheck_dies_without_dictionary (E : editorData) :
    loadDictionary none = some (1, none) ∧ spellCheck none E = die ∧ die = .exits 1 :=
  ⟨rfl, rfl, rfl⟩

end Editor

namespace Spell

open Dict

/-- C19: with the dictionary of the single word "a", `spellChecker` on the row
"12 zz " (length 6) records the span (1, 3) for the token "zz", whose first
byte is at index 3: `cursor` grows by one per pass of the loop while the digit
run "12" moved `i` by three. -/
theorem spellChecker_span_drifts_after_digits :
    (load [97, 10]).bind (fun t =>
      (spellChecker t freshMiswords [49, 50, 32, 122, 122, 32] 6 0).map
        (fun r => (r.1, r.2.take 1))) = some (1, [⟨1, 3⟩]) := by
  decide

end Spell

/-! ## Properties of the dictionary loader -/

namespace Dict

/-- C21: for the dictionary file holding the single byte "a", and for the file
holding a single newline, `load` touches a node outside the arena: the arena
has one node (index 0) and `root` is `nodeBucket + 1`, index 1, which `load`
dereferences for the first word. For the empty file `load` returns with
`root` at index 1 of an arena of 0 nodes. -/
theorem load_root_outside_arena :
    load [97] = none ∧ load [10] = none ∧
    (load []).map (fun t => (t.root, t.nodeBucket.length)) = some (1, 0) := by
  decide

/-- C22: `load` does not fold case. The upper-case letter "C" has no child slot
(`'C' - 'a'` is negative), and loading the wordlist with the single word
"Cat" indexes the child array outside its 27 entries. -/
theorem load_upper_case_leaves_child_array :
    slot 67 = none ∧ load (wordlistFile [[67, 97, 116]]) = none := by
  decide

end Dict

/-! ## The spell checker on over-long tokens and on digits -/

namespace Spell

open CType Dict

theorem spellLoop_done (t : Trie) (text : List Nat) (len : Nat) (f : Nat) (st : SpellState)
    (h : len ≤ st.i) : spellLoop t text len f st = some st := by
  cases f <;> simp [spellLoop, Nat.not_lt.mpr h]

theorem spellLoop_step (t : Trie) (text : List Nat) (len : Nat) (f : Nat) {st st1 : SpellState}
    (h : st.i < len) (hs : spellStep t text st = some st1) :
    spellLoop t text len (f + 1) st = spellLoop t text len f st1 := by
  simp [spellLoop, h, hs]

theorem getElem?_mid (pre : List Nat) (c : Nat) (rest : List Nat) :
    (pre ++ c :: rest)[pre.length]? = some c := by
  rw [List.getElem?_append_right (le_refl _)]
  simp

theorem drop_mid (pre : List Nat) (rest : List Nat) :
    (pre ++ rest).drop pre.length = rest := by
  simp

/-- Letters and apostrophes met with a token open are appended to the word as
long as it holds at most `LENGTH` bytes afterwards. -/
theorem spellLoop_token (t : Trie) (len : Nat) :
    ∀ (seg pre rest : List Nat) (f : Nat) (st : SpellState), st.i = pre.length →
      st.word ≠ [] → (∀ c ∈ seg, isTokenByte c) → st.word.length + seg.length ≤ LENGTH →
      pre.length + seg.length ≤ len →
      ∃ st1, spellLoop t (pre ++ (seg ++ rest)) len (f + seg.length) st =
          spellLoop t (pre ++ (seg ++ rest)) len f st1 ∧
        st1.i = st.i + seg.length ∧ st1.word.length = st.word.length + seg.length ∧
        st1.misspellings = st.misspellings ∧ st1.miswords = st.miswords := by
  intro seg
  induction seg with
  | nil =>
    intro pre rest f st _ _ _ _ _
    exact ⟨st, rfl, rfl, rfl, rfl, rfl⟩
  | cons c cs ih =>
    intro pre rest f st hi hw hs hk hl
    have hc : isTokenByte c := hs c (List.mem_cons_self _ _)
    simp only [List.length_cons] at hl hk
    have hpos : 0 < st.word.length := List.length_pos.mpr hw
    have hcond : (isalpha c || (decide (c = 39) && decide (0 < st.word.length))) = true := by
      rcases hc with h | h
      · simp [h]
      · simp [h, hpos]
    have hstep : spellStep t (pre ++ (c :: cs ++ rest)) st =
        some { st with i := st.i + 1, word := st.word ++ [c], cursor := st.cursor + 1 } := by
      have h1 : st.word.length ≤ LENGTH := by omega
      have h2 : ¬ (st.word ++ [c]).length > LENGTH := by
        simp only [List.length_append, List.length_singleton]; omega
      simp only [spellStep, hi, List.cons_append, getElem?_mid]
      simp only [hcond, if_true, h1, h2, if_false]
    have htext : pre ++ (c :: cs ++ rest) = (pre ++ [c]) ++ (cs ++ rest) := by simp
    have key := ih (pre ++ [c]) rest f
      { st with i := st.i + 1, word := st.word ++ [c], cursor := st.cursor + 1 }
      (by simp [hi]) (by simp)
      (fun x hx => hs x (List.mem_cons_of_mem _ hx))
      (by simp only [List.length_append, List.length_singleton]; omega) (by simp; omega)
    dsimp only at key
    simp only [List.length_append, List.length_singleton] at key
    obtain ⟨st1, h1, h2, h3, h4, h5⟩ := key
    refine ⟨st1, ?_, ?_, ?_, h4, h5⟩
    · have : f + (c :: cs).length = (f + cs.length) + 1 := by simp only [List.length_cons]; omega
      rw [this, spellLoop_step t _ _ _ (by omega) hstep, htext]
      exact h1
    · simp only [List.length_cons] at h2 ⊢; omega
    · simp only [List.length_cons]; omega

/-- The loop `while (isalpha(text[i])) i++` over letters that a byte which is
not a letter follows. -/
theorem skipRun_alpha (r : Nat) (rs : List Nat) (hr : isalpha r = false) :
    ∀ (ls : List Nat) (i : Nat), (∀ c ∈ ls, isalpha c = true) →
      skipRun isalpha (ls ++ r :: rs) i = some (i + ls.length) := by
  intro ls
  induction ls with
  | nil => intro i _; simp [skipRun, hr]
  | cons c cs ih =>
    intro i h
    simp only [List.cons_append, skipRun, h c (List.mem_cons_self _ _), if_true,
      List.length_cons]
    have h1 := ih (i + 1) (fun x hx => h x (List.mem_cons_of_mem _ hx))
    rw [show i + (cs.length + 1) = i + 1 + cs.length by omega]
    exact h1

theorem isalpha_of_isdigit {c : Nat} (h : isdigit c = true) : isalpha c = false := by
  simp only [isdigit, isalpha, isupper, islower, decide_eq_true_eq, Bool.or_eq_false_iff,
    decide_eq_false_iff_not] at *
  omega

theorem ne_apostrophe_of_isdigit {c : Nat} (h : isdigit c = true) : c ≠ 39 := by
  simp only [isdigit, decide_eq_true_eq] at h
  omega

/-- The loop `while (isalnum(text[i])) i++` on bytes that a byte which is
neither a letter nor a digit follows: it stops among these bytes or on that
byte. -/
theorem skipRun_alnum_stop (r : Nat) (rs : List Nat) (hr : isalnum r = false) :
    ∀ (cs : List Nat) (i : Nat), ∃ m, m ≤ cs.length ∧
      skipRun isalnum (cs ++ r :: rs) i = some (i + m) := by
  intro cs
  induction cs with
  | nil => intro i; exact ⟨0, le_refl _, by simp [skipRun, hr]⟩
  | cons c cs ih =>
    intro i
    by_cases hc : isalnum c = true
    · obtain ⟨m, hm, h⟩ := ih (i + 1)
      refine ⟨m + 1, by simp only [List.length_cons]; omega, ?_⟩
      simp only [List.cons_append, skipRun, hc, if_true]
      rw [show i + (m + 1) = i + 1 + m by omega]
      exact h
    · exact ⟨0, Nat.zero_le _, by simp [skipRun, hc]⟩

/-- Bytes that are not letters, met with no token open and followed by a byte
that is neither a letter nor a digit: the loop passes them without recording
anything and stands on that byte or right after it. -/
theorem spellLoop_noLetters (t : Trie) (len : Nat) (r : Nat) (rs : List Nat)
    (hr : isalnum r = false) :
    ∀ (n : Nat) (seg pre : List Nat) (st : SpellState), seg.length ≤ n → st.i = pre.length →
      st.word = [] → (∀ c ∈ seg, isalpha c = false) → pre.length + seg.length ≤ len →
      ∃ k st1, k ≤ seg.length ∧
        (∀ f, spellLoop t (pre ++ (seg ++ r :: rs)) len (f + k) st =
          spellLoop t (pre ++ (seg ++ r :: rs)) len f st1) ∧
        (st1.i = pre.length + seg.length ∨ st1.i = pre.length + seg.length + 1) ∧
        st1.word = [] ∧ st1.misspellings = st.misspellings ∧ st1.miswords = st.miswords := by
  intro n
  induction n with
  | zero =>
    intro seg pre st hn hi hw _ _
    have hs : seg = [] := List.length_eq_zero.mp (by omega)
    subst hs
    exact ⟨0, st, le_refl _, fun f => rfl, Or.inl (by simp [hi]), hw, rfl, rfl⟩
  | succ n ih =>
    intro seg pre st hn hi hw hseg hl
    cases seg with
    | nil => exact ⟨0, st, le_refl _, fun f => rfl, Or.inl (by simp [hi]), hw, rfl, rfl⟩
    | cons c cs =>
      simp only [List.length_cons] at hn hl
      have hca : isalpha c = false := hseg c (List.mem_cons_self _ _)
      have hcs : ∀ x ∈ cs, isalpha x = false := fun x hx => hseg x (List.mem_cons_of_mem _ hx)
      have hlt : st.i < len := by omega
      have hget : (pre ++ (c :: cs ++ r :: rs))[st.i]? = some c := by
        rw [hi]; exact getElem?_mid pre c _
      by_cases hd : isdigit c = true
      · obtain ⟨m, hm, hskip⟩ := skipRun_alnum_stop r rs hr cs (st.i + 1)
        have hdrop : (pre ++ (c :: cs ++ r :: rs)).drop st.i = c :: (cs ++ r :: rs) := by
          rw [hi]; exact drop_mid pre _
        have halnum : isalnum c = true := by simp [isalnum, hd]
        have hstep : spellStep t (pre ++ (c :: cs ++ r :: rs)) st =
            some { st with i := st.i + 1 + m + 1, word := [], cursor := st.cursor + 1 } := by
          simp only [spellStep, hget, hca, ne_apostrophe_of_isdigit hd, decide_False,
            Bool.false_and, Bool.or_false, Bool.false_eq_true, if_false, hd, if_true, hdrop,
            skipRun, halnum, hskip]
        by_cases hm2 : m = cs.length
        · refine ⟨1, _, by simp only [List.length_cons]; omega,
            fun f => spellLoop_step t _ len f hlt hstep, Or.inr ?_, rfl, rfl, rfl⟩
          simp only [List.length_cons]; omega
        · have hmlt : m + 1 ≤ cs.length := by omega
          have hT : pre ++ (c :: cs ++ r :: rs) =
              (pre ++ c :: cs.take (m + 1)) ++ (cs.drop (m + 1) ++ r :: rs) := by
            have := List.take_append_drop (m + 1) cs
            simp only [List.append_assoc, List.cons_append]
            rw [← List.append_assoc (cs.take (m + 1)), this]
          have hplen : (pre ++ c :: cs.take (m + 1)).length = pre.length + 1 + (m + 1) := by
            simp only [List.length_append, List.length_cons, List.length_take]
            omega
          have hslen : (cs.drop (m + 1)).length = cs.length - (m + 1) := List.length_drop _ _
          have key := ih (cs.drop (m + 1)) (pre ++ c :: cs.take (m + 1))
            { st with i := st.i + 1 + m + 1, word := [], cursor := st.cursor + 1 }
            (by omega) (by rw [hplen]; simp only; omega) rfl
            (fun x hx => hcs x (List.mem_of_mem_drop hx)) (by omega)
          dsimp only at key
          obtain ⟨k, st1, hk, hrun, hpos, hw1, hm1, hmw1⟩ := key
          rw [← hT] at hrun
          refine ⟨k + 1, st1, by simp only [List.length_cons]; omega, ?_, ?_, hw1, hm1, hmw1⟩
          · intro f
            rw [show f + (k + 1) = (f + k) + 1 by omega, spellLoop_step t _ len (f + k) hlt hstep]
            exact hrun f
          · simp only [List.length_cons]
            rcases hpos with h | h
            · left; omega
            · right; omega
      · have hstep : spellStep t (pre ++ (c :: cs ++ r :: rs)) st =
            some { st with i := st.i + 1, cursor := st.cursor + 1 } := by
          simp only [spellStep, hget, hca, hw, List.length_nil, lt_irrefl, decide_False,
            Bool.and_false, Bool.or_false, Bool.false_eq_true, if_false, hd]
        have hT : pre ++ (c :: cs ++ r :: rs) = (pre ++ [c]) ++ (cs ++ r :: rs) := by simp
        have key := ih cs (pre ++ [c]) { st with i := st.i + 1, cursor := st.cursor + 1 }
          (by omega) (by simp [hi]) hw hcs
          (by simp only [List.length_append, List.length_singleton]; omega)
        dsimp only at key
        simp only [List.length_append, List.length_singleton] at key
        obtain ⟨k, st1, hk, hrun, hpos, hw1, hm1, hmw1⟩ := key
        rw [← hT] at hrun
        refine ⟨k + 1, st1, by simp only [List.length_cons]; omega, ?_, ?_, hw1, hm1, hmw1⟩
        · intro f
          rw [show f + (k + 1) = (f + k) + 1 by omega, spellLoop_step t _ len (f + k) hlt hstep]
          exact hrun f
        · simp only [List.length_cons]
          rcases hpos with h | h
          · left; omega
          · right; omega

/-- The bytes before the token: none is a letter and the last is not a digit.
The loop passes them without recording anything and stands on the byte after
them with no token open. -/
theorem spellLoop_head (t : Trie) (len : Nat) (before rest : List Nat) (st : SpellState)
    (hbefore : ∀ c ∈ before, isalpha c = false) (hbd : endsWithDigit before = false)
    (hi : st.i = 0) (hw : st.word = []) (hl : before.length < len) :
    ∃ k st1, k ≤ before.length ∧
      (∀ f, spellLoop t (before ++ rest) len (f + k) st =
        spellLoop t (before ++ rest) len f st1) ∧
      st1.i = before.length ∧ st1.word = [] ∧
      st1.misspellings = st.misspellings ∧ st1.miswords = st.miswords := by
  rcases List.eq_nil_or_concat before with h | ⟨b, x, h⟩
  · subst h
    exact ⟨0, st, le_refl _, fun f => rfl, by simp [hi], hw, rfl, rfl⟩
  · rw [List.concat_eq_append] at h
    subst h
    have hxa : isalpha x = false := hbefore x (by simp)
    have hxd : isdigit x = false := by simpa [endsWithDigit] using hbd
    have hx : isalnum x = false := by simp [isalnum, hxa, hxd]
    simp only [List.length_append, List.length_singleton] at hl
    obtain ⟨k, s0, hk, hrun, hpos, hw0, hm0, hmw0⟩ := spellLoop_noLetters t len x rest hx
      b.length b [] st (le_refl _) (by simp [hi]) hw
      (fun c hc => hbefore c (by simp [hc])) (by simp only [List.length_nil]; omega)
    have hT : [] ++ (b ++ x :: rest) = (b ++ [x]) ++ rest := by simp
    rw [hT] at hrun
    simp only [List.length_nil, Nat.zero_add] at hpos
    rcases hpos with h | h
    · have hstep : spellStep t ((b ++ [x]) ++ rest) s0 =
          some { s0 with i := s0.i + 1, cursor := s0.cursor + 1 } := by
        have hget : ((b ++ [x]) ++ rest)[s0.i]? = some x := by
          rw [h, List.append_assoc]; exact getElem?_mid b x _
        simp only [spellStep, hget, hxa, hw0, List.length_nil, lt_irrefl, decide_False,
          Bool.and_false, Bool.or_false, Bool.false_eq_true, if_false, hxd]
      refine ⟨k + 1, { s0 with i := s0.i + 1, cursor := s0.cursor + 1 },
        by simp only [List.length_append, List.length_singleton]; omega, ?_, ?_, hw0, hm0,
        hmw0⟩
      · intro f
        rw [show f + (k + 1) = (f + 1) + k by omega, hrun (f + 1)]
        exact spellLoop_step t _ len f (by omega) hstep
      · show s0.i + 1 = (b ++ [x]).length
        simp only [List.length_append, List.length_singleton]; omega
    · refine ⟨k, s0, by simp only [List.length_append, List.length_singleton]; omega, hrun,
        ?_, hw0, hm0, hmw0⟩
      simp only [List.length_append, List.length_singleton]; omega

/-- The loop of `spellChecker` on a row made of bytes that are not letters (the
last of them not a digit), a token whose first 45 bytes are letters or
apostrophes (the first a letter) and whose further bytes are letters or a
single apostrophe, and again bytes that are not letters. -/
theorem spellLoop_overlong (t : Trie) (before tk more after : List Nat) (a z c0 : Nat)
    (tl : List Nat) (hbefore : ∀ c ∈ before, isalpha c = false)
    (hbd : endsWithDigit before = false) (ha : isalpha a = true)
    (htk : ∀ c ∈ tk, isTokenByte c) (h44 : tk.length + 1 = LENGTH)
    (hz : isalpha z = true ∨ (z = 39 ∧ more = []))
    (hmore : ∀ c ∈ more, isalpha c = true) (hafter : ∀ c ∈ after, isalpha c = false)
    (h0 : isalnum c0 = false) (F : Nat) (st : SpellState) (hi : st.i = 0) (hw : st.word = [])
    (hF : (before ++ a :: tk ++ z :: more ++ after).length ≤ F) :
    ∃ st1, spellLoop t (before ++ a :: tk ++ z :: more ++ after ++ c0 :: tl)
        (before ++ a :: tk ++ z :: more ++ after).length F st = some st1 ∧
      st1.misspellings = st.misspellings ∧ st1.miswords = st.miswords := by
  obtain ⟨T, hT⟩ : ∃ T, T = before ++ a :: tk ++ z :: more ++ after ++ c0 :: tl := ⟨_, rfl⟩
  obtain ⟨len, hlen⟩ : ∃ len, len = (before ++ a :: tk ++ z :: more ++ after).length :=
    ⟨_, rfl⟩
  have hlen1 : len = before.length + (tk.length + 1) + 1 + more.length + after.length := by
    rw [hlen]; simp only [List.length_append, List.length_cons]; omega
  have h0a : isalpha c0 = false := by
    simp only [isalnum, Bool.or_eq_false_iff] at h0; exact h0.1
  rw [← hT, ← hlen]
  rw [← hlen] at hF
  -- the bytes before the token
  have hT2 : T = before ++ (a :: (tk ++ (z :: (more ++ (after ++ c0 :: tl))))) := by
    rw [hT]; simp
  obtain ⟨k1, s1, hk1, e1, i1, w1, m1, mw1⟩ := spellLoop_head t len before
    (a :: (tk ++ (z :: (more ++ (after ++ c0 :: tl))))) st hbefore hbd hi hw (by omega)
  rw [← hT2] at e1
  obtain ⟨g1, rfl⟩ : ∃ g, F = g + k1 := ⟨F - k1, by omega⟩
  rw [e1 g1]
  -- the first letter
  have hs2 : spellStep t T s1 =
      some { s1 with i := s1.i + 1, word := [a], cursor := s1.cursor + 1 } := by
    rw [hT2]
    simp only [spellStep, i1, getElem?_mid, ha, Bool.true_or, if_true, w1, List.length_nil,
      Nat.zero_le, List.nil_append, List.length_singleton]
    simp [LENGTH]
  obtain ⟨g2, rfl⟩ : ∃ g, g1 = g + 1 := ⟨g1 - 1, by omega⟩
  rw [spellLoop_step t T len g2 (by rw [i1]; omega) hs2]
  -- the rest of the first 45 bytes
  have hT3 : T = (before ++ [a]) ++ (tk ++ (z :: (more ++ (after ++ c0 :: tl)))) := by
    rw [hT]; simp
  obtain ⟨g3, rfl⟩ : ∃ g, g2 = g + tk.length := ⟨g2 - tk.length, by omega⟩
  have key3 := spellLoop_token t len tk (before ++ [a]) (z :: (more ++ (after ++ c0 :: tl))) g3
    { s1 with i := s1.i + 1, word := [a], cursor := s1.cursor + 1 }
    (by simp [i1]) (by simp) htk (by simp only [List.length_singleton]; omega)
    (by simp only [List.length_append, List.length_singleton]; omega)
  dsimp only at key3
  obtain ⟨s3, e3, i3, w3, m3, mw3⟩ := key3
  rw [← hT3] at e3
  rw [e3]
  simp only [List.length_singleton] at w3
  -- the 46th byte
  have hi3 : s3.i = (before ++ a :: tk).length := by
    rw [i3, i1]; simp only [List.length_append, List.length_cons]; omega
  have hT4 : T = (before ++ a :: tk) ++ (z :: (more ++ (after ++ c0 :: tl))) := by
    rw [hT]; simp
  rcases hz with hz | ⟨hz39, hmore0⟩
  swap
  · -- the 46th byte is an apostrophe that ends the token
    subst hz39 hmore0
    have hs4 : spellStep t T s3 =
        some { s3 with i := s3.i + 1, word := [], cursor := s3.cursor + 1 } := by
      have hd : T.drop s3.i = 39 :: ([] ++ (after ++ c0 :: tl)) := by
        rw [hT4, hi3, drop_mid]
      have hg : T[s3.i]? = some 39 := by
        rw [hT4, hi3, getElem?_mid]
      have h1 : s3.word.length ≤ LENGTH := by omega
      have h2 : (s3.word ++ [39]).length > LENGTH := by
        simp only [List.length_append, List.length_singleton]; omega
      have hpos : 0 < s3.word.length := by omega
      have h39 : isalpha 39 = false := by decide
      simp only [spellStep, hg]
      simp only [h39, Bool.false_or, decide_True, Bool.true_and, decide_eq_true_eq, hpos,
        if_true, h1, h2, hd, skipRun, Bool.false_eq_true, if_false]
    simp only [List.length_nil] at hlen1
    obtain ⟨g4, rfl⟩ : ∃ g, g3 = g + 1 := ⟨g3 - 1, by omega⟩
    have hlt4 : s3.i < len := by
      rw [hi3]; simp only [List.length_append, List.length_cons]
      omega
    rw [spellLoop_step t T len g4 hlt4 hs4]
    have hT5 : T = (before ++ a :: tk ++ [39]) ++ (after ++ c0 :: tl) := by
      rw [hT]; simp
    have key5 := spellLoop_noLetters t len c0 tl h0 after.length after
      (before ++ a :: tk ++ [39])
      { s3 with i := s3.i + 1, word := [], cursor := s3.cursor + 1 } (le_refl _)
      (by simp only [hi3, List.length_append, List.length_cons, List.length_nil]) rfl
      hafter
      (by simp only [List.length_append, List.length_cons, List.length_nil]; omega)
    dsimp only at key5
    obtain ⟨k5, s5, hk5, e5, hpos5, w5, m5, mw5⟩ := key5
    rw [← hT5] at e5
    obtain ⟨g5, rfl⟩ : ∃ g, g4 = g + k5 := ⟨g4 - k5, by omega⟩
    rw [e5 g5]
    refine ⟨s5, spellLoop_done t T len g5 s5 ?_, ?_, ?_⟩
    · simp only [List.length_append, List.length_cons, List.length_nil] at hpos5
      rcases hpos5 with h | h <;> omega
    · rw [m5, m3, m1]
    · rw [mw5, mw3, mw1]
  obtain ⟨r, rs, hrs, hr⟩ : ∃ r rs, after ++ c0 :: tl = r :: rs ∧ isalpha r = false := by
    cases after with
    | nil => exact ⟨c0, tl, rfl, h0a⟩
    | cons x xs => exact ⟨x, xs ++ c0 :: tl, rfl, hafter x (List.mem_cons_self _ _)⟩
  have hskip : skipRun isalpha (z :: (more ++ (after ++ c0 :: tl))) s3.i =
      some (s3.i + (more.length + 1)) := by
    have h := skipRun_alpha r rs hr (z :: more) s3.i (by
      intro c hc
      rcases List.mem_cons.mp hc with h | h
      · rw [h]; exact hz
      · exact hmore c h)
    rw [hrs]
    simpa using h
  have hs4 : spellStep t T s3 =
      some { s3 with i := s3.i + (more.length + 1) + 1, word := [], cursor := s3.cursor + 1 } := by
    have hd : T.drop s3.i = z :: (more ++ (after ++ c0 :: tl)) := by
      rw [hT4, hi3, drop_mid]
    have hg : T[s3.i]? = some z := by
      rw [hT4, hi3, getElem?_mid]
    have h1 : s3.word.length ≤ LENGTH := by omega
    have h2 : (s3.word ++ [z]).length > LENGTH := by
      simp only [List.length_append, List.length_singleton]; omega
    simp only [spellStep, hg, hz, Bool.true_or, if_true, h1, h2, hd, hskip]
  obtain ⟨g4, rfl⟩ : ∃ g, g3 = g + 1 := ⟨g3 - 1, by omega⟩
  have hlt4 : s3.i < len := by
    rw [hi3]; simp only [List.length_append, List.length_cons]; omega
  rw [spellLoop_step t T len g4 hlt4 hs4]
  -- the bytes after the token
  cases after with
  | nil =>
    refine ⟨_, spellLoop_done t T len g4 _ ?_, ?_, ?_⟩
    · simp only [hi3, List.length_append, List.length_cons, List.length_nil] at hlen1 ⊢; omega
    · simp only; rw [m3, m1]
    · simp only; rw [mw3, mw1]
  | cons x xs =>
    have hT5 : T = (before ++ a :: tk ++ z :: more ++ [x]) ++ (xs ++ c0 :: tl) := by
      rw [hT]; simp
    simp only [List.length_cons] at hlen1
    have key5 := spellLoop_noLetters t len c0 tl h0 xs.length xs
      (before ++ a :: tk ++ z :: more ++ [x])
      { s3 with i := s3.i + (more.length + 1) + 1, word := [], cursor := s3.cursor + 1 }
      (le_refl _)
      (by simp only [hi3, List.length_append, List.length_cons, List.length_nil]) rfl
      (fun c hc => hafter c (List.mem_cons_of_mem _ hc))
      (by simp only [List.length_append, List.length_cons, List.length_nil]; omega)
    dsimp only at key5
    obtain ⟨k5, s5, hk5, e5, hpos5, w5, m5, mw5⟩ := key5
    rw [← hT5] at e5
    obtain ⟨g5, rfl⟩ : ∃ g, g4 = g + k5 := ⟨g4 - k5, by omega⟩
    rw [e5 g5]
    refine ⟨s5, spellLoop_done t T len g5 s5 ?_, ?_, ?_⟩
    · simp only [List.length_append, List.length_cons, List.length_nil] at hpos5
      rcases hpos5 with h | h <;> omega
    · rw [m5, m3, m1]
    · rw [mw5, mw3, mw1]

/-- The skip of an alphanumeric run inside a row that `runsOk` accepts from the
state `digitSeen`: it stops inside the row or on the byte after it, and the
row beyond the byte it stops on is accepted again from `letters 0`. -/
theorem skipRun_alnum_runsOk (m : Nat) (c0 : Nat) (tl : List Nat) (h0 : isalnum c0 = false) :
    ∀ (cs : List Nat) (i : Nat), runsOk m .digitSeen cs = true →
      ∃ j, skipRun isalnum (cs ++ c0 :: tl) i = some j ∧ i ≤ j ∧ j ≤ i + cs.length ∧
        runsOk m (.letters 0) (cs.drop (j - i + 1)) = true := by
  intro cs
  induction cs with
  | nil =>
    intro i _
    refine ⟨i, ?_, le_refl _, by simp, ?_⟩
    · simp [skipRun, h0]
    · simp [runsOk]
  | cons c cs ih =>
    intro i h
    by_cases hc : isalnum c = true
    · simp only [runsOk, hc, if_true] at h
      obtain ⟨j, hj, h1, h2, h3⟩ := ih (i + 1) h
      refine ⟨j, ?_, by omega, by simp only [List.length_cons]; omega, ?_⟩
      · simp only [List.cons_append, skipRun, hc, if_true]; exact hj
      · have : j - i + 1 = (j - (i + 1) + 1) + 1 := by omega
        rw [this, List.drop_succ_cons]; exact h3
    · simp only [runsOk, hc, Bool.false_eq_true, if_false] at h
      refine ⟨i, ?_, le_refl _, by omega, ?_⟩
      · simp only [List.cons_append, skipRun, hc, Bool.false_eq_true, if_false]
      · simpa using h

/-- On a row that `runsOk` accepts with the bound `LENGTH`, followed in the
buffer by a byte that is neither a letter nor a digit, the loop of
`spellChecker` ends and records nothing. -/
theorem spellLoop_runsOk (t : Trie) (row : List Nat) (c0 : Nat) (tl : List Nat)
    (h0 : isalnum c0 = false) :
    ∀ (f : Nat) (st : SpellState), row.length - st.i ≤ f →
      runsOk LENGTH (.letters st.word.length) (row.drop st.i) = true →
      ∃ st1, spellLoop t (row ++ c0 :: tl) row.length f st = some st1 ∧
        st1.misspellings = st.misspellings ∧ st1.miswords = st.miswords := by
  intro f
  induction f with
  | zero =>
    intro st hf _
    exact ⟨st, spellLoop_done t _ _ 0 st (by omega), rfl, rfl⟩
  | succ f ih =>
    intro st hf hr
    by_cases hi : st.i < row.length
    swap
    · exact ⟨st, spellLoop_done t _ _ _ st (by omega), rfl, rfl⟩
    have hdrop : row.drop st.i = row[st.i] :: row.drop (st.i + 1) :=
      List.drop_eq_getElem_cons hi
    have hget : (row ++ c0 :: tl)[st.i]? = some row[st.i] := by
      rw [List.getElem?_append_left hi, List.getElem?_eq_getElem hi]
    have htd : (row ++ c0 :: tl).drop st.i = row[st.i] :: (row.drop (st.i + 1) ++ c0 :: tl) := by
      rw [List.drop_append_of_le_length (le_of_lt hi), hdrop, List.cons_append]
    rw [hdrop] at hr
    generalize hc : row[st.i] = c at hr hget htd
    by_cases hd : isdigit c = true
    · simp only [runsOk, hd, if_true] at hr
      have halnum : isalnum c = true := by simp [isalnum, hd]
      obtain ⟨j, hj, h1, h2, h3⟩ := skipRun_alnum_runsOk LENGTH c0 tl h0 _ (st.i + 1) hr
      have hstep : spellStep t (row ++ c0 :: tl) st =
          some { st with i := j + 1, word := [], cursor := st.cursor + 1 } := by
        simp only [spellStep, hget, isalpha_of_isdigit hd, ne_apostrophe_of_isdigit hd,
          decide_False, Bool.false_and, Bool.or_false, Bool.false_eq_true, if_false, hd,
          if_true, htd, skipRun, halnum, hj]
      rw [spellLoop_step t _ _ f hi hstep]
      have hlen : (row.drop (st.i + 1)).length = row.length - (st.i + 1) := List.length_drop _ _
      obtain ⟨st1, hst1, ha, hb⟩ := ih { st with i := j + 1, word := [], cursor := st.cursor + 1 }
        (by simp only; omega)
        (by
          simp only [List.length_nil]
          rw [List.drop_drop] at h3
          have : st.i + 1 + (j - (st.i + 1) + 1) = j + 1 := by omega
          rw [this] at h3
          exact h3)
      exact ⟨st1, hst1, ha, hb⟩
    · by_cases ha : isalpha c = true
      · simp only [runsOk, hd, Bool.false_eq_true, if_false, ha, if_true, Bool.and_eq_true,
          decide_eq_true_eq] at hr
        have hk : st.word.length < 45 := hr.1
        have hstep : spellStep t (row ++ c0 :: tl) st =
            some { st with i := st.i + 1, word := st.word ++ [c], cursor := st.cursor + 1 } := by
          have h1 : st.word.length ≤ LENGTH := by simp only [LENGTH]; omega
          have h2 : ¬ (st.word ++ [c]).length > LENGTH := by
            simp only [List.length_append, List.length_singleton, LENGTH]; omega
          simp only [spellStep, hget, ha, Bool.true_or, if_true, h1, h2, if_false]
        rw [spellLoop_step t _ _ f hi hstep]
        obtain ⟨st1, hst1, hx, hy⟩ := ih
          { st with i := st.i + 1, word := st.word ++ [c], cursor := st.cursor + 1 }
          (by simp only; omega)
          (by simp only [List.length_append, List.length_singleton]; exact hr.2)
        exact ⟨st1, hst1, hx, hy⟩
      · simp only [runsOk, hd, Bool.false_eq_true, if_false, ha, Bool.and_eq_true,
          decide_eq_true_eq] at hr
        have hk : st.word.length = 0 := hr.1
        have hstep : spellStep t (row ++ c0 :: tl) st =
            some { st with i := st.i + 1, cursor := st.cursor + 1 } := by
          simp only [spellStep, hget, ha, hk, lt_irrefl, decide_False, Bool.and_false,
            Bool.or_false, Bool.false_eq_true, if_false, hd]
        rw [spellLoop_step t _ _ f hi hstep]
        obtain ⟨st1, hst1, hx, hy⟩ := ih { st with i := st.i + 1, cursor := st.cursor + 1 }
          (by simp only; omega)
          (by simp only [hk]; exact hr.2)
        exact ⟨st1, hst1, hx, hy⟩

/-- C23 (counterexample): a row whose only token is 46 letters "a" followed by
"'zz" (49 characters) and a space, with the dictionary of the single word
"a": `spellChecker` returns 1 and records the span 46 to 48. The skip after
the 46th character stops at the apostrophe, and "zz" is then read as a new
token. In the second row the token "ab'" followed by 44 letters "c" (47
characters) stands right after the digit "1": the skip of the digit run
takes "ab" with it, the rest is looked up, and the count is 1 again. -/
theorem spellChecker_overlong_token_counted :
    (load [97, 10]).bind (fun t =>
      (spellChecker t freshMiswords (List.replicate 46 97 ++ [39, 122, 122, 32, 0]) 50 0).map
        (fun r => (r.1, r.2.take 1))) = some (1, [⟨46, 48⟩]) ∧
    (load [97, 10]).bind (fun t =>
      (spellChecker t freshMiswords ([49, 97, 98, 39] ++ List.replicate 44 99 ++ [32, 0]) 49 0).map
        (fun r => (r.1, r.2.take 1))) = some (1, [⟨1, 45⟩]) := by
  decide

/-- C23 (amended): the row consists of bytes that are not letters (`before`),
the last of them not a digit, one token, and again bytes that are not letters
(`after`, apostrophes at the end of the token included). The first 45
characters of the token (`a :: tk`) are letters and apostrophes, the first a
letter; from the 46th character on (`z :: more`) no letter follows an
apostrophe: these characters are letters, or `z` is an apostrophe and only
apostrophes follow (in `after`). The buffer holds a byte that is neither a
letter nor a digit after the row. Then `spellChecker` returns 0 for every trie
and leaves `miswords` as it was; the result is defined, so no write to `word`
goes to an index above 45. -/
theorem spellChecker_overlong_token (t : Trie) (miswords : List misspelling)
    (before tk more after : List Nat) (a z c0 : Nat) (tl : List Nat)
    (hbefore : ∀ c ∈ before, isalpha c = false) (hbd : endsWithDigit before = false)
    (ha : isalpha a = true)
    (htk : ∀ c ∈ tk, isTokenByte c) (h44 : tk.length + 1 = LENGTH)
    (hz : isalpha z = true ∨ (z = 39 ∧ more = []))
    (hmore : ∀ c ∈ more, isalpha c = true) (hafter : ∀ c ∈ after, isalpha c = false)
    (h0 : isalnum c0 = false) :
    spellChecker t miswords (before ++ a :: tk ++ z :: more ++ after ++ c0 :: tl)
      (before ++ a :: tk ++ z :: more ++ after).length 0 = some (0, miswords) := by
  obtain ⟨st1, h1, h2, h3⟩ := spellLoop_overlong t before tk more after a z c0 tl hbefore hbd
    ha htk h44 hz hmore hafter h0 (before ++ a :: tk ++ z :: more ++ after).length
    ⟨0, [], 0, 0, 0, miswords⟩ rfl rfl (le_refl _)
  simp only [spellChecker, h1]
  simp only at h2 h3
  rw [h2, h3]

theorem spellChecker_overlong_token_witness :
    (∀ c ∈ [49, 50, 32], isalpha c = false) ∧ endsWithDigit [49, 50, 32] = false ∧
    isalpha 97 = true ∧
    (∀ c ∈ List.replicate 44 39, isTokenByte c) ∧ (List.replicate 44 39).length + 1 = LENGTH ∧
    (isalpha 122 = true ∨ (122 = 39 ∧ [98] = [])) ∧ (∀ c ∈ [98], isalpha c = true) ∧
    (∀ c ∈ [39, 32, 55], isalpha c = false) ∧ isalnum 0 = false ∧
    spellChecker ⟨[], 0⟩ []
      ([49, 50, 32] ++ 97 :: List.replicate 44 39 ++ 122 :: [98] ++ [39, 32, 55] ++ 0 :: [])
      ([49, 50, 32] ++ 97 :: List.replicate 44 39 ++ 122 :: [98] ++ [39, 32, 55]).length 0 =
      some (0, []) :=
  ⟨by decide, by decide, by decide, by decide, by decide, by decide, by decide, by decide,
   by decide,
   spellChecker_overlong_token ⟨[], 0⟩ [] [49, 50, 32] (List.replicate 44 39) [98] [39, 32, 55]
     97 122 0 [] (by decide) (by decide) (by decide) (by decide) (by decide) (by decide)
     (by decide) (by decide) (by decide)⟩

/-- C24: in the row of 46 letters "a" followed by "1zz" and a space, the only
maximal run of alphanumeric bytes holds a digit (the bound on the letters is
the length of the row, so it says nothing), yet with the dictionary of the
single word "a" `spellChecker` returns 1 and records the span 46 to 48. The
46th letter makes the token over-long; the skip of the letters stops at the
digit, the `i++` of the `for` loop then passes over the digit without testing
it, and "zz" is read as a token and looked up. -/
theorem spellChecker_digit_after_overlong_run :
    runsOk 50 (.letters 0) (List.replicate 46 97 ++ [49, 122, 122, 32]) = true ∧
    (load [97, 10]).bind (fun t =>
      (spellChecker t freshMiswords (List.replicate 46 97 ++ [49, 122, 122, 32, 0]) 50 0).map
        (fun r => (r.1, r.2.take 1))) = some (1, [⟨46, 48⟩]) := by
  decide

/-- The digit rule where the length guard stays out of the way: every maximal
run of alphanumeric bytes of the row holds a digit, at most `LENGTH` letters
come before the first digit of a run, and the buffer holds a byte that is
neither a letter nor a digit after the row. Then `spellChecker` returns 0 for
every trie and leaves `miswords` as it was. -/
theorem spellChecker_digit_runs (t : Trie) (miswords : List misspelling) (row : List Nat)
    (c0 : Nat) (tl : List Nat) (h0 : isalnum c0 = false)
    (h : runsOk LENGTH (.letters 0) row = true) :
    spellChecker t miswords (row ++ c0 :: tl) row.length 0 = some (0, miswords) := by
  obtain ⟨st1, h1, h2, h3⟩ := spellLoop_runsOk t row c0 tl h0 row.length
    ⟨0, [], 0, 0, 0, miswords⟩ (by simp) (by simpa using h)
  simp only [spellChecker, h1]
  simp only at h2 h3
  rw [h2, h3]

theorem spellChecker_digit_runs_witness :
    isalnum 0 = false ∧
    runsOk LENGTH (.letters 0) [97, 98, 49, 99, 32, 120, 57, 32, 52, 50] = true ∧
    spellChecker ⟨[], 0⟩ [] ([97, 98, 49, 99, 32, 120, 57, 32, 52, 50] ++ 0 :: [])
      [97, 98, 49, 99, 32, 120, 57, 32, 52, 50].length 0 = some (0, []) :=
  ⟨by decide, by decide,
   spellChecker_digit_runs ⟨[], 0⟩ [] [97, 98, 49, 99, 32, 120, 57, 32, 52, 50] 0 []
     (by decide) (by decide)⟩

/-- C27: the dictionary of the single word "a" loads. On a row of 101 tokens
"z", each followed by a space, `spellChecker` stores the 101st span at
`miswords[100]`, outside the 100 entries `loadDictionary` allocated: the test
`misspellings-1==INITIAL_SIZE` is first true one entry later, and the
`realloc` it guards assigns to a local variable. On a row of 100 such tokens
the count is 100. -/
theorem spellChecker_overflows_miswords :
    (load [97, 10]).isSome = true ∧
    (load [97, 10]).bind (fun t => spellChecker t freshMiswords
      ((List.range 101).flatMap (fun _ => [122, 32])) 202 0) = none ∧
    ((load [97, 10]).bind (fun t => spellChecker t freshMiswords
      ((List.range 100).flatMap (fun _ => [122, 32])) 200 0)).map (fun r => r.1) = some 100 := by
  decide

end Spell

/-! ## The highlight mask; status bar, log file name, cursor keys, modified flag -/

namespace Editor

open Dict Spell

theorem hlOk_renderRow (E : editorData) (r : rows) : hlOk (renderRow E r) := by
  simp [hlOk, renderRow, highlightWords, rows.rsize]

theorem hlInv_of_row_eq {E E1 : editorData} (h : E1.row = E.row) (hI : hlInv E) : hlInv E1 := by
  unfold hlInv at *
  rw [h]; exact hI

theorem hlInv_setRow {E : editorData} (i : Int) {r : rows} (hI : hlInv E) (hr : hlOk r) :
    hlInv (setRow E i r) := by
  intro x hx
  rcases List.mem_or_eq_of_mem_set hx with h | h
  · exact hI x h
  · rw [h]; exact hr

theorem hlInv_writeRow {E : editorData} (i : Int) (line : List Nat) (hI : hlInv E) :
    hlInv (writeRow E i line) := by
  unfold writeRow
  split
  · exact hI
  · intro x hx
    simp only [List.mem_append, List.mem_cons] at hx
    rcases hx with h | h | h
    · exact hI x (List.mem_of_mem_take h)
    · rw [h]; exact hlOk_renderRow _ _
    · exact hI x (List.mem_of_mem_drop h)

theorem hlInv_moveUp {E : editorData} (hI : hlInv E) : hlInv (moveUp E) := by
  unfold moveUp
  split
  · exact hI
  · intro x hx
    simp only [List.mem_append] at hx
    rcases hx with h | h
    · exact hI x (List.mem_of_mem_take h)
    · exact hI x (List.mem_of_mem_drop h)

theorem hlInv_insertCharToRow {E E1 : editorData} {c : Int} (hI : hlInv E)
    (h : insertCharToRow E c = some E1) : hlInv E1 := by
  unfold insertCharToRow at h
  cases hr : getRow E E.cy with
  | none => rw [hr] at h; cases h
  | some r =>
    rw [hr] at h
    simp only [Option.some.injEq] at h
    rw [← h]
    exact hlInv_of_row_eq rfl (hlInv_setRow _ hI (hlOk_renderRow _ _))

theorem hlInv_insertChar {E E1 : editorData} {c : Int} (hI : hlInv E)
    (h : insertChar E c = some E1) : hlInv E1 := by
  unfold insertChar at h
  simp only at h
  refine hlInv_insertCharToRow ?_ h
  split
  · exact hlInv_writeRow _ _ (hlInv_of_row_eq rfl hI)
  · exact hlInv_of_row_eq rfl hI

theorem hlInv_insertNewline {E E1 : editorData} (hI : hlInv E)
    (h : insertNewline E = some E1) : hlInv E1 := by
  unfold insertNewline at h
  split at h
  · simp only [Option.some.injEq] at h
    rw [← h]
    exact hlInv_of_row_eq rfl (hlInv_writeRow _ _ hI)
  · cases hr : getRow E E.cy with
    | none => rw [hr] at h; cases h
    | some r =>
      rw [hr] at h
      simp only at h
      split at h
      · cases hr1 : getRow (writeRow E (E.cy + 1) (List.drop E.cx.toNat r.chars))
            (writeRow E (E.cy + 1) (List.drop E.cx.toNat r.chars)).cy with
        | none => rw [hr1] at h; cases h
        | some r1 =>
          rw [hr1] at h
          simp only [Option.some.injEq] at h
          rw [← h]
          exact hlInv_of_row_eq rfl (hlInv_setRow _ (hlInv_writeRow _ _ hI) (hlOk_renderRow _ _))
      · cases h

theorem hlInv_deleteCharinRow {E E1 : editorData} (hI : hlInv E)
    (h : deleteCharinRow E = some E1) : hlInv E1 := by
  unfold deleteCharinRow at h
  cases hr : getRow E E.cy with
  | none => rw [hr] at h; cases h
  | some r =>
    rw [hr] at h
    simp only at h
    split at h
    · simp only [Option.some.injEq] at h; rw [← h]; exact hI
    · simp only [Option.some.injEq] at h
      rw [← h]
      exact hlInv_of_row_eq rfl (hlInv_setRow _ hI (hlOk_renderRow _ _))

theorem hlInv_deleteMoveUp {E E1 : editorData} (hI : hlInv E)
    (h : deleteMoveUp E = some E1) : hlInv E1 := by
  unfold deleteMoveUp at h
  split at h
  · simp only [Option.some.injEq] at h
    rw [← h]
    exact hlInv_of_row_eq rfl (hlInv_moveUp (hlInv_setRow _ (hlInv_of_row_eq rfl hI)
      (hlOk_renderRow _ _)))
  · cases h

theorem hlInv_deleteChar {E E1 : editorData} (hI : hlInv E)
    (h : deleteChar E = some E1) : hlInv E1 := by
  unfold deleteChar at h
  split at h
  · simp only [Option.some.injEq] at h; rw [← h]; exact hI
  · split at h
    · exact hlInv_deleteCharinRow hI h
    · exact hlInv_deleteMoveUp hI h

theorem hlInv_deleteLineLoop : ∀ (n : Nat) {E E1 : editorData}, hlInv E →
    deleteLineLoop n E = some E1 → hlInv E1 := by
  intro n
  induction n with
  | zero =>
    intro E E1 hI h
    unfold deleteLineLoop at h
    cases hr : getRow E E.cy with
    | none => rw [hr] at h; cases h
    | some r =>
      rw [hr] at h
      simp only at h
      split at h
      · cases h
      · simp only [Option.some.injEq] at h; rw [← h]; exact hI
  | succ n ih =>
    intro E E1 hI h
    unfold deleteLineLoop at h
    cases hr : getRow E E.cy with
    | none => rw [hr] at h; cases h
    | some r =>
      rw [hr] at h
      simp only at h
      split at h
      · cases hd : deleteCharinRow E with
        | none => rw [hd] at h; cases h
        | some E2 =>
          rw [hd] at h
          exact ih (hlInv_deleteCharinRow hI hd) h
      · simp only [Option.some.injEq] at h; rw [← h]; exact hI

theorem hlInv_deleteLine {E E1 : editorData} (hI : hlInv E)
    (h : deleteLine E = some E1) : hlInv E1 := by
  unfold deleteLine at h
  cases hr : getRow E E.cy with
  | none => rw [hr] at h; cases h
  | some r =>
    rw [hr] at h
    simp only at h
    cases hl : deleteLineLoop r.chars.length { E with cx := r.size } with
    | none => rw [hl] at h; cases h
    | some E2 =>
      rw [hl] at h
      simp only [Option.some.injEq] at h
      have hI0 : hlInv { E with cx := r.size } := hlInv_of_row_eq rfl hI
      have hI2 := hlInv_deleteLineLoop _ hI0 hl
      rw [← h]
      split
      · exact hlInv_moveUp hI2
      · exact hI2

theorem hlInv_markRow (miswords : List misspelling) (i : Nat) : ∀ (n j : Nat)
    {E E1 : editorData}, hlInv E → markRow miswords i n j E = some E1 → hlInv E1 := by
  intro n
  induction n with
  | zero =>
    intro j E E1 hI h
    simp only [markRow, Option.some.injEq] at h
    rw [← h]; exact hI
  | succ n ih =>
    intro j E E1 hI h
    unfold markRow at h
    split at h
    · refine ih (j + 1) ?_ h
      intro x hx
      rcases List.mem_or_eq_of_mem_set hx with hx | hx
      · exact hI x hx
      · rw [hx]; exact hlOk_renderRow _ _
    · cases h

theorem hlInv_checkRows (t : Trie) : ∀ (n i : Nat) (miswords : List misspelling)
    {E E1 : editorData}, hlInv E → checkRows t n i miswords E = some E1 → hlInv E1 := by
  intro n
  induction n with
  | zero =>
    intro i mw E E1 hI h
    simp only [checkRows, Option.some.injEq] at h
    rw [← h]; exact hI
  | succ n ih =>
    intro i mw E E1 hI h
    unfold checkRows at h
    cases hr : E.row[i]? with
    | none => rw [hr] at h; cases h
    | some r =>
      rw [hr] at h
      simp only at h
      cases hs : spellChecker t mw r.buffer r.chars.length 0 with
      | none => rw [hs] at h; cases h
      | some p =>
        rcases p with ⟨miss, mw1⟩
        rw [hs] at h
        simp only at h
        cases hm : markRow mw1 i miss 0 E with
        | none => rw [hm] at h; cases h
        | some E2 =>
          rw [hm] at h
          exact ih (i + 1) mw1 (hlInv_markRow mw1 i miss 0 hI hm) h

theorem hlInv_spellCheck {dictionary : Option (List Nat)} {E E1 : editorData} (hI : hlInv E)
    (h : spellCheck dictionary E = .returns E1) : hlInv E1 := by
  unfold spellCheck at h
  cases hl : loadDictionary dictionary with
  | none => rw [hl] at h; cases h
  | some p =>
    rcases p with ⟨ret, loaded⟩
    rw [hl] at h
    simp only at h
    split at h
    · cases h
    · cases loaded with
      | none => cases h
      | some q =>
        rcases q with ⟨t, mw⟩
        simp only at h
        cases hc : checkRows t E.row.length 0 mw E with
        | none => rw [hc] at h; cases h
        | some E2 =>
          rw [hc] at h
          simp only [Outcome.returns.injEq] at h
          have hI2 : hlInv E2 := hlInv_checkRows t _ _ _ hI hc
          rw [← h]
          exact hlInv_of_row_eq rfl hI2

/-- C26: in a state in which every row has a highlight mask of the length of
its render form and the cursor invariant holds, `renderRow` gives any row
such a mask, and every row has one after `writeRow`, after `insertChar`,
`insertNewline` and `deleteChar` (each of which returns), after `deleteLine`
with the cursor on a row (which returns), and after `spellCheck` whenever it
returns to the editor. -/
theorem hl_mask_length_invariant (E : editorData) (hI : hlInv E) (hc : cursorInv E) :
    (∀ r : rows, hlOk (renderRow E r)) ∧
    (∀ (i : Int) (line : List Nat), hlInv (writeRow E i line)) ∧
    (∀ c : Int, ∃ E1, insertChar E c = some E1 ∧ hlInv E1) ∧
    (∃ E1, insertNewline E = some E1 ∧ hlInv E1) ∧
    (∃ E1, deleteChar E = some E1 ∧ hlInv E1) ∧
    (E.cy < E.numrows → ∃ E1, deleteLine E = some E1 ∧ hlInv E1) ∧
    (∀ (dictionary : Option (List Nat)) (E1 : editorData),
      spellCheck dictionary E = .returns E1 → hlInv E1) := by
  refine ⟨fun r => hlOk_renderRow E r, fun i line => hlInv_writeRow i line hI, ?_, ?_, ?_, ?_,
    ?_⟩
  · intro c
    obtain ⟨E1, h1, _⟩ := insertChar_inv c hc
    exact ⟨E1, h1, hlInv_insertChar hI h1⟩
  · obtain ⟨E1, h1, _⟩ := insertNewline_inv hc
    exact ⟨E1, h1, hlInv_insertNewline hI h1⟩
  · obtain ⟨E1, h1, _⟩ := deleteChar_inv hc
    exact ⟨E1, h1, hlInv_deleteChar hI h1⟩
  · intro hlt
    rcases getRow_isSome (E := E) hc.1 hlt with ⟨r, hr⟩
    rcases deleteLineLoop_spec r.chars.length { E with cx := r.size } r hr rfl rfl with
      ⟨E2, hloop, _⟩
    have hd : deleteLine E = some (if E2.cy < E2.numrows then moveUp E2 else E2) := by
      unfold deleteLine
      rw [hr]
      simp only
      rw [hloop]
    exact ⟨_, hd, hlInv_deleteLine hI hd⟩
  · intro dictionary E1 h
    exact hlInv_spellCheck hI h

theorem hl_mask_length_invariant_witness :
    hlInv (writeRow {} 0 [9, 97]) ∧ cursorInv (writeRow {} 0 [9, 97]) ∧
    ((∀ r : rows, hlOk (renderRow (writeRow {} 0 [9, 97]) r)) ∧
    (∀ (i : Int) (line : List Nat), hlInv (writeRow (writeRow {} 0 [9, 97]) i line)) ∧
    (∀ c : Int, ∃ E1, insertChar (writeRow {} 0 [9, 97]) c = some E1 ∧ hlInv E1) ∧
    (∃ E1, insertNewline (writeRow {} 0 [9, 97]) = some E1 ∧ hlInv E1) ∧
    (∃ E1, deleteChar (writeRow {} 0 [9, 97]) = some E1 ∧ hlInv E1) ∧
    ((writeRow {} 0 [9, 97]).cy < (writeRow {} 0 [9, 97]).numrows →
      ∃ E1, deleteLine (writeRow {} 0 [9, 97]) = some E1 ∧ hlInv E1) ∧
    (∀ (dictionary : Option (List Nat)) (E1 : editorData),
      spellCheck dictionary (writeRow {} 0 [9, 97]) = .returns E1 → hlInv E1)) :=
  ⟨by decide, by decide, hl_mask_length_invariant (writeRow {} 0 [9, 97]) (by decide) (by decide)⟩

/-- After `insertNewline` has split the row "a1b" behind the digit, the first
row ends in a digit and has a NUL at `chars[size]`, where the skip of the
digit run stops; `spellCheck` with the dictionary of the single word "a"
returns, and every tag is `NORMAL`. -/
theorem spellCheck_returns_on_split_row :
    (insertNewline { writeRow {} 0 [97, 49, 98] with cx := 2 }).map
      (fun E => (E.row.map (fun r => (r.chars, r.term)), (spellCheck (some [97, 10]) E).masks)) =
      some ([([97, 49], some 0), ([98], none)], some [[0, 0], [0]]) := by
  decide

/-- C25: with no file name, no rows, the cursor on row 0 and a screen 10
columns wide, `displayStatusBar` emits the 28 bytes of
"[ [No Name] - READ 0 LINES ]" between the two colour codes: the text is
never cut to `screencols`. With a file name of 70 letters `snprintf` returns
89, and `bufferWrite` reads 89 bytes from the 80-byte array `status`. -/
theorem displayStatusBar_not_cut_to_width :
    (displayStatusBar none { screencols := 10 }).map List.length = some 28 ∧
    displayStatusBar (some (List.replicate 70 97)) { screencols := 120 } = none := by
  decide

/-- C28: `changeLogFilename` on "hello.txt" returns "hell.log", not
"hello.log": the NUL is stored at `strlen(filename) - index` (9 - 5 = 4), not
at the index of the dot. On "ab.txt" the NUL goes to index 4 and `strcat`
writes ".log" and its NUL at indices 4 to 8 of a 7-byte copy. -/
theorem changeLogFilename_cuts_at_wrong_index :
    changeLogFilename [104, 101, 108, 108, 111, 46, 116, 120, 116] =
      some [104, 101, 108, 108, 46, 108, 111, 103] ∧
    changeLogFilename [97, 98, 46, 116, 120, 116] = none := by
  decide

/-- C29: the document has the single row "a" and the cursor is on the line
past it (`cy = numrows = 1`, `cx = 0`), which satisfies the cursor invariant.
`moveCursor(ARROW_RIGHT)` moves the cursor to row 0: the `break` of the case
stands inside `if (row)`, so with no row under the cursor control falls
through into the case `ARROW_UP`. -/
theorem moveCursor_right_falls_through_to_up :
    cursorInv { writeRow {} 0 [97] with cy := 1 } ∧
    ({ writeRow {} 0 [97] with cy := 1 } : editorData).cy =
      ({ writeRow {} 0 [97] with cy := 1 } : editorData).numrows ∧
    (moveCursor { writeRow {} 0 [97] with cy := 1 } ARROW_RIGHT).map
      (fun E1 => (E1.cx, E1.cy)) = some (0, 0) := by
  decide

/-- C30: with the rows "a" and "b", the flag `modified` false and the cursor at
the head of row 1, `deleteChar` merges the two rows into "ab" and the flag
is still false; with the rows "" and "b" and the cursor on row 0,
`deleteLine` removes the empty row and the flag is still false. Only
`deleteCharinRow` sets the flag; `deleteMoveUp` and `moveUp` do not. -/
theorem delete_leaves_modified_unset :
    cursorInv { writeRow (writeRow {} 0 [97]) 1 [98] with modified := false, cy := 1 } ∧
    (deleteChar { writeRow (writeRow {} 0 [97]) 1 [98] with modified := false, cy := 1 }).map
      (fun E1 => (E1.row.map (fun r => r.chars), E1.modified)) = some ([[97, 98]], false) ∧
    cursorInv { writeRow (writeRow {} 0 []) 1 [98] with modified := false } ∧
    (deleteLine { writeRow (writeRow {} 0 []) 1 [98] with modified := false }).map
      (fun E1 => (E1.row.map (fun r => r.chars), E1.modified)) = some ([[98]], false) := by
  decide

end Editor
/-! ## Render column, line deletion past the last row, file round trip, reads past the row -/

namespace Editor

open Dict Spell

theorem foldl_totlen (rs : List rows) : ∀ (tot : Int),
    rs.foldl (fun (tot : Int) (r : rows) => tot + (r.size + 1)) tot =
      tot + (rs.map (fun r => r.size + 1)).sum := by
  induction rs with
  | nil => intro tot; simp
  | cons r rs ih =>
    intro tot
    simp only [List.foldl_cons, List.map_cons, List.sum_cons]
    rw [ih]; omega

theorem foldl_string (rs : List rows) : ∀ (s : List Nat),
    rs.foldl (fun (s : List Nat) (r : rows) => s ++ r.chars ++ [10]) s =
      s ++ rs.flatMap (fun r => r.chars ++ [10]) := by
  induction rs with
  | nil => intro s; simp
  | cons r rs ih =>
    intro s
    simp only [List.foldl_cons, List.flatMap_cons]
    rw [ih]; simp

theorem getline_line : ∀ (cs rest : List Nat), 10 ∉ cs →
    getline (cs ++ 10 :: rest) = some (cs ++ [10], rest) := by
  intro cs
  induction cs with
  | nil => intro rest _; simp [getline]
  | cons c cs ih =>
    intro rest h
    have hc : c ≠ 10 := fun e => h (by simp [e])
    have hcs : 10 ∉ cs := fun e => h (List.mem_cons_of_mem _ e)
    have e := ih rest hcs
    simp only [List.cons_append, getline, hc, if_false]
    show (match getline (cs ++ 10 :: rest) with
      | none => some ([c], [])
      | some (line, rest) => some (c :: line, rest)) = some (c :: (cs ++ [10]), rest)
    rw [e]

theorem stripEol_line (cs : List Nat) : stripEol (cs ++ [10]) = cs := by
  simp [stripEol]

theorem loadLines_rows : ∀ (rs : List rows) (fuel : Nat) (E : editorData),
    (∀ r ∈ rs, 10 ∉ r.chars) → (rs.flatMap (fun r => r.chars ++ [10])).length ≤ fuel →
    ∃ E1, loadLines fuel (rs.flatMap (fun r => r.chars ++ [10])) E = some E1 ∧
      E1.row.map (fun r => r.chars) = E.row.map (fun r => r.chars) ++ rs.map (fun r => r.chars) := by
  intro rs
  induction rs with
  | nil =>
    intro fuel E _ _
    refine ⟨E, ?_, by simp⟩
    cases fuel <;> simp [loadLines, getline]
  | cons r rs ih =>
    intro fuel E h hf
    have hr : 10 ∉ r.chars := h r (List.mem_cons_self _ _)
    simp only [List.flatMap_cons, List.length_append, List.length_singleton] at hf
    obtain ⟨f, rfl⟩ : ∃ f, fuel = f + 1 := ⟨fuel - 1, by omega⟩
    obtain ⟨E1, h1, h2⟩ := ih f (writeRow E E.numrows r.chars)
      (fun x hx => h x (List.mem_cons_of_mem _ hx)) (by omega)
    refine ⟨E1, ?_, ?_⟩
    · simp only [List.flatMap_cons, List.append_assoc, List.singleton_append, loadLines,
        getline_line r.chars _ hr, stripEol_line]
      exact h1
    · rw [h2, row_writeRow r.chars (by unfold editorData.numrows; omega) (le_refl _)]
      unfold editorData.numrows
      simp

/-- C31: with the cursor on a row and its column between 0 and the size of the
row, `scroll` returns, and the render column `rx` it computes is the length of
the render form `renderRow` gives the first `cx` bytes of the row. -/
theorem scroll_rx_is_render_length (E : editorData) (r : rows) (hr : getRow E E.cy = some r)
    (h0 : 0 ≤ E.cx) (h1 : E.cx ≤ r.size) :
    ∃ E1, scroll E = some E1 ∧
      E1.rx = ((renderRow E { r with chars := r.chars.take E.cx.toNat }).render.length : Int) := by
  rcases scroll_eq hr h0 h1 with ⟨v, hv, hs⟩
  refine ⟨_, hs, ?_⟩
  show v = _
  have hk := rxLoop_eq_tabExpansion r.chars E.cx.toNat 0 [] (by unfold rows.size at h1; omega)
  simp only [List.length_nil, Nat.cast_zero, List.drop_zero] at hk
  rw [hk] at hv
  simp only [Option.some.injEq] at hv
  rw [← hv, renderRow_render, renderRow_chars]

theorem scroll_rx_is_render_length_witness :
    getRow { writeRow {} 0 [97, 9, 98] with cx := 2 }
      ({ writeRow {} 0 [97, 9, 98] with cx := 2 } : editorData).cy =
      some (renderRow {} { chars := [97, 9, 98], render := [], hl := [] }) ∧
    (0 : Int) ≤ ({ writeRow {} 0 [97, 9, 98] with cx := 2 } : editorData).cx ∧
    ({ writeRow {} 0 [97, 9, 98] with cx := 2 } : editorData).cx ≤
      (renderRow {} { chars := [97, 9, 98], render := [], hl := [] }).size ∧
    ∃ E1, scroll { writeRow {} 0 [97, 9, 98] with cx := 2 } = some E1 ∧
      E1.rx = ((renderRow { writeRow {} 0 [97, 9, 98] with cx := 2 }
        { renderRow {} { chars := [97, 9, 98], render := [], hl := [] } with
          chars := (renderRow {} { chars := [97, 9, 98], render := [], hl := [] }).chars.take
            ({ writeRow {} 0 [97, 9, 98] with cx := 2 } : editorData).cx.toNat }).render.length
        : Int) :=
  ⟨by decide, by decide, by decide,
   scroll_rx_is_render_length { writeRow {} 0 [97, 9, 98] with cx := 2 }
     (renderRow {} { chars := [97, 9, 98], render := [], hl := [] }) (by decide) (by decide)
     (by decide)⟩

/-- C32: the empty document with the cursor at the origin, and the document of
the single row "a" with the cursor on the line past it, satisfy the cursor
invariant with `cy = numrows`. `deleteLine` starts with `E.cx = row->size`
for `row = &E.row[E.cy]`, a row that does not exist, before any test of `E.cy`
against `E.numrows`: it reads outside the rows. `deleteChar` returns at once
in the same states. -/
theorem deleteLine_reads_row_past_the_last :
    cursorInv {} ∧ ({} : editorData).cy = ({} : editorData).numrows ∧
    deleteLine {} = none ∧ deleteChar {} = some {} ∧
    cursorInv { writeRow {} 0 [97] with cy := 1 } ∧
    ({ writeRow {} 0 [97] with cy := 1 } : editorData).cy =
      ({ writeRow {} 0 [97] with cy := 1 } : editorData).numrows ∧
    deleteLine { writeRow {} 0 [97] with cy := 1 } = none := by
  decide

/-- C33: for a document whose rows hold no newline byte, `loadFile` on the
string `rowsToString` produces returns, and the rows it appends to the rows of
the state it starts from have the bytes of the rows of the document, in the
same order; the length `rowsToString` reports is the sum of `size + 1` over the
rows. -/
theorem rowsToString_loadFile_round_trip (E E0 : editorData)
    (h : ∀ r ∈ E.row, 10 ∉ r.chars) :
    (∃ E1, loadFile (some (rowsToString E).1) E0 = some E1 ∧
      E1.row.map (fun r => r.chars) =
        E0.row.map (fun r => r.chars) ++ E.row.map (fun r => r.chars)) ∧
    (rowsToString E).2 = (E.row.map (fun r => r.size + 1)).sum := by
  constructor
  · have hs : (rowsToString E).1 = E.row.flatMap (fun r => r.chars ++ [10]) := by
      simp only [rowsToString, foldl_string, List.nil_append]
    obtain ⟨E1, h1, h2⟩ := loadLines_rows E.row
      (E.row.flatMap (fun r => r.chars ++ [10])).length E0 h (le_refl _)
    refine ⟨{ E1 with modified := false }, ?_, h2⟩
    simp only [loadFile, hs, h1]
  · simp only [rowsToString, foldl_totlen, zero_add]

theorem rowsToString_loadFile_round_trip_witness :
    (∀ r ∈ (writeRow (writeRow {} 0 [97, 13]) 1 []).row, 10 ∉ r.chars) ∧
    ((∃ E1, loadFile (some (rowsToString (writeRow (writeRow {} 0 [97, 13]) 1 [])).1) {} = some E1 ∧
      E1.row.map (fun r => r.chars) =
        ({} : editorData).row.map (fun r => r.chars) ++
          (writeRow (writeRow {} 0 [97, 13]) 1 []).row.map (fun r => r.chars)) ∧
    (rowsToString (writeRow (writeRow {} 0 [97, 13]) 1 [])).2 =
      ((writeRow (writeRow {} 0 [97, 13]) 1 []).row.map (fun r => r.size + 1)).sum) :=
  ⟨by decide,
   rowsToString_loadFile_round_trip (writeRow (writeRow {} 0 [97, 13]) 1 []) {} (by decide)⟩

end Editor

namespace Spell

open Dict

/-- C34: the dictionary of the single word "a" loads. For the row "1" of length
1 in a buffer of exactly one byte, the loop `while (isalnum(text[i])) i++` of
the digit branch tests `text[1]`, a byte outside `text[0..len)`; with the
buffers "1" followed by NUL and "1" followed by "a", which agree on the first
byte, the first call returns 0 and the second reads on past the end of its
buffer. A row of 46 letters in a buffer of 46 bytes makes the loop of the
length guard test `text[46]` in the same way. -/
theorem spellChecker_reads_past_len :
    (load [97, 10]).isSome = true ∧
    (load [97, 10]).bind (fun t => spellChecker t freshMiswords [49] 1 0) = none ∧
    ((load [97, 10]).bind (fun t => spellChecker t freshMiswords [49, 0] 1 0)).map
      (fun r => r.1) = some 0 ∧
    (load [97, 10]).bind (fun t => spellChecker t freshMiswords [49, 97] 1 0) = none ∧
    (load [97, 10]).bind (fun t =>
      spellChecker t freshMiswords (List.replicate 46 97) 46 0) = none := by
  decide

end Spell
